import Mathlib

/-! # DVFS real-time scheduling simulator: embedding and verified properties

Shallow embedding of `simulator.c`, in two layers that share the data
structures, the queue operations and the integer code.

* The exact layer (namespace `Simulator`) reads a C `double` as the rational it
  would be without rounding: every arithmetic operation is exact.  It carries
  the properties of the control structure (queues, counters, cursors,
  termination), which do not depend on how a quotient or a sum is rounded, and
  the contracts of single functions on the values they are given.  The only
  irrational quantity of the source, the bound
  `n * (pow(2.0, 1.0 / n) - 1.0)`, is compared against exactly
  (`le_liu_layland_bound`, proved equivalent to the real inequality).
* The binary64 layer (namespace `Simulator.F64`) repeats the numeric code with
  the rounding of the machine: a `double` is the rational it denotes and every
  operation is followed by `F64.fl`, the rounding to the nearest binary64
  number with ties to even (one rounding per operation, no fused
  multiply-add).  It carries the properties that depend on the computed
  values: which frequency level a sum selects, whether a completion time
  passes a comparison, the value of the hyperperiod.  Infinities, NaN and
  exponent overflow are not modelled; the library call `pow(2.0, 1.0 / n)` is
  tabulated for `1 <= n <= MAX_TASKS`.
* C `int` values are `Int` or `Nat`; overflow of `int` is not modelled.  The
  `long long` product of `lcm` wraps modulo `2^64` in the binary64 layer.
* Arrays are lists read with a default; the capacities `MAX_TASKS`, `MAX_JOBS`
  and `MAX_JOBS_PER_TASK` are not enforced.  A job pointer is an index into the
  job pool, a task pointer an index into the task array.
* Every `for` loop is a structural recursion or a fold.  The two unbounded loops
  (`while (1)` in `is_ccrm_schedulable`, `while (current_time < hyperperiod)` in
  `simulate`) take explicit fuel and return `Option`.
* The calls to `printf` and the flag `log_figure_data` have no effect on the
  state and are left out.

The definitions come first, the theorems follow.
-/

namespace Simulator

/-! ## Constants and tables (simulator.c lines 7-17) -/

def MAX_TASKS : Nat := 10

def NUM_FREQ_LEVELS : Nat := 7

def INT_MAX : Int := 2147483647

/-- The tolerance `1e-9` used by every time comparison of the source. -/
def EPS : ℚ := 1 / 1000000000

/-- The tolerance `1e-6` of the response-time iteration. -/
def RTA_EPS : ℚ := 1 / 1000000

def FREQ_LEVELS : List ℚ := [1, 9 / 10, 8 / 10, 7 / 10, 6 / 10, 5 / 10, 4 / 10]

def VOLTAGE_LEVELS : List ℚ := [5, 47 / 10, 44 / 10, 41 / 10, 38 / 10, 35 / 10, 32 / 10]

/-- Array read `FREQ_LEVELS[i]`. -/
def freq (i : Nat) : ℚ := FREQ_LEVELS.getD i 0

/-- Array read `VOLTAGE_LEVELS[i]`. -/
def volt (i : Nat) : ℚ := VOLTAGE_LEVELS.getD i 0

/-! ## Energy model (lines 69-75) -/

def calculate_energy (duration : ℚ) (freq_idx : Nat) : ℚ :=
  if duration ≤ EPS then 0
  else
    let voltage := volt freq_idx
    let frequency := freq freq_idx
    frequency * voltage * voltage * duration

/-! ## Frequency selection (lines 133-140) -/

/-- The loop `for (i = k - 1; i >= 0; i--) if (FREQ_LEVELS[i] >= alpha) return i;`
followed by `return 0`. -/
def get_freq_idx_loop (alpha : ℚ) : Nat → Nat
  | 0 => 0
  | k + 1 => if freq k ≥ alpha then k else get_freq_idx_loop alpha k

def get_freq_idx_for_alpha (alpha : ℚ) : Nat :=
  get_freq_idx_loop alpha NUM_FREQ_LEVELS

/-! ## Data structures (lines 19-45) -/

/-- The C struct `Task`; the array `invocation_times` is a list read with
default `0`. -/
structure Task where
  id : Int
  phase : Int
  period : Int
  wcet : Int
  deadline : Int
  invocation_times : List Int
  num_invocations : Int
  invocation_head : Int
deriving DecidableEq

/-- The C struct `Job`.  The pointer `task` (always `&tasks[i]`) is the index
`i` into the task array. -/
structure Job where
  id : Nat
  task : Nat
  release_time : Int
  absolute_deadline : Int
  remaining_work : ℚ
  actual_exec_time : Int
deriving DecidableEq

inductive Scheduler where
  | PLAIN_EDF
  | STATIC_EDF
  | CCEDF
  | LAEDF
  | PLAIN_RM
  | STATIC_RM
  | CCRM
deriving DecidableEq

/-- The integer value of the enum constant. -/
def Scheduler.toNat : Scheduler → Nat
  | .PLAIN_EDF => 0
  | .STATIC_EDF => 1
  | .CCEDF => 2
  | .LAEDF => 3
  | .PLAIN_RM => 4
  | .STATIC_RM => 5
  | .CCRM => 6

def dummyTask : Task :=
  { id := 0, phase := 0, period := 0, wcet := 0, deadline := 0,
    invocation_times := [], num_invocations := 0, invocation_head := 0 }

def dummyJob : Job :=
  { id := 0, task := 0, release_time := 0, absolute_deadline := 0,
    remaining_work := 0, actual_exec_time := 0 }

/-- Array read `tasks[i]`. -/
def taskAt (tasks : List Task) (i : Nat) : Task := tasks.getD i dummyTask

/-- Array read `job_pool[p]`, the dereference of a job pointer. -/
def jobAt (job_pool : List Job) (p : Nat) : Job := job_pool.getD p dummyJob

/-- The jobs the ready queue points to, in queue order. -/
def deref (job_pool : List Job) (ready_queue : List Nat) : List Job :=
  ready_queue.map (jobAt job_pool)

/-- C `round` on a double: to nearest, halves away from zero. -/
def cround (x : ℚ) : Int := if 0 ≤ x then ⌊x + 1 / 2⌋ else ⌈x - 1 / 2⌉

/-- C conversion `(int)x` of a double: truncation toward zero. -/
def truncToInt (x : ℚ) : Int := if 0 ≤ x then ⌊x⌋ else ⌈x⌉

/-! ## Static speed policies (lines 142-171) -/

def get_static_edf_alpha (tasks : List Task) : ℚ :=
  tasks.foldl (fun total_util t => total_util + (t.wcet : ℚ) / (t.period : ℚ)) 0

/-- The sum `util_sum` of `rm_schedulability_test`. -/
def rm_util_sum (alpha : ℚ) (tasks : List Task) : ℚ :=
  tasks.foldl (fun util_sum t => util_sum + (t.wcet : ℚ) / (alpha * (t.period : ℚ))) 0

/-- The comparison `util_sum <= n * (pow(2.0, 1.0 / n) - 1.0)` decided in exact
arithmetic: it is `util_sum / n + 1 <= 2^(1/n)`, which holds when the left side
is negative and otherwise exactly when its `n`-th power is at most `2`.  For
`n = 0` the C bound is `0 * inf = NaN` and the comparison is false. -/
def le_liu_layland_bound (util_sum : ℚ) (n : Nat) : Bool :=
  if n = 0 then false
  else decide (util_sum / (n : ℚ) + 1 < 0 ∨ (util_sum / (n : ℚ) + 1) ^ n ≤ 2)

def rm_schedulability_test (alpha : ℚ) (tasks : List Task) : Bool :=
  le_liu_layland_bound (rm_util_sum alpha tasks) tasks.length

/-- The loop `for (i = k - 1; i >= 0; i--)` of `get_static_rm_alpha`, followed
by `return 1.0`. -/
def get_static_rm_alpha_loop (tasks : List Task) : Nat → ℚ
  | 0 => 1
  | k + 1 =>
    if rm_schedulability_test (freq k) tasks then freq k
    else get_static_rm_alpha_loop tasks k

def get_static_rm_alpha (tasks : List Task) : ℚ :=
  get_static_rm_alpha_loop tasks NUM_FREQ_LEVELS

/-! ## Dynamic speed policies (lines 173-256) -/

def get_ccedf_alpha (current_utils : List ℚ) (num_tasks : Nat) : ℚ :=
  (List.range num_tasks).foldl (fun util_sum i => util_sum + current_utils.getD i 0) 0

/-- One pass of the loop of `get_laedf_alpha` over the ready queue, on the pair
`(total_remaining_work, earliest_deadline)`. -/
def laedf_scan (acc : ℚ × Int) (j : Job) : ℚ × Int :=
  (acc.1 + j.remaining_work,
   if j.absolute_deadline < acc.2 then j.absolute_deadline else acc.2)

def get_laedf_alpha (current_time : ℚ) (ready_queue : List Job) : ℚ :=
  if ready_queue.length = 0 then freq (NUM_FREQ_LEVELS - 1)
  else
    let r := ready_queue.foldl laedf_scan (0, INT_MAX)
    let total_remaining_work := r.1
    let earliest_deadline := r.2
    if (earliest_deadline : ℚ) ≤ current_time then 1
    else
      let required_alpha := total_remaining_work / ((earliest_deadline : ℚ) - current_time)
      let required_alpha := min required_alpha 1
      let required_alpha := max required_alpha (freq (NUM_FREQ_LEVELS - 1))
      required_alpha

/-- The inner loop `for (j = 0; j < i; j++) interference += ceil(response_time /
tasks[j].period) * tasks[j].wcet`. -/
def interference (tasks : List Task) (i : Nat) (response_time : ℚ) : ℚ :=
  (tasks.take i).foldl
    (fun acc t => acc + ((⌈response_time / (t.period : ℚ)⌉ : Int) : ℚ) * (t.wcet : ℚ)) 0

/-- The inner loop over the ready queue that sets `my_work`: it starts at `0`
and takes the remaining work of the first queued job whose task id is `tid`. -/
def my_work_loop (tasks : List Task) (tid : Int) : List Job → ℚ
  | [] => 0
  | j :: rest =>
    if (taskAt tasks j.task).id = tid then j.remaining_work
    else my_work_loop tasks tid rest

def my_work (tasks : List Task) (i : Nat) (ready_queue : List Job) : ℚ :=
  my_work_loop tasks (taskAt tasks i).id ready_queue

/-- One evaluation of `new_response_time` in the `while (1)` loop. -/
def new_response_time (alpha : ℚ) (tasks : List Task) (ready_queue : List Job) (i : Nat)
    (response_time : ℚ) : ℚ :=
  (my_work tasks i ready_queue + interference tasks i response_time) / alpha

/-- The `while (1)` loop for task `i`, with fuel: `some false` is the
`return false`, `some true` the `break`, `none` is fuel exhausted. -/
def response_time_loop (alpha : ℚ) (tasks : List Task) (ready_queue : List Job) (i : Nat) :
    Nat → ℚ → Option Bool
  | 0, _ => none
  | fuel + 1, response_time =>
    let nrt := new_response_time alpha tasks ready_queue i response_time
    if nrt > ((taskAt tasks i).deadline : ℚ) then some false
    else if |nrt - response_time| < RTA_EPS then some true
    else response_time_loop alpha tasks ready_queue i fuel nrt

/-- The outer loop of `is_ccrm_schedulable` over the task indices still to be
checked. -/
def is_ccrm_schedulable_from (fuel : Nat) (alpha : ℚ) (tasks : List Task)
    (ready_queue : List Job) : List Nat → Option Bool
  | [] => some true
  | i :: rest =>
    match response_time_loop alpha tasks ready_queue i fuel ((taskAt tasks i).wcet : ℚ) with
    | none => none
    | some false => some false
    | some true => is_ccrm_schedulable_from fuel alpha tasks ready_queue rest

def is_ccrm_schedulable (fuel : Nat) (alpha : ℚ) (tasks : List Task)
    (ready_queue : List Job) : Option Bool :=
  is_ccrm_schedulable_from fuel alpha tasks ready_queue (List.range tasks.length)

/-- The loop `for (i = k - 1; i >= 0; i--)` of `get_ccrm_alpha`, followed by
`return 1.0`. -/
def get_ccrm_alpha_loop (fuel : Nat) (tasks : List Task) (ready_queue : List Job) :
    Nat → Option ℚ
  | 0 => some 1
  | k + 1 =>
    match is_ccrm_schedulable fuel (freq k) tasks ready_queue with
    | none => none
    | some true => some (freq k)
    | some false => get_ccrm_alpha_loop fuel tasks ready_queue k

def get_ccrm_alpha (fuel : Nat) (tasks : List Task) (ready_queue : List Job) : Option ℚ :=
  get_ccrm_alpha_loop fuel tasks ready_queue NUM_FREQ_LEVELS

/-! ## Simulator core (lines 259-493) -/

/-- The local variables of `simulate` together with the global task array
(whose `invocation_head` fields the function mutates).  `ready_queue` holds
job pointers, here indices into `job_pool`; `last_job_run` is a job pointer or
`NULL`. -/
structure SimState where
  tasks : List Task
  job_pool : List Job
  job_count : Nat
  ready_queue : List Nat
  total_energy : ℚ
  current_time : ℚ
  decision_points : Nat
  preemptions : Nat
  context_switches : Nat
  deadline_misses : Nat
  ccedf_utils : List ℚ
  required_util : ℚ
  alpha : ℚ
  freq_idx : Nat
  last_job_run : Option Nat
deriving DecidableEq

/-- The statement `for (i = 0; i < num_tasks; ++i) tasks[i].invocation_head = 0`. -/
def reset_heads (tasks : List Task) : List Task :=
  tasks.map (fun t => { t with invocation_head := 0 })

/-- The state of `simulate` when the `while` loop is first reached (lines
261-306). -/
def sim_init (policy : Scheduler) (tasks : List Task) : SimState :=
  let tasks := reset_heads tasks
  let s : SimState :=
    { tasks := tasks, job_pool := [], job_count := 0, ready_queue := [],
      total_energy := 0, current_time := 0, decision_points := 0, preemptions := 0,
      context_switches := 0, deadline_misses := 0,
      ccedf_utils := List.replicate MAX_TASKS 0,
      required_util := 0, alpha := 1, freq_idx := 0, last_job_run := none }
  if policy = Scheduler.STATIC_EDF then
    let required_util := get_static_edf_alpha tasks
    let freq_idx := get_freq_idx_for_alpha required_util
    { s with required_util := required_util, freq_idx := freq_idx, alpha := freq freq_idx }
  else if policy = Scheduler.STATIC_RM then
    let required_util := get_static_rm_alpha tasks
    let freq_idx := get_freq_idx_for_alpha required_util
    { s with required_util := required_util, freq_idx := freq_idx, alpha := freq freq_idx }
  else if policy = Scheduler.PLAIN_EDF ∨ policy = Scheduler.PLAIN_RM then
    { s with alpha := 1, freq_idx := 0 }
  else if policy = Scheduler.LAEDF ∨ policy = Scheduler.CCEDF ∨ policy = Scheduler.CCRM then
    { s with alpha := 1, freq_idx := 0 }
  else s

/-- The release test of line 321 for one task at the current time. -/
def release_due (t : Task) (current_time : ℚ) : Bool :=
  decide (|current_time - ((t.phase : ℚ)
      + (cround ((current_time - (t.phase : ℚ)) / (t.period : ℚ)) : ℚ) * (t.period : ℚ))| < EPS
    ∧ current_time ≥ (t.phase : ℚ))

/-- The body of the release loop for task index `i` (lines 321-351).  The new
job is stored at `job_pool[job_count]`, the end of the pool. -/
def release_task (policy : Scheduler) (s : SimState) (i : Nat) : SimState :=
  let t := taskAt s.tasks i
  if release_due t s.current_time then
    let actual_exec_time : Int :=
      if t.num_invocations > 0 then t.invocation_times.getD t.invocation_head.toNat 0
      else t.wcet
    let tasks :=
      if t.num_invocations > 0 then
        s.tasks.set i
          { t with invocation_head := Int.tmod (t.invocation_head + 1) t.num_invocations }
      else s.tasks
    let new_job : Job :=
      { id := s.job_count, task := i,
        release_time := truncToInt s.current_time,
        absolute_deadline := truncToInt s.current_time + t.deadline,
        remaining_work := (actual_exec_time : ℚ),
        actual_exec_time := actual_exec_time }
    { s with
      tasks := tasks,
      job_pool := s.job_pool ++ [new_job],
      job_count := s.job_count + 1,
      ready_queue := s.ready_queue ++ [s.job_count],
      decision_points := s.decision_points + 1,
      ccedf_utils :=
        if policy = Scheduler.CCEDF then
          s.ccedf_utils.set t.id.toNat ((t.wcet : ℚ) / (t.period : ℚ))
        else s.ccedf_utils }
  else s

/-- The release loop `for (i = 0; i < num_tasks; i++)` (lines 319-352). -/
def release_phase (policy : Scheduler) (s : SimState) : SimState :=
  (List.range s.tasks.length).foldl (release_task policy) s

/-- The speed update of lines 354-368; `none` when the response-time analysis
of CCRM runs out of fuel. -/
def speed_update (fuel : Nat) (policy : Scheduler) (s : SimState) : Option SimState :=
  if policy = Scheduler.CCEDF ∨ policy = Scheduler.CCRM ∨ policy = Scheduler.LAEDF then
    let required_util : Option ℚ :=
      match policy with
      | Scheduler.CCEDF => some (get_ccedf_alpha s.ccedf_utils s.tasks.length)
      | Scheduler.CCRM => get_ccrm_alpha fuel s.tasks (deref s.job_pool s.ready_queue)
      | Scheduler.LAEDF =>
        some (get_laedf_alpha s.current_time (deref s.job_pool s.ready_queue))
      | _ => some s.required_util
    match required_util with
    | none => none
    | some required_util =>
      let freq_idx := get_freq_idx_for_alpha required_util
      some { s with required_util := required_util, freq_idx := freq_idx,
                    alpha := freq freq_idx }
  else some s

/-- The EDF selection loop (lines 380-389) from queue position `i` on, with the
current `earliest_deadline` and `best_job_idx` (`none` is `-1`). -/
def edf_scan : List Job → Nat → Int → Option Nat → Option Nat
  | [], _, _, best => best
  | j :: rest, i, earliest_deadline, best =>
    if j.absolute_deadline < earliest_deadline then
      edf_scan rest (i + 1) j.absolute_deadline (some i)
    else edf_scan rest (i + 1) earliest_deadline best

/-- The RM selection loop (lines 393-402) from queue position `i` on. -/
def rm_scan (tasks : List Task) : List Job → Nat → Int → Option Nat → Option Nat
  | [], _, _, best => best
  | j :: rest, i, highest_priority, best =>
    if (taskAt tasks j.task).period < highest_priority then
      rm_scan tasks rest (i + 1) (taskAt tasks j.task).period (some i)
    else rm_scan tasks rest (i + 1) highest_priority best

/-- The dispatch phase (lines 374-404): the queue position `best_job_idx` of
the selected job, `none` when `current_job` stays `NULL`. -/
def dispatch (policy : Scheduler) (tasks : List Task) (ready_queue : List Job) : Option Nat :=
  if ready_queue.length > 0 then
    if policy.toNat ≤ Scheduler.LAEDF.toNat then edf_scan ready_queue 0 INT_MAX none
    else rm_scan tasks ready_queue 0 INT_MAX none
  else none

/-- The context-switch accounting of lines 406-412. -/
def account_switch (s : SimState) (current_job : Option Nat) : SimState :=
  let s :=
    if current_job ≠ s.last_job_run then
      { s with
        context_switches := s.context_switches + 1,
        preemptions :=
          if s.last_job_run ≠ none ∧ current_job ≠ none then s.preemptions + 1
          else s.preemptions }
    else s
  { s with last_job_run := current_job }

/-- The body of the loop of lines 415-426 for one task. -/
def next_release_step (current_time : ℚ) (next_release_time : ℚ) (t : Task) : ℚ :=
  if current_time < (t.phase : ℚ) - EPS then min next_release_time (t.phase : ℚ)
  else
    let releases_so_far : Int := ⌊(current_time - (t.phase : ℚ) + EPS) / (t.period : ℚ)⌋
    min next_release_time ((t.phase : ℚ) + ((releases_so_far : ℚ) + 1) * (t.period : ℚ))

def next_release_time (hyperperiod : ℚ) (tasks : List Task) (current_time : ℚ) : ℚ :=
  tasks.foldl (next_release_step current_time) hyperperiod

/-- The value of `time_to_completion` (lines 428-432). -/
def time_to_completion (hyperperiod : ℚ) (s : SimState) (current_job : Option Nat) : ℚ :=
  match current_job with
  | some p =>
    if s.alpha > EPS then s.current_time + (jobAt s.job_pool p).remaining_work / s.alpha
    else hyperperiod
  | none => hyperperiod

/-- The value of `exec_duration` (lines 433-434). -/
def exec_duration (hyperperiod : ℚ) (s : SimState) (current_job : Option Nat) : ℚ :=
  min (next_release_time hyperperiod s.tasks s.current_time)
      (time_to_completion hyperperiod s current_job) - s.current_time

/-- The energy accounting, work decrement and time advance of lines 443-455. -/
def advance (s : SimState) (current_job : Option Nat) (exec_duration : ℚ) : SimState :=
  let s :=
    match current_job with
    | some p =>
      let j := jobAt s.job_pool p
      { s with
        total_energy := s.total_energy + calculate_energy exec_duration s.freq_idx,
        job_pool :=
          s.job_pool.set p { j with remaining_work := j.remaining_work - exec_duration * s.alpha } }
    | none =>
      { s with
        total_energy := s.total_energy + calculate_energy exec_duration (NUM_FREQ_LEVELS - 1) }
  { s with current_time := s.current_time + exec_duration }

/-- The removal of lines 476-480: `q_size--` and, when the removed slot is not
the last one, the last pointer is moved into it. -/
def remove_at (ready_queue : List Nat) (best_job_idx : Nat) : List Nat :=
  let q_size := ready_queue.length - 1
  if best_job_idx < q_size then
    (ready_queue.take q_size).set best_job_idx (ready_queue.getD q_size 0)
  else ready_queue.take q_size

/-- The completion phase (lines 457-482) for the dispatched job `current_job`
found at queue position `best_job_idx`. -/
def completion (policy : Scheduler) (s : SimState) (current_job : Option Nat)
    (best_job_idx : Nat) : SimState :=
  match current_job with
  | some p =>
    let j := jobAt s.job_pool p
    if j.remaining_work ≤ EPS then
      let task_id : Int := (taskAt s.tasks j.task).id
      { s with
        decision_points := s.decision_points + 1,
        deadline_misses :=
          if s.current_time > (j.absolute_deadline : ℚ) + EPS then s.deadline_misses + 1
          else s.deadline_misses,
        ccedf_utils :=
          if policy = Scheduler.CCEDF then
            s.ccedf_utils.set task_id.toNat
              ((j.actual_exec_time : ℚ) / ((taskAt s.tasks task_id.toNat).period : ℚ))
          else s.ccedf_utils,
        ready_queue := remove_at s.ready_queue best_job_idx,
        last_job_run := none }
    else s
  | none => s

/-- The pointer `current_job` chosen by the dispatch phase in state `s`. -/
def current_job_of (policy : Scheduler) (s : SimState) : Option Nat :=
  (dispatch policy s.tasks (deref s.job_pool s.ready_queue)).map
    (fun best_job_idx => s.ready_queue.getD best_job_idx 0)

/-- One iteration of the `while` loop body (lines 317-482).  The Boolean is
`true` when the iteration leaves the loop by `break`; `none` when the
response-time analysis runs out of fuel. -/
def sim_iteration (fuel : Nat) (policy : Scheduler) (hyperperiod : ℚ) (s : SimState) :
    Option (SimState × Bool) :=
  match speed_update fuel policy (release_phase policy s) with
  | none => none
  | some s2 =>
    let best := dispatch policy s2.tasks (deref s2.job_pool s2.ready_queue)
    let current_job := current_job_of policy s2
    let s3 := account_switch s2 current_job
    let d := exec_duration hyperperiod s3 current_job
    if d < EPS then
      if s3.current_time ≥ hyperperiod then some (s3, true)
      else some ({ s3 with current_time := s3.current_time + EPS }, false)
    else
      let s4 := advance s3 current_job d
      some (completion policy s4 current_job (best.getD 0), false)

/-- The `while (current_time < hyperperiod)` loop with at most `steps`
iterations; `none` when the fuel is exhausted. -/
def simulate_loop (fuel : Nat) (policy : Scheduler) (hyperperiod : ℚ) :
    Nat → SimState → Option SimState
  | 0, _ => none
  | steps + 1, s =>
    if s.current_time < hyperperiod then
      match sim_iteration fuel policy hyperperiod s with
      | none => none
      | some (s1, true) => some s1
      | some (s1, false) => simulate_loop fuel policy hyperperiod steps s1
    else some s

/-- The function `simulate`: the final values of its local variables (the C
function returns `total_energy` and prints the counters). -/
def simulate (fuel steps : Nat) (policy : Scheduler) (tasks : List Task) (hyperperiod : ℚ) :
    Option SimState :=
  simulate_loop fuel policy hyperperiod steps (sim_init policy tasks)

/-- The states of a run of `simulate`: the state at loop entry, and the state
after each iteration that the loop condition admits. -/
inductive Reach (policy : Scheduler) (tasks : List Task) (hyperperiod : ℚ) : SimState → Prop
  | init : Reach policy tasks hyperperiod (sim_init policy tasks)
  | step (fuel : Nat) (s s1 : SimState) (b : Bool) :
      Reach policy tasks hyperperiod s → s.current_time < hyperperiod →
      sim_iteration fuel policy hyperperiod s = some (s1, b) →
      Reach policy tasks hyperperiod s1

/-- The total WCET utilisation of the spec, the sum of `wcet / period` over
the task set. -/
def total_wcet_utilisation (tasks : List Task) : ℚ :=
  (tasks.map (fun t => (t.wcet : ℚ) / (t.period : ℚ))).sum

/-- A task with the given period and WCET, released at time `0`, with deadline
equal to the period and no invocation trace. -/
def mkTask (id period wcet : Int) : Task :=
  { id := id, phase := 0, period := period, wcet := wcet, deadline := period,
    invocation_times := [], num_invocations := 0, invocation_head := 0 }

/-- The selection loop shared by the two priority disciplines, on an arbitrary
integer key of a job: `edf_scan` is its instance for the absolute deadline and
`rm_scan` its instance for the task period. -/
def key_scan (key : Job → Int) : List Job → Nat → Int → Option Nat → Option Nat
  | [], _, _, best => best
  | j :: rest, i, lowest, best =>
    if key j < lowest then key_scan key rest (i + 1) (key j) (some i)
    else key_scan key rest (i + 1) lowest best

/-- The state of a two-task run (periods 4 and 6, WCETs 1 and 2) after the
release phase at time `0`: both first jobs are in the ready queue. -/
def two_jobs_state (policy : Scheduler) : SimState :=
  release_phase policy (sim_init policy [mkTask 0 4 1, mkTask 1 6 2])

/-- A job with the given absolute deadline and remaining work (task 0). -/
def mkJob (id : Nat) (absolute_deadline : Int) (remaining_work : ℚ) : Job :=
  { id := id, task := 0, release_time := 0, absolute_deadline := absolute_deadline,
    remaining_work := remaining_work, actual_exec_time := 0 }

/-- The Liu-Layland test of the spec at speed `gamma`, over the reals: the sum
of `wcet / (gamma * period)` is at most `n * (2^(1/n) - 1)`. -/
def liu_layland_holds (gamma : ℚ) (tasks : List Task) : Prop :=
  (((tasks.map (fun t => (t.wcet : ℚ) / (gamma * (t.period : ℚ)))).sum : ℚ) : ℝ)
    ≤ (tasks.length : ℝ) * ((2 : ℝ) ^ ((1 : ℝ) / (tasks.length : ℝ)) - 1)

/-- The sum of the ceilings `ceil(r / period_j)` over the tasks `j < i`, the
integer vector behind `interference`. -/
def ceil_sum (tasks : List Task) (i : Nat) (r : ℚ) : Int :=
  ((tasks.take i).map (fun t => (⌈r / (t.period : ℚ)⌉ : Int))).sum

/-- The well-formedness of a task set that the response-time iteration relies
on: positive periods and non-negative WCETs. -/
def tasks_wf (tasks : List Task) : Prop :=
  ∀ t, t ∈ tasks → 0 < t.period ∧ 0 ≤ t.wcet

/-- The task list is in its original order: `tasks[i].id = i`. -/
def ids_in_order (tasks : List Task) : Prop :=
  ∀ i, i < tasks.length → (taskAt tasks i).id = (i : Int)

/-- The task indices of the jobs released so far, in release order. -/
def released_tasks (s : SimState) : List Nat :=
  s.job_pool.map (fun j => j.task)

/-- Structural invariant of the states of a run on the task array `tasks0`:
only the invocation cursors of the tasks change, the utilisation array has
`MAX_TASKS` slots, the pool holds `job_count` jobs, the ready queue points into
the pool, and every job belongs to a task of the array. -/
structure RunInv (tasks0 : List Task) (s : SimState) : Prop where
  tasks_static : reset_heads s.tasks = reset_heads tasks0
  utils_len : s.ccedf_utils.length = MAX_TASKS
  pool_len : s.job_pool.length = s.job_count
  queue_valid : ∀ p, p ∈ s.ready_queue → p < s.job_pool.length
  pool_tasks : ∀ k, k ∈ released_tasks s → k < tasks0.length

/-- The stored utilisation of a task that has not released a job yet is `0`. -/
def UtilsZero (tasks0 : List Task) (s : SimState) : Prop :=
  ∀ k, k < tasks0.length → k ∉ released_tasks s → s.ccedf_utils.getD k 0 = 0

/-- One task (period 10, deadline 10, WCET 5) whose recorded invocations all
take 2 time units. -/
def ccedf_demo_task : Task :=
  { mkTask 0 10 5 with invocation_times := [2], num_invocations := 1 }

/-- The state of the CCEDF run of `ccedf_demo_task` after the release phase and
the speed update of the first iteration. -/
def ccedf_demo_s2 : SimState :=
  { release_phase Scheduler.CCEDF (sim_init Scheduler.CCEDF [ccedf_demo_task]) with
    required_util := 1 / 2, freq_idx := 5, alpha := 1 / 2 }

/-- The state of the CCEDF run of `ccedf_demo_task` after the first iteration
(hyperperiod 10): the job ran from time 0 to time 4 and completed. -/
def ccedf_demo_s1 : SimState :=
  completion Scheduler.CCEDF
    (advance (account_switch ccedf_demo_s2 (some 0)) (some 0) 4) (some 0) 0

/-! ## Numeric utilities (lines 48-66) -/

/-- The inner loop `for (j = 0; j < k; j++)` of the bubble sort: `k` adjacent
comparisons from the front of the array, swapping when the left period is
greater. -/
def bubble_pass : Nat → List Task → List Task
  | k + 1, a :: b :: rest =>
    if a.period > b.period then b :: bubble_pass k (a :: rest)
    else a :: bubble_pass k (b :: rest)
  | _, l => l

/-- The outer loop of the bubble sort, with `k` passes left: the passes make
`k`, `k - 1`, ..., `1` comparisons. -/
def bubble_sort_loop : Nat → List Task → List Task
  | 0, l => l
  | k + 1, l => bubble_sort_loop k (bubble_pass (k + 1) l)

/-- The bubble sort of lines 522-533 (and 544-555) on an array of `num_tasks`
tasks: pass `i` makes `num_tasks - i - 1` comparisons, for `i` from `0` to
`num_tasks - 2`. -/
def bubble_sort (tasks : List Task) : List Task :=
  bubble_sort_loop (tasks.length - 1) tasks

/-- What `run_simulation_set` computes: the task array each call of `simulate`
starts from, in call order, and the seven normalised results. -/
structure SetRun where
  inputs : List (Scheduler × List Task)
  results : List ℚ

/-- The function `run_simulation_set` after the input has been read:
`original_tasks` is the local array, the global `tasks` is reset from it
before each family of passes and is otherwise the array left by the previous
call of `simulate`. -/
def run_simulation_set (fuel steps : Nat) (original_tasks : List Task) (hyperperiod : ℚ) :
    Option SetRun :=
  let tasks0 := original_tasks
  match simulate fuel steps Scheduler.PLAIN_EDF tasks0 hyperperiod with
  | none => none
  | some s_pe =>
    let baseline_edf := s_pe.total_energy
    let tasks1 := bubble_sort original_tasks
    match simulate fuel steps Scheduler.PLAIN_RM tasks1 hyperperiod with
    | none => none
    | some s_pr =>
      let baseline_rm := s_pr.total_energy
      let tasks2 := original_tasks
      match simulate fuel steps Scheduler.STATIC_EDF tasks2 hyperperiod with
      | none => none
      | some s_se =>
        match simulate fuel steps Scheduler.CCEDF s_se.tasks hyperperiod with
        | none => none
        | some s_cc =>
          match simulate fuel steps Scheduler.LAEDF s_cc.tasks hyperperiod with
          | none => none
          | some s_la =>
            let tasks5 := bubble_sort original_tasks
            match simulate fuel steps Scheduler.STATIC_RM tasks5 hyperperiod with
            | none => none
            | some s_sr =>
              match simulate fuel steps Scheduler.CCRM s_sr.tasks hyperperiod with
              | none => none
              | some s_cr =>
                some
                  { inputs :=
                      [(Scheduler.PLAIN_EDF, tasks0), (Scheduler.PLAIN_RM, tasks1),
                       (Scheduler.STATIC_EDF, tasks2), (Scheduler.CCEDF, s_se.tasks),
                       (Scheduler.LAEDF, s_cc.tasks), (Scheduler.STATIC_RM, tasks5),
                       (Scheduler.CCRM, s_sr.tasks)],
                    results :=
                      [1, s_se.total_energy / baseline_edf, s_cc.total_energy / baseline_edf,
                       s_la.total_energy / baseline_edf, 1,
                       s_sr.total_energy / baseline_rm, s_cr.total_energy / baseline_rm] }

/-- The task index and the actual execution time of every job released so
far, in release order. -/
def job_keys (s : SimState) : List (Nat × Int) :=
  s.job_pool.map (fun j => (j.task, j.actual_exec_time))

/-- The actual execution times of the jobs released so far for task `i`, in
release order: entry `k` belongs to the `k`-th job of the task. -/
def actuals_of (s : SimState) (i : Nat) : List Int :=
  ((job_keys s).filter (fun x => decide (x.1 = i))).map (fun x => x.2)

/-- The invocation cursor of every task with a recorded sequence is the number
of its released jobs modulo the sequence length, the `k`-th job of such a task
has the `k mod m`-th recorded time, and the jobs of a task without recorded
sequence have the WCET. -/
def CursorInv (tasks0 : List Task) (s : SimState) : Prop :=
  ∀ i, i < tasks0.length →
    (0 < (taskAt tasks0 i).num_invocations →
      (taskAt s.tasks i).invocation_head
          = ((actuals_of s i).length : Int) % (taskAt tasks0 i).num_invocations ∧
      ∀ k, k < (actuals_of s i).length →
        (actuals_of s i).getD k 0
          = (taskAt tasks0 i).invocation_times.getD
              (k % (taskAt tasks0 i).num_invocations.toNat) 0) ∧
    ((taskAt tasks0 i).num_invocations ≤ 0 →
      ∀ a, a ∈ actuals_of s i → a = (taskAt tasks0 i).wcet)

/-- One task (period 5, deadline 5, WCET 3) with the recorded invocation times
2 and 3. -/
def cursor_demo_task : Task :=
  { mkTask 0 5 3 with invocation_times := [2, 3], num_invocations := 2 }

/-- The priority key the dispatch phase compares for the job behind pointer
`p`: the absolute deadline for the EDF family (`policy <= LAEDF`), the period of
the job's task for the RM family. -/
def priority_key (policy : Scheduler) (s : SimState) (p : Nat) : Int :=
  if policy.toNat ≤ Scheduler.LAEDF.toNat then (jobAt s.job_pool p).absolute_deadline
  else (taskAt s.tasks (jobAt s.job_pool p).task).period

/-- Three tasks with periods (and deadlines) 2, 5, 5 and WCET 1. -/
def tie_demo_tasks : List Task := [mkTask 0 2 1, mkTask 1 5 1, mkTask 2 5 1]

/-- A state predicate `P` that holds at loop entry and is kept by every phase
of an iteration (release of one task, speed update, switch accounting, the
time nudge, the advance, the completion). -/
structure PhaseInv (policy : Scheduler) (tasks0 : List Task) (P : SimState → Prop) : Prop where
  init : P (sim_init policy tasks0)
  release : ∀ s i, RunInv tasks0 s → i < tasks0.length → P s → P (release_task policy s i)
  speed : ∀ fuel s s2, RunInv tasks0 s → speed_update fuel policy s = some s2 → P s → P s2
  switch : ∀ s cj, RunInv tasks0 s → P s → P (account_switch s cj)
  nudge : ∀ s, RunInv tasks0 s → P s → P { s with current_time := s.current_time + EPS }
  advance : ∀ s cj d, RunInv tasks0 s → (∀ p, cj = some p → p ∈ s.ready_queue) → P s →
    P (advance s cj d)
  completion : ∀ s p b, RunInv tasks0 s → s.ready_queue[b]? = some p → P s →
    P (completion policy s (some p) b)

/-- Job ids are pool positions, and no pointer occurs twice in the ready
array. -/
def QueueInv (s : SimState) : Prop :=
  (∀ p, p < s.job_pool.length → (jobAt s.job_pool p).id = p) ∧ s.ready_queue.Nodup

/-- The dispatch state of the second iteration of the run of `tie_demo_tasks`
with hyperperiod 10: the state after the first iteration, the release phase and
the speed update. -/
def tie_demo_state (policy : Scheduler) : Option SimState :=
  (sim_iteration 0 policy 10 (sim_init policy tie_demo_tasks)).bind
    (fun r => speed_update 0 policy (release_phase policy r.1))

/-- One task (period 10, deadline 10, WCET 5) whose recorded invocation takes
0 time units. -/
def zero_work_task : Task :=
  { mkTask 0 10 5 with invocation_times := [0], num_invocations := 1 }

/-- The loop state after `n` iterations of the `while` loop from state `s`
(fewer when the loop ends before); `none` when the response-time analysis runs
out of fuel. -/
def run_iterations (fuel : Nat) (policy : Scheduler) (hyperperiod : ℚ) :
    Nat → SimState → Option SimState
  | 0, s => some s
  | n + 1, s =>
    if s.current_time < hyperperiod then
      match sim_iteration fuel policy hyperperiod s with
      | none => none
      | some (s1, true) => some s1
      | some (s1, false) => run_iterations fuel policy hyperperiod n s1
    else some s

/-- The runs of `simulate` with their history: for every iteration executed so
far, the state at its dispatch (after release phase, speed update and switch
accounting) together with the dispatched pointer `current_job`. -/
inductive RunHist (policy : Scheduler) (tasks : List Task) (hyperperiod : ℚ) :
    List (SimState × Option Nat) → SimState → Prop
  | init : RunHist policy tasks hyperperiod [] (sim_init policy tasks)
  | step (fuel : Nat) (s s2 s1 : SimState) (b : Bool) (hist : List (SimState × Option Nat)) :
      RunHist policy tasks hyperperiod hist s → s.current_time < hyperperiod →
      speed_update fuel policy (release_phase policy s) = some s2 →
      sim_iteration fuel policy hyperperiod s = some (s1, b) →
      RunHist policy tasks hyperperiod
        (hist ++ [(account_switch s2 (current_job_of policy s2), current_job_of policy s2)]) s1

/-- The job whose completion is processed in the iteration with dispatch state
`e.1` and dispatched pointer `e.2`: the iteration takes the advance branch and
the job's remaining work after the advance is at most `1e-9` (line 458). -/
def completed_job (hyperperiod : ℚ) (e : SimState × Option Nat) : Option Nat :=
  match e.2 with
  | some p =>
    if exec_duration hyperperiod e.1 (some p) < EPS then none
    else if (jobAt (advance e.1 (some p)
        (exec_duration hyperperiod e.1 (some p))).job_pool p).remaining_work ≤ EPS then some p
    else none
  | none => none

/-- The test of line 462 at the completion of job `p` in the iteration with
dispatch state `e.1`: the time after the advance exceeds the absolute deadline
by more than `1e-9`. -/
def completes_late (hyperperiod : ℚ) (e : SimState × Option Nat) (p : Nat) : Bool :=
  decide ((advance e.1 e.2 (exec_duration hyperperiod e.1 e.2)).current_time
    > ((jobAt (advance e.1 e.2 (exec_duration hyperperiod e.1 e.2)).job_pool p).absolute_deadline
        : ℚ) + EPS)

/-- The job whose completion is processed late in the iteration `e`. -/
def late_completion (hyperperiod : ℚ) (e : SimState × Option Nat) : Option Nat :=
  (completed_job hyperperiod e).filter (completes_late hyperperiod e)

/-- A task (period 10, deadline 10, WCET 2) whose job runs 4 time units, twice
its WCET. -/
def overrun_task_on_time : Task :=
  { mkTask 0 10 2 with invocation_times := [4], num_invocations := 1 }

/-- A task (period 10, deadline 10, WCET 6) whose job needs 12 time units,
twice its WCET. -/
def overrun_task_cut : Task :=
  { mkTask 0 10 6 with invocation_times := [12], num_invocations := 1 }

/-- A task (period 10, deadline 5, WCET 3) whose job runs 6 time units, twice
its WCET. -/
def overrun_task_late : Task :=
  { mkTask 0 10 3 with deadline := 5, invocation_times := [6], num_invocations := 1 }

/-- The total work completed so far: the sum over the released jobs of actual
execution time minus remaining work. -/
def work_done (s : SimState) : ℚ :=
  (s.job_pool.map (fun j => (j.actual_exec_time : ℚ) - j.remaining_work)).sum

/-- The product `duration * FREQ_LEVELS[freq_idx]` of the advance step of the
iteration with dispatch state `e.1` and dispatched pointer `e.2`, when the
iteration takes the advance branch with a job; `0` for an idle advance and for
the degenerate branch, where no job runs. -/
def ran_work (hyperperiod : ℚ) (e : SimState × Option Nat) : ℚ :=
  match e.2 with
  | some p =>
    if exec_duration hyperperiod e.1 (some p) < EPS then 0
    else exec_duration hyperperiod e.1 (some p) * freq e.1.freq_idx
  | none => 0

/-- The speed in use is the table entry of the selected level. -/
def SpeedInv (s : SimState) : Prop := s.alpha = freq s.freq_idx

namespace F64

/-- The power `2^e` for an integer exponent. -/
def pow2 (e : Int) : ℚ :=
  if 0 ≤ e then ((2 ^ e.toNat : Nat) : ℚ) else 1 / ((2 ^ (-e).toNat : Nat) : ℚ)

/-- Rounding of a rational to the nearest integer, ties to even. -/
def round_half_even (q : ℚ) : Int :=
  if q - (⌊q⌋ : ℚ) < 1 / 2 then ⌊q⌋
  else if q - (⌊q⌋ : ℚ) > 1 / 2 then ⌊q⌋ + 1
  else if ⌊q⌋ % 2 = 0 then ⌊q⌋ else ⌊q⌋ + 1

/-- The number of halvings that bring `n` below 2, with `fuel` bounding the
loop. -/
def log2_loop : Nat → Nat → Nat
  | 0, _ => 0
  | fuel + 1, n => if 2 ≤ n then log2_loop fuel (n / 2) + 1 else 0

/-- One step of the binary search for the logarithm: when the remaining
quotient has more than `k` bits, `k` bits are shifted out and counted. -/
def log2_step (acc : Nat × Nat) (k : Nat) : Nat × Nat :=
  if 2 ^ k ≤ acc.1 then (acc.1 / 2 ^ k, acc.2 + k) else acc

/-- The floor of the binary logarithm of a positive natural number: a binary
search over the bit length below `2^256`, the halving loop above. -/
def nat_log2 (n : Nat) : Nat :=
  if n < 2 ^ 256 then ([128, 64, 32, 16, 8, 4, 2, 1].foldl log2_step (n, 0)).2
  else log2_loop n n

/-- The exponent `e` with `2^e ≤ |x| < 2^(e+1)` of a non-zero rational
`num / den`: the difference `e0` of the two binary logarithms when
`2^e0 ≤ |x|`, tested after cross-multiplication, and `e0 - 1` otherwise. -/
def ilog2 (x : ℚ) : Int :=
  let la := nat_log2 x.num.natAbs
  let ld := nat_log2 x.den
  if 2 ^ la * x.den ≤ x.num.natAbs * 2 ^ ld then (la : Int) - (ld : Int)
  else (la : Int) - (ld : Int) - 1

/-- The rounding `round_half_even (n / d)` of a quotient of integers with
`0 < d`, computed from the integer quotient and remainder. -/
def round_div (n d : Int) : Int :=
  if 2 * (n - n / d * d) < d then n / d
  else if 2 * (n - n / d * d) > d then n / d + 1
  else if (n / d) % 2 = 0 then n / d else n / d + 1

/-- Rounding to the nearest binary64 number, ties to even: the significand has
53 bits, the exponent `u` of the last place is at least `-1074` (subnormal
numbers), and the value is `round_half_even (x / 2^u) * 2^u`, the quotient
`x / 2^u` being formed on the numerator and the denominator of `x`. -/
def fl (x : ℚ) : ℚ :=
  if x = 0 then 0
  else
    let u : Int := max (ilog2 x) (-1022) - 52
    if 0 ≤ u then (round_div x.num ((x.den : Int) * 2 ^ u.toNat) : ℚ) * pow2 u
    else (round_div (x.num * 2 ^ (-u).toNat) (x.den : Int) : ℚ) * pow2 u

/-! ### Constants and tables (simulator.c lines 15-17) -/

/-- The double of the literal `1e-9`. -/
def EPS : ℚ := fl (1 / 1000000000)

/-- The double of the literal `1e-6`. -/
def RTA_EPS : ℚ := fl (1 / 1000000)

/-- The doubles of the literals `1.0, 0.9, ..., 0.4`. -/
def FREQ_LEVELS : List ℚ := [1, 9 / 10, 8 / 10, 7 / 10, 6 / 10, 5 / 10, 4 / 10].map fl

/-- The doubles of the literals `5.0, 4.7, ..., 3.2`. -/
def VOLTAGE_LEVELS : List ℚ :=
  [5, 47 / 10, 44 / 10, 41 / 10, 38 / 10, 35 / 10, 32 / 10].map fl

/-- Array read `FREQ_LEVELS[i]`. -/
def freq (i : Nat) : ℚ := FREQ_LEVELS.getD i 0

/-- Array read `VOLTAGE_LEVELS[i]`. -/
def volt (i : Nat) : ℚ := VOLTAGE_LEVELS.getD i 0

/-! ### Energy model (lines 69-75) -/

def calculate_energy (duration : ℚ) (freq_idx : Nat) : ℚ :=
  if duration ≤ EPS then 0
  else
    let voltage := volt freq_idx
    let frequency := freq freq_idx
    fl (fl (fl (frequency * voltage) * voltage) * duration)

/-! ### Frequency selection (lines 133-140) -/

/-- The loop `for (i = k - 1; i >= 0; i--) if (FREQ_LEVELS[i] >= alpha) return i;`
followed by `return 0`. -/
def get_freq_idx_loop (alpha : ℚ) : Nat → Nat
  | 0 => 0
  | k + 1 => if freq k ≥ alpha then k else get_freq_idx_loop alpha k

def get_freq_idx_for_alpha (alpha : ℚ) : Nat :=
  get_freq_idx_loop alpha NUM_FREQ_LEVELS

/-! ### Static speed policies (lines 142-171) -/

/-- The loop `total_util += (double)tasks[i].wcet / tasks[i].period`: the
quotient is rounded, then the sum. -/
def get_static_edf_alpha (tasks : List Task) : ℚ :=
  tasks.foldl (fun total_util t => fl (total_util + fl ((t.wcet : ℚ) / (t.period : ℚ)))) 0

/-- The sum `util_sum` of `rm_schedulability_test`: the product
`alpha * period`, the quotient and the sum are rounded in turn. -/
def rm_util_sum (alpha : ℚ) (tasks : List Task) : ℚ :=
  tasks.foldl
    (fun util_sum t => fl (util_sum + fl ((t.wcet : ℚ) / fl (alpha * (t.period : ℚ))))) 0

/-- The value of the library call `pow(2.0, 1.0 / n)` for `1 <= n <= MAX_TASKS`:
the double nearest to the `n`-th root of 2.  Other arguments are not
tabulated. -/
def pow_2_recip : Nat → ℚ
  | 1 => 2
  | 2 => 6369051672525773 / 4503599627370496
  | 3 => 5674179970822795 / 4503599627370496
  | 4 => 5355712719992597 / 4503599627370496
  | 5 => 5173277483525749 / 4503599627370496
  | 6 => 5055119662503616 / 4503599627370496
  | 7 => 4972377122365053 / 4503599627370496
  | 8 => 4911210218475899 / 4503599627370496
  | 9 => 4864156637613265 / 4503599627370496
  | 10 => 4826838566504036 / 4503599627370496
  | _ => 1

/-- The value `bound = num_tasks * (pow(2.0, 1.0 / num_tasks) - 1.0)`. -/
def liu_layland_bound (n : Nat) : ℚ := fl ((n : ℚ) * fl (pow_2_recip n - 1))

/-- The test of lines 152-161.  For `num_tasks = 0` the C bound is
`0 * inf = NaN` and the comparison is false. -/
def rm_schedulability_test (alpha : ℚ) (tasks : List Task) : Bool :=
  if tasks.length = 0 then false
  else decide (rm_util_sum alpha tasks ≤ liu_layland_bound tasks.length)

/-- The loop `for (i = k - 1; i >= 0; i--)` of `get_static_rm_alpha`, followed
by `return 1.0`. -/
def get_static_rm_alpha_loop (tasks : List Task) : Nat → ℚ
  | 0 => 1
  | k + 1 =>
    if rm_schedulability_test (freq k) tasks then freq k
    else get_static_rm_alpha_loop tasks k

def get_static_rm_alpha (tasks : List Task) : ℚ :=
  get_static_rm_alpha_loop tasks NUM_FREQ_LEVELS

/-! ### Dynamic speed policies (lines 173-256) -/

def get_ccedf_alpha (current_utils : List ℚ) (num_tasks : Nat) : ℚ :=
  (List.range num_tasks).foldl (fun util_sum i => fl (util_sum + current_utils.getD i 0)) 0

/-- One pass of the loop of `get_laedf_alpha` over the ready queue, on the pair
`(total_remaining_work, earliest_deadline)`. -/
def laedf_scan (acc : ℚ × Int) (j : Job) : ℚ × Int :=
  (fl (acc.1 + j.remaining_work),
   if j.absolute_deadline < acc.2 then j.absolute_deadline else acc.2)

def get_laedf_alpha (current_time : ℚ) (ready_queue : List Job) : ℚ :=
  if ready_queue.length = 0 then freq (NUM_FREQ_LEVELS - 1)
  else
    let r := ready_queue.foldl laedf_scan (0, INT_MAX)
    let total_remaining_work := r.1
    let earliest_deadline := r.2
    if (earliest_deadline : ℚ) ≤ current_time then 1
    else
      let required_alpha :=
        fl (total_remaining_work / fl ((earliest_deadline : ℚ) - current_time))
      let required_alpha := min required_alpha 1
      let required_alpha := max required_alpha (freq (NUM_FREQ_LEVELS - 1))
      required_alpha

/-- The inner loop `for (j = 0; j < i; j++) interference += ceil(response_time /
tasks[j].period) * tasks[j].wcet`. -/
def interference (tasks : List Task) (i : Nat) (response_time : ℚ) : ℚ :=
  (tasks.take i).foldl
    (fun acc t =>
      fl (acc + fl (((⌈fl (response_time / (t.period : ℚ))⌉ : Int) : ℚ) * (t.wcet : ℚ)))) 0

/-- One evaluation of `new_response_time` in the `while (1)` loop. -/
def new_response_time (alpha : ℚ) (tasks : List Task) (ready_queue : List Job) (i : Nat)
    (response_time : ℚ) : ℚ :=
  fl (fl (my_work tasks i ready_queue + interference tasks i response_time) / alpha)

/-- The `while (1)` loop for task `i`, with fuel: `some false` is the
`return false`, `some true` the `break`, `none` is fuel exhausted. -/
def response_time_loop (alpha : ℚ) (tasks : List Task) (ready_queue : List Job) (i : Nat) :
    Nat → ℚ → Option Bool
  | 0, _ => none
  | fuel + 1, response_time =>
    let nrt := new_response_time alpha tasks ready_queue i response_time
    if nrt > ((taskAt tasks i).deadline : ℚ) then some false
    else if |fl (nrt - response_time)| < RTA_EPS then some true
    else response_time_loop alpha tasks ready_queue i fuel nrt

/-- The outer loop of `is_ccrm_schedulable` over the task indices still to be
checked. -/
def is_ccrm_schedulable_from (fuel : Nat) (alpha : ℚ) (tasks : List Task)
    (ready_queue : List Job) : List Nat → Option Bool
  | [] => some true
  | i :: rest =>
    match response_time_loop alpha tasks ready_queue i fuel ((taskAt tasks i).wcet : ℚ) with
    | none => none
    | some false => some false
    | some true => is_ccrm_schedulable_from fuel alpha tasks ready_queue rest

def is_ccrm_schedulable (fuel : Nat) (alpha : ℚ) (tasks : List Task)
    (ready_queue : List Job) : Option Bool :=
  is_ccrm_schedulable_from fuel alpha tasks ready_queue (List.range tasks.length)

/-- The loop `for (i = k - 1; i >= 0; i--)` of `get_ccrm_alpha`, followed by
`return 1.0`. -/
def get_ccrm_alpha_loop (fuel : Nat) (tasks : List Task) (ready_queue : List Job) :
    Nat → Option ℚ
  | 0 => some 1
  | k + 1 =>
    match is_ccrm_schedulable fuel (freq k) tasks ready_queue with
    | none => none
    | some true => some (freq k)
    | some false => get_ccrm_alpha_loop fuel tasks ready_queue k

def get_ccrm_alpha (fuel : Nat) (tasks : List Task) (ready_queue : List Job) : Option ℚ :=
  get_ccrm_alpha_loop fuel tasks ready_queue NUM_FREQ_LEVELS

/-! ### Simulator core (lines 259-493) -/

/-- The state of `simulate` when the `while` loop is first reached (lines
261-306). -/
def sim_init (policy : Scheduler) (tasks : List Task) : SimState :=
  let tasks := reset_heads tasks
  let s : SimState :=
    { tasks := tasks, job_pool := [], job_count := 0, ready_queue := [],
      total_energy := 0, current_time := 0, decision_points := 0, preemptions := 0,
      context_switches := 0, deadline_misses := 0,
      ccedf_utils := List.replicate MAX_TASKS 0,
      required_util := 0, alpha := 1, freq_idx := 0, last_job_run := none }
  if policy = Scheduler.STATIC_EDF then
    let required_util := get_static_edf_alpha tasks
    let freq_idx := get_freq_idx_for_alpha required_util
    { s with required_util := required_util, freq_idx := freq_idx, alpha := freq freq_idx }
  else if policy = Scheduler.STATIC_RM then
    let required_util := get_static_rm_alpha tasks
    let freq_idx := get_freq_idx_for_alpha required_util
    { s with required_util := required_util, freq_idx := freq_idx, alpha := freq freq_idx }
  else if policy = Scheduler.PLAIN_EDF ∨ policy = Scheduler.PLAIN_RM then
    { s with alpha := 1, freq_idx := 0 }
  else if policy = Scheduler.LAEDF ∨ policy = Scheduler.CCEDF ∨ policy = Scheduler.CCRM then
    { s with alpha := 1, freq_idx := 0 }
  else s

/-- The release test of line 321 for one task at the current time: the
difference, the quotient, the product, the sum and the outer difference are
rounded in turn; `round` and `fabs` are exact. -/
def release_due (t : Task) (current_time : ℚ) : Bool :=
  decide (|fl (current_time - fl ((t.phase : ℚ)
      + fl ((cround (fl (fl (current_time - (t.phase : ℚ)) / (t.period : ℚ))) : ℚ)
          * (t.period : ℚ))))| < EPS
    ∧ current_time ≥ (t.phase : ℚ))

/-- The body of the release loop for task index `i` (lines 321-351).  The new
job is stored at `job_pool[job_count]`, the end of the pool. -/
def release_task (policy : Scheduler) (s : SimState) (i : Nat) : SimState :=
  let t := taskAt s.tasks i
  if release_due t s.current_time then
    let actual_exec_time : Int :=
      if t.num_invocations > 0 then t.invocation_times.getD t.invocation_head.toNat 0
      else t.wcet
    let tasks :=
      if t.num_invocations > 0 then
        s.tasks.set i
          { t with invocation_head := Int.tmod (t.invocation_head + 1) t.num_invocations }
      else s.tasks
    let new_job : Job :=
      { id := s.job_count, task := i,
        release_time := truncToInt s.current_time,
        absolute_deadline := truncToInt s.current_time + t.deadline,
        remaining_work := (actual_exec_time : ℚ),
        actual_exec_time := actual_exec_time }
    { s with
      tasks := tasks,
      job_pool := s.job_pool ++ [new_job],
      job_count := s.job_count + 1,
      ready_queue := s.ready_queue ++ [s.job_count],
      decision_points := s.decision_points + 1,
      ccedf_utils :=
        if policy = Scheduler.CCEDF then
          s.ccedf_utils.set t.id.toNat (fl ((t.wcet : ℚ) / (t.period : ℚ)))
        else s.ccedf_utils }
  else s

/-- The release loop `for (i = 0; i < num_tasks; i++)` (lines 319-352). -/
def release_phase (policy : Scheduler) (s : SimState) : SimState :=
  (List.range s.tasks.length).foldl (release_task policy) s

/-- The speed update of lines 354-368; `none` when the response-time analysis
of CCRM runs out of fuel. -/
def speed_update (fuel : Nat) (policy : Scheduler) (s : SimState) : Option SimState :=
  if policy = Scheduler.CCEDF ∨ policy = Scheduler.CCRM ∨ policy = Scheduler.LAEDF then
    let required_util : Option ℚ :=
      match policy with
      | Scheduler.CCEDF => some (get_ccedf_alpha s.ccedf_utils s.tasks.length)
      | Scheduler.CCRM => get_ccrm_alpha fuel s.tasks (deref s.job_pool s.ready_queue)
      | Scheduler.LAEDF =>
        some (get_laedf_alpha s.current_time (deref s.job_pool s.ready_queue))
      | _ => some s.required_util
    match required_util with
    | none => none
    | some required_util =>
      let freq_idx := get_freq_idx_for_alpha required_util
      some { s with required_util := required_util, freq_idx := freq_idx,
                    alpha := freq freq_idx }
  else some s

/-- The body of the loop of lines 415-426 for one task. -/
def next_release_step (current_time : ℚ) (next_release_time : ℚ) (t : Task) : ℚ :=
  if current_time < fl ((t.phase : ℚ) - EPS) then min next_release_time (t.phase : ℚ)
  else
    let releases_so_far : Int :=
      ⌊fl (fl (fl (current_time - (t.phase : ℚ)) + EPS) / (t.period : ℚ))⌋
    min next_release_time
      (fl ((t.phase : ℚ) + fl (fl ((releases_so_far : ℚ) + 1) * (t.period : ℚ))))

def next_release_time (hyperperiod : ℚ) (tasks : List Task) (current_time : ℚ) : ℚ :=
  tasks.foldl (next_release_step current_time) hyperperiod

/-- The value of `time_to_completion` (lines 428-432). -/
def time_to_completion (hyperperiod : ℚ) (s : SimState) (current_job : Option Nat) : ℚ :=
  match current_job with
  | some p =>
    if s.alpha > EPS then
      fl (s.current_time + fl ((jobAt s.job_pool p).remaining_work / s.alpha))
    else hyperperiod
  | none => hyperperiod

/-- The value of `next_event_time` (line 433). -/
def next_event_time (hyperperiod : ℚ) (s : SimState) (current_job : Option Nat) : ℚ :=
  min (next_release_time hyperperiod s.tasks s.current_time)
      (time_to_completion hyperperiod s current_job)

/-- The value of `exec_duration` (line 434). -/
def exec_duration (hyperperiod : ℚ) (s : SimState) (current_job : Option Nat) : ℚ :=
  fl (next_event_time hyperperiod s current_job - s.current_time)

/-- The energy accounting, work decrement and time advance of lines 443-455. -/
def advance (s : SimState) (current_job : Option Nat) (exec_duration : ℚ)
    (next_event_time : ℚ) : SimState :=
  let s :=
    match current_job with
    | some p =>
      let j := jobAt s.job_pool p
      { s with
        total_energy := fl (s.total_energy + calculate_energy exec_duration s.freq_idx),
        job_pool :=
          s.job_pool.set p
            { j with remaining_work := fl (j.remaining_work - fl (exec_duration * s.alpha)) } }
    | none =>
      { s with
        total_energy :=
          fl (s.total_energy + calculate_energy exec_duration (NUM_FREQ_LEVELS - 1)) }
  { s with current_time := next_event_time }

/-- The completion phase (lines 457-482) for the dispatched job `current_job`
found at queue position `best_job_idx`. -/
def completion (policy : Scheduler) (s : SimState) (current_job : Option Nat)
    (best_job_idx : Nat) : SimState :=
  match current_job with
  | some p =>
    let j := jobAt s.job_pool p
    if j.remaining_work ≤ EPS then
      let task_id : Int := (taskAt s.tasks j.task).id
      { s with
        decision_points := s.decision_points + 1,
        deadline_misses :=
          if s.current_time > fl ((j.absolute_deadline : ℚ) + EPS) then s.deadline_misses + 1
          else s.deadline_misses,
        ccedf_utils :=
          if policy = Scheduler.CCEDF then
            s.ccedf_utils.set task_id.toNat
              (fl ((j.actual_exec_time : ℚ) / ((taskAt s.tasks task_id.toNat).period : ℚ)))
          else s.ccedf_utils,
        ready_queue := remove_at s.ready_queue best_job_idx,
        last_job_run := none }
    else s
  | none => s

/-- One iteration of the `while` loop body (lines 317-482).  The Boolean is
`true` when the iteration leaves the loop by `break`; `none` when the
response-time analysis runs out of fuel. -/
def sim_iteration (fuel : Nat) (policy : Scheduler) (hyperperiod : ℚ) (s : SimState) :
    Option (SimState × Bool) :=
  match speed_update fuel policy (release_phase policy s) with
  | none => none
  | some s2 =>
    let best := dispatch policy s2.tasks (deref s2.job_pool s2.ready_queue)
    let current_job := current_job_of policy s2
    let s3 := account_switch s2 current_job
    let d := exec_duration hyperperiod s3 current_job
    if d < EPS then
      if s3.current_time ≥ hyperperiod then some (s3, true)
      else some ({ s3 with current_time := fl (s3.current_time + EPS) }, false)
    else
      let s4 := advance s3 current_job d (next_event_time hyperperiod s3 current_job)
      some (completion policy s4 current_job (best.getD 0), false)

/-- The `while (current_time < hyperperiod)` loop with at most `steps`
iterations; `none` when the fuel is exhausted. -/
def simulate_loop (fuel : Nat) (policy : Scheduler) (hyperperiod : ℚ) :
    Nat → SimState → Option SimState
  | 0, _ => none
  | steps + 1, s =>
    if s.current_time < hyperperiod then
      match sim_iteration fuel policy hyperperiod s with
      | none => none
      | some (s1, true) => some s1
      | some (s1, false) => simulate_loop fuel policy hyperperiod steps s1
    else some s

/-- The function `simulate`: the final values of its local variables (the C
function returns `total_energy` and prints the counters). -/
def simulate (fuel steps : Nat) (policy : Scheduler) (tasks : List Task) (hyperperiod : ℚ) :
    Option SimState :=
  simulate_loop fuel policy hyperperiod steps (sim_init policy tasks)

/-- The states of a run of `simulate`: the state at loop entry, and the state
after each iteration that the loop condition admits. -/
inductive Reach (policy : Scheduler) (tasks : List Task) (hyperperiod : ℚ) : SimState → Prop
  | init : Reach policy tasks hyperperiod (sim_init policy tasks)
  | step (fuel : Nat) (s s1 : SimState) (b : Bool) :
      Reach policy tasks hyperperiod s → s.current_time < hyperperiod →
      sim_iteration fuel policy hyperperiod s = some (s1, b) →
      Reach policy tasks hyperperiod s1

/-! ### Numeric utilities (lines 48-66) -/

end F64

/-- Three tasks of period 10 with WCETs 1, 2 and 3: total utilisation `3/5`. -/
def tenths_tasks : List Task := [mkTask 0 10 1, mkTask 1 10 2, mkTask 2 10 3]

/-- Two tasks (period 2, WCET 1) and (period 5, WCET 1): total utilisation
`7/10`. -/
def seven_tenths_tasks : List Task := [mkTask 0 2 1, mkTask 1 5 1]

/-! ## Frequency table lemmas -/

theorem freq_antitone (i j : Nat) (hij : i ≤ j) (hj : j < NUM_FREQ_LEVELS) :
    freq j ≤ freq i := by
  unfold NUM_FREQ_LEVELS at hj
  interval_cases j <;> interval_cases i <;> simp [freq, FREQ_LEVELS] <;> norm_num

theorem freq_pos (i : Nat) (hi : i < NUM_FREQ_LEVELS) : 0 < freq i := by
  unfold NUM_FREQ_LEVELS at hi
  interval_cases i <;> simp [freq, FREQ_LEVELS]

theorem freq_le_one (i : Nat) : freq i ≤ 1 := by
  by_cases hi : i < 7
  · interval_cases i <;> simp [freq, FREQ_LEVELS] <;> norm_num
  · have h : FREQ_LEVELS.length ≤ i := by simp [FREQ_LEVELS]; omega
    simp [freq, List.getD_eq_getElem?_getD, List.getElem?_eq_none h]

theorem freq_ge_lowest (i : Nat) (hi : i < NUM_FREQ_LEVELS) : freq (NUM_FREQ_LEVELS - 1) ≤ freq i :=
  freq_antitone i (NUM_FREQ_LEVELS - 1) (by unfold NUM_FREQ_LEVELS at *; omega)
    (by unfold NUM_FREQ_LEVELS; omega)

/-- The downward scan returns `0` when no index below `k` qualifies. -/
theorem get_freq_idx_loop_none (alpha : ℚ) (k : Nat)
    (h : ∀ i, i < k → ¬ alpha ≤ freq i) : get_freq_idx_loop alpha k = 0 := by
  induction k with
  | zero => rfl
  | succ k ih =>
    have hk : ¬ alpha ≤ freq k := h k (Nat.lt_succ_self k)
    simp only [get_freq_idx_loop, ge_iff_le, hk, if_false]
    exact ih (fun i hi => h i (Nat.lt_succ_of_lt hi))

/-- The downward scan returns the largest qualifying index below `k`. -/
theorem get_freq_idx_loop_some (alpha : ℚ) (k : Nat)
    (h : ∃ i, i < k ∧ alpha ≤ freq i) :
    get_freq_idx_loop alpha k < k ∧ alpha ≤ freq (get_freq_idx_loop alpha k) ∧
      ∀ i, i < k → alpha ≤ freq i → i ≤ get_freq_idx_loop alpha k := by
  induction k with
  | zero => obtain ⟨i, hi, _⟩ := h; omega
  | succ k ih =>
    by_cases hk : alpha ≤ freq k
    · rw [get_freq_idx_loop, if_pos hk]
      exact ⟨Nat.lt_succ_self k, hk, fun i hi _ => Nat.lt_succ_iff.mp hi⟩
    · rw [get_freq_idx_loop, if_neg hk]
      obtain ⟨i, hi, hia⟩ := h
      have hik : i < k := by
        rcases Nat.lt_succ_iff_lt_or_eq.mp hi with h1 | h1
        · exact h1
        · subst h1; exact absurd hia hk
      obtain ⟨h1, h2, h3⟩ := ih ⟨i, hik, hia⟩
      refine ⟨Nat.lt_succ_of_lt h1, h2, fun m hm hma => ?_⟩
      rcases Nat.lt_succ_iff_lt_or_eq.mp hm with h4 | h4
      · exact h3 m h4 hma
      · subst h4; exact absurd hma hk

theorem get_freq_idx_lt (alpha : ℚ) : get_freq_idx_for_alpha alpha < NUM_FREQ_LEVELS := by
  by_cases h : ∃ i, i < NUM_FREQ_LEVELS ∧ alpha ≤ freq i
  · exact (get_freq_idx_loop_some alpha NUM_FREQ_LEVELS h).1
  · have h0 : get_freq_idx_for_alpha alpha = 0 :=
      get_freq_idx_loop_none alpha NUM_FREQ_LEVELS (fun i hi hia => h ⟨i, hi, hia⟩)
    rw [h0]; unfold NUM_FREQ_LEVELS; omega

/-- When `alpha ≤ 1` the selected level meets `alpha` and is the lowest such
level of the table. -/
theorem get_freq_idx_meets (alpha : ℚ) (h1 : alpha ≤ 1) :
    alpha ≤ freq (get_freq_idx_for_alpha alpha) ∧
      ∀ i, i < NUM_FREQ_LEVELS → alpha ≤ freq i →
        i ≤ get_freq_idx_for_alpha alpha ∧ freq (get_freq_idx_for_alpha alpha) ≤ freq i := by
  have hex : ∃ i, i < NUM_FREQ_LEVELS ∧ alpha ≤ freq i :=
    ⟨0, by unfold NUM_FREQ_LEVELS; omega, by simpa [freq, FREQ_LEVELS] using h1⟩
  obtain ⟨hlt, hge, hmax⟩ := get_freq_idx_loop_some alpha NUM_FREQ_LEVELS hex
  exact ⟨hge, fun i hi hia => ⟨hmax i hi hia, freq_antitone i _ (hmax i hi hia) hlt⟩⟩

/-! ## C1: frequency index lookup -/

/-- C1: `get_freq_idx_for_alpha alpha` is a valid index; when some level of the
table is at least `alpha` it is the largest such index, so its frequency is the
lowest table frequency that is at least `alpha`; when no level is at least
`alpha`, which happens exactly when `alpha > 1`, it is `0`. -/
theorem C1_get_freq_idx_for_alpha_largest (alpha : ℚ) :
    get_freq_idx_for_alpha alpha < NUM_FREQ_LEVELS ∧
    ((∃ i, i < NUM_FREQ_LEVELS ∧ alpha ≤ freq i) →
      alpha ≤ freq (get_freq_idx_for_alpha alpha) ∧
      ∀ i, i < NUM_FREQ_LEVELS → alpha ≤ freq i →
        i ≤ get_freq_idx_for_alpha alpha ∧
        freq (get_freq_idx_for_alpha alpha) ≤ freq i) ∧
    ((¬ ∃ i, i < NUM_FREQ_LEVELS ∧ alpha ≤ freq i) → get_freq_idx_for_alpha alpha = 0) ∧
    ((¬ ∃ i, i < NUM_FREQ_LEVELS ∧ alpha ≤ freq i) ↔ 1 < alpha) := by
  refine ⟨get_freq_idx_lt alpha, ?_, ?_, ?_⟩
  · intro h
    obtain ⟨hlt, hge, hmax⟩ := get_freq_idx_loop_some alpha NUM_FREQ_LEVELS h
    exact ⟨hge, fun i hi hia => ⟨hmax i hi hia, freq_antitone i _ (hmax i hi hia) hlt⟩⟩
  · intro h
    exact get_freq_idx_loop_none alpha NUM_FREQ_LEVELS (fun i hi hia => h ⟨i, hi, hia⟩)
  · constructor
    · intro h
      by_contra hle
      exact h ⟨0, by unfold NUM_FREQ_LEVELS; omega,
        by simpa [freq, FREQ_LEVELS] using not_lt.mp hle⟩
    · rintro h ⟨i, _, hia⟩
      exact absurd (lt_of_lt_of_le h hia) (not_lt.mpr (freq_le_one i))

/-- C1 at `alpha = 7/12`: the selected index is `4` (frequency `0.6`), and at
`alpha = 11/10` no level qualifies and the index is `0`. -/
theorem C1_get_freq_idx_for_alpha_largest_witness :
    get_freq_idx_for_alpha (7 / 12) = 4 ∧ freq 4 = 6 / 10 ∧
    (7 / 12 : ℚ) ≤ freq (get_freq_idx_for_alpha (7 / 12)) ∧
    get_freq_idx_for_alpha (11 / 10) = 0 := by
  have h := C1_get_freq_idx_for_alpha_largest (7 / 12)
  have h2 := C1_get_freq_idx_for_alpha_largest (11 / 10)
  refine ⟨by decide!, by decide!, ?_, ?_⟩
  · exact (h.2.1 ⟨0, by decide, by decide!⟩).1
  · exact h2.2.2.1 (h2.2.2.2.mpr (by norm_num))

/-! ## C3: energy model -/

theorem calculate_energy_eq (d : ℚ) (i : Nat) :
    calculate_energy d i = if d > EPS then freq i * volt i ^ 2 * d else 0 := by
  unfold calculate_energy
  by_cases h : d ≤ EPS
  · simp [h, not_lt.mpr h]
  · simp only [h, if_false, gt_iff_lt, not_le.mp h, if_true]
    ring

/-- C3: for every duration `d` and index `i` in `0..6`, `calculate_energy d i`
is `FREQ_LEVELS[i] * VOLTAGE_LEVELS[i]^2 * d` when `d > 1e-9` and `0`
otherwise. -/
theorem C3_calculate_energy_formula (d : ℚ) (i : Nat) (_hi : i < NUM_FREQ_LEVELS) :
    calculate_energy d i = if d > EPS then freq i * volt i ^ 2 * d else 0 :=
  calculate_energy_eq d i

/-- C3 at duration `10` and index `5`: the energy is `0.5 * 3.5^2 * 10`. -/
theorem C3_calculate_energy_formula_witness :
    (5 : Nat) < NUM_FREQ_LEVELS ∧
    calculate_energy 10 5 = (if (10 : ℚ) > EPS then freq 5 * volt 5 ^ 2 * 10 else 0) ∧
    calculate_energy 10 5 = 245 / 4 :=
  ⟨by decide, C3_calculate_energy_formula 10 5 (by decide), by decide!⟩

/-! ## Fields kept by the phases of an iteration -/

theorem release_task_speed (policy : Scheduler) (s : SimState) (i : Nat) :
    (release_task policy s i).alpha = s.alpha ∧
    (release_task policy s i).freq_idx = s.freq_idx ∧
    (release_task policy s i).total_energy = s.total_energy ∧
    (release_task policy s i).current_time = s.current_time := by
  by_cases h : release_due (taskAt s.tasks i) s.current_time = true
  · simp [release_task, h]
  · simp [release_task, h]

theorem release_fold_speed (policy : Scheduler) (l : List Nat) (s : SimState) :
    (l.foldl (release_task policy) s).alpha = s.alpha ∧
    (l.foldl (release_task policy) s).freq_idx = s.freq_idx ∧
    (l.foldl (release_task policy) s).total_energy = s.total_energy ∧
    (l.foldl (release_task policy) s).current_time = s.current_time := by
  induction l generalizing s with
  | nil => exact ⟨rfl, rfl, rfl, rfl⟩
  | cons i l ih =>
    obtain ⟨h1, h2, h3, h4⟩ := ih (release_task policy s i)
    obtain ⟨g1, g2, g3, g4⟩ := release_task_speed policy s i
    exact ⟨h1.trans g1, h2.trans g2, h3.trans g3, h4.trans g4⟩

theorem release_phase_speed (policy : Scheduler) (s : SimState) :
    (release_phase policy s).alpha = s.alpha ∧
    (release_phase policy s).freq_idx = s.freq_idx ∧
    (release_phase policy s).total_energy = s.total_energy ∧
    (release_phase policy s).current_time = s.current_time :=
  release_fold_speed policy _ s

theorem account_switch_fields (s : SimState) (cj : Option Nat) :
    (account_switch s cj).alpha = s.alpha ∧
    (account_switch s cj).freq_idx = s.freq_idx ∧
    (account_switch s cj).total_energy = s.total_energy ∧
    (account_switch s cj).current_time = s.current_time ∧
    (account_switch s cj).job_pool = s.job_pool ∧
    (account_switch s cj).tasks = s.tasks ∧
    (account_switch s cj).ready_queue = s.ready_queue ∧
    (account_switch s cj).ccedf_utils = s.ccedf_utils ∧
    (account_switch s cj).job_count = s.job_count := by
  unfold account_switch
  split_ifs <;> exact ⟨rfl, rfl, rfl, rfl, rfl, rfl, rfl, rfl, rfl⟩

theorem advance_speed (s : SimState) (cj : Option Nat) (d : ℚ) :
    (advance s cj d).alpha = s.alpha ∧ (advance s cj d).freq_idx = s.freq_idx := by
  unfold advance
  cases cj <;> exact ⟨rfl, rfl⟩

theorem completion_speed (policy : Scheduler) (s : SimState) (cj : Option Nat) (b : Nat) :
    (completion policy s cj b).alpha = s.alpha ∧
    (completion policy s cj b).freq_idx = s.freq_idx ∧
    (completion policy s cj b).total_energy = s.total_energy ∧
    (completion policy s cj b).current_time = s.current_time := by
  unfold completion
  cases cj with
  | none => exact ⟨rfl, rfl, rfl, rfl⟩
  | some p =>
    simp only
    split_ifs <;> exact ⟨rfl, rfl, rfl, rfl⟩

/-- A policy that is not dynamic leaves the state untouched in the speed
update. -/
theorem speed_update_static (fuel : Nat) (policy : Scheduler) (s : SimState)
    (h : ¬ (policy = Scheduler.CCEDF ∨ policy = Scheduler.CCRM ∨ policy = Scheduler.LAEDF)) :
    speed_update fuel policy s = some s := by
  unfold speed_update
  rw [if_neg h]

/-- Under a policy that is not dynamic an iteration keeps `alpha` and
`freq_idx`. -/
theorem sim_iteration_static_speed (fuel : Nat) (policy : Scheduler) (H : ℚ)
    (s s1 : SimState) (b : Bool)
    (h : ¬ (policy = Scheduler.CCEDF ∨ policy = Scheduler.CCRM ∨ policy = Scheduler.LAEDF))
    (hs : sim_iteration fuel policy H s = some (s1, b)) :
    s1.alpha = s.alpha ∧ s1.freq_idx = s.freq_idx := by
  unfold sim_iteration at hs
  rw [speed_update_static fuel policy _ h] at hs
  simp only at hs
  obtain ⟨r1, r2, _, _⟩ := release_phase_speed policy s
  split_ifs at hs with h1 h2
  · simp only [Option.some.injEq, Prod.mk.injEq] at hs
    obtain ⟨hs, _⟩ := hs
    subst hs
    obtain ⟨a1, a2, _⟩ := account_switch_fields (release_phase policy s)
      (current_job_of policy (release_phase policy s))
    exact ⟨a1.trans r1, a2.trans r2⟩
  · simp only [Option.some.injEq, Prod.mk.injEq] at hs
    obtain ⟨hs, _⟩ := hs
    subst hs
    obtain ⟨a1, a2, _⟩ := account_switch_fields (release_phase policy s)
      (current_job_of policy (release_phase policy s))
    exact ⟨a1.trans r1, a2.trans r2⟩
  · simp only [Option.some.injEq, Prod.mk.injEq] at hs
    obtain ⟨hs, _⟩ := hs
    subst hs
    obtain ⟨a1, a2, _⟩ := account_switch_fields (release_phase policy s)
      (current_job_of policy (release_phase policy s))
    obtain ⟨c1, c2, _⟩ := completion_speed policy
      (advance (account_switch (release_phase policy s)
        (current_job_of policy (release_phase policy s)))
        (current_job_of policy (release_phase policy s))
        (exec_duration H (account_switch (release_phase policy s)
          (current_job_of policy (release_phase policy s)))
          (current_job_of policy (release_phase policy s))))
      (current_job_of policy (release_phase policy s))
      ((dispatch policy (release_phase policy s).tasks
        (deref (release_phase policy s).job_pool (release_phase policy s).ready_queue)).getD 0)
    obtain ⟨d1, d2⟩ := advance_speed (account_switch (release_phase policy s)
        (current_job_of policy (release_phase policy s)))
        (current_job_of policy (release_phase policy s))
        (exec_duration H (account_switch (release_phase policy s)
          (current_job_of policy (release_phase policy s)))
          (current_job_of policy (release_phase policy s)))
    exact ⟨c1.trans (d1.trans (a1.trans r1)), c2.trans (d2.trans (a2.trans r2))⟩

/-! ## Folds and sums -/

theorem foldl_add_eq_sum {α : Type} (f : α → ℚ) (l : List α) (a : ℚ) :
    l.foldl (fun acc x => acc + f x) a = a + (l.map f).sum := by
  induction l generalizing a with
  | nil => simp
  | cons x l ih => simp [List.foldl_cons, ih, add_assoc]

/-! ## The speed update and the advance branch -/

/-- The speed update changes only `required_util`, `freq_idx` and `alpha`. -/
theorem speed_update_fields (fuel : Nat) (policy : Scheduler) (s s2 : SimState)
    (h : speed_update fuel policy s = some s2) :
    s2.total_energy = s.total_energy ∧ s2.current_time = s.current_time ∧
    s2.tasks = s.tasks ∧ s2.job_pool = s.job_pool ∧ s2.ready_queue = s.ready_queue ∧
    s2.ccedf_utils = s.ccedf_utils ∧ s2.job_count = s.job_count := by
  unfold speed_update at h
  split_ifs at h with hp
  · simp only at h
    split at h
    · exact absurd h (by simp)
    · simp only [Option.some.injEq] at h
      subst h
      exact ⟨rfl, rfl, rfl, rfl, rfl, rfl, rfl⟩
  · simp only [Option.some.injEq] at h
    subst h
    exact ⟨rfl, rfl, rfl, rfl, rfl, rfl, rfl⟩

theorem dispatch_empty (policy : Scheduler) (tasks : List Task) :
    dispatch policy tasks [] = none := by
  simp [dispatch]

/-- The iteration in the branch that is taken when `exec_duration` is not
below `1e-9`. -/
theorem sim_iteration_advance (fuel : Nat) (policy : Scheduler) (H : ℚ) (s s2 : SimState)
    (hsu : speed_update fuel policy (release_phase policy s) = some s2)
    (hd : EPS ≤ exec_duration H (account_switch s2 (current_job_of policy s2))
      (current_job_of policy s2)) :
    sim_iteration fuel policy H s
      = some (completion policy
          (advance (account_switch s2 (current_job_of policy s2)) (current_job_of policy s2)
            (exec_duration H (account_switch s2 (current_job_of policy s2))
              (current_job_of policy s2)))
          (current_job_of policy s2)
          ((dispatch policy s2.tasks (deref s2.job_pool s2.ready_queue)).getD 0), false) := by
  unfold sim_iteration
  rw [hsu]
  simp only
  rw [if_neg (not_lt.mpr hd)]

/-! ## C5: priority discipline -/

theorem edf_scan_eq (l : List Job) (i : Nat) (e : Int) (best : Option Nat) :
    edf_scan l i e best = key_scan (fun j => j.absolute_deadline) l i e best := by
  induction l generalizing i e best with
  | nil => rfl
  | cons j rest ih => simp only [edf_scan, key_scan, ih]

theorem rm_scan_eq (tasks : List Task) (l : List Job) (i : Nat) (e : Int)
    (best : Option Nat) :
    rm_scan tasks l i e best = key_scan (fun j => (taskAt tasks j.task).period) l i e best := by
  induction l generalizing i e best with
  | nil => rfl
  | cons j rest ih => simp only [rm_scan, key_scan, ih]

/-- Invariant of the selection loop: `lowest` is a lower bound of the keys seen
so far, it is never above its initial value `M`, and `best` is the position of a
job with key `lowest` whenever it is set. -/
theorem key_scan_spec (key : Job → Int) (M : Int) (l pre : List Job) (e : Int)
    (best : Option Nat)
    (h1 : best = none → e = M)
    (h2 : ∀ b, best = some b → ∃ x, (pre ++ l)[b]? = some x ∧ key x = e)
    (h3 : ∀ j, j ∈ pre → e ≤ key j)
    (h4 : e ≤ M) :
    ∃ m, m ≤ M ∧
      (key_scan key l pre.length e best = none → m = M) ∧
      (∀ b, key_scan key l pre.length e best = some b →
        ∃ x, (pre ++ l)[b]? = some x ∧ key x = m) ∧
      ∀ j, j ∈ pre ++ l → m ≤ key j := by
  induction l generalizing pre e best with
  | nil =>
    refine ⟨e, h4, by simpa [key_scan] using h1, by simpa [key_scan] using h2, ?_⟩
    simpa using h3
  | cons j rest ih =>
    have hlen : pre.length + 1 = (pre ++ [j]).length := by simp
    have happ : pre ++ j :: rest = (pre ++ [j]) ++ rest := by simp
    by_cases hj : key j < e
    · simp only [key_scan, hj, if_true]
      rw [hlen, happ]
      apply ih (pre ++ [j]) (key j) (some pre.length)
      · intro h; exact absurd h (by simp)
      · intro b hb
        simp only [Option.some.injEq] at hb
        subst hb
        refine ⟨j, ?_, rfl⟩
        rw [List.getElem?_append_left (by simp), List.getElem?_append_right (le_refl _)]
        simp
      · intro x hx
        rcases List.mem_append.mp hx with hx | hx
        · exact le_of_lt (lt_of_lt_of_le hj (h3 x hx))
        · simp only [List.mem_singleton] at hx
          subst hx
          exact le_refl _
      · exact le_of_lt (lt_of_lt_of_le hj h4)
    · simp only [key_scan, hj, if_false]
      rw [hlen, happ]
      apply ih (pre ++ [j]) e best h1
      · intro b hb
        rw [← happ]
        exact h2 b hb
      · intro x hx
        rcases List.mem_append.mp hx with hx | hx
        · exact h3 x hx
        · simp only [List.mem_singleton] at hx
          subst hx
          exact not_lt.mp hj
      · exact h4

/-- On a non-empty list whose keys are all below `INT_MAX` the selection loop
returns the position of a job whose key is minimal. -/
theorem key_scan_min (key : Job → Int) (q : List Job) (hne : q ≠ [])
    (hlt : ∀ j, j ∈ q → key j < INT_MAX) :
    ∃ b x, key_scan key q 0 INT_MAX none = some b ∧ q[b]? = some x ∧
      ∀ j, j ∈ q → key x ≤ key j := by
  obtain ⟨m, _, hnone, hsome, hmin⟩ := key_scan_spec key INT_MAX q [] INT_MAX none
    (fun _ => rfl) (fun b hb => absurd hb (by simp)) (fun j hj => absurd hj (by simp))
    (le_refl _)
  simp only [List.length_nil, List.nil_append] at hnone hsome hmin
  cases hr : key_scan key q 0 INT_MAX none with
  | none =>
    obtain ⟨j, hj⟩ := List.exists_mem_of_ne_nil q hne
    have := hmin j hj
    rw [hnone hr] at this
    exact absurd (hlt j hj) (not_lt.mpr this)
  | some b =>
    obtain ⟨x, hx, hkx⟩ := hsome b hr
    exact ⟨b, x, rfl, hx, fun j hj => hkx ▸ hmin j hj⟩

/-- C5: when the ready set is empty no job is selected; when it is non-empty
and all deadlines and periods in it are below `INT_MAX`, the dispatch phase
selects a job `p` of the ready set (at queue position `b`) whose absolute
deadline is minimal over the ready set under PLAIN_EDF, STATIC_EDF, CCEDF and
LAEDF, and whose task period is minimal over the ready set under PLAIN_RM,
STATIC_RM and CCRM. -/
theorem C5_dispatch_selects_min (policy : Scheduler) (s : SimState) :
    (s.ready_queue = [] → current_job_of policy s = none) ∧
    (s.ready_queue ≠ [] →
      (∀ p, p ∈ s.ready_queue →
        (jobAt s.job_pool p).absolute_deadline < INT_MAX ∧
        (taskAt s.tasks (jobAt s.job_pool p).task).period < INT_MAX) →
      ∃ b p, dispatch policy s.tasks (deref s.job_pool s.ready_queue) = some b ∧
        s.ready_queue[b]? = some p ∧ p ∈ s.ready_queue ∧
        current_job_of policy s = some p ∧
        ((policy = Scheduler.PLAIN_EDF ∨ policy = Scheduler.STATIC_EDF ∨
            policy = Scheduler.CCEDF ∨ policy = Scheduler.LAEDF) →
          ∀ r, r ∈ s.ready_queue →
            (jobAt s.job_pool p).absolute_deadline ≤ (jobAt s.job_pool r).absolute_deadline) ∧
        ((policy = Scheduler.PLAIN_RM ∨ policy = Scheduler.STATIC_RM ∨
            policy = Scheduler.CCRM) →
          ∀ r, r ∈ s.ready_queue →
            (taskAt s.tasks (jobAt s.job_pool p).task).period
              ≤ (taskAt s.tasks (jobAt s.job_pool r).task).period)) := by
  constructor
  · intro hq
    simp [current_job_of, hq, deref, dispatch_empty]
  · intro hne hbound
    have hqne : deref s.job_pool s.ready_queue ≠ [] := by
      simpa [deref] using hne
    have hlen : (deref s.job_pool s.ready_queue).length > 0 :=
      List.length_pos.mpr hqne
    -- the key used by the policy
    by_cases hedf : policy.toNat ≤ Scheduler.LAEDF.toNat
    · obtain ⟨b, x, hb, hx, hmin⟩ := key_scan_min (fun j => j.absolute_deadline)
        (deref s.job_pool s.ready_queue) hqne (by
          intro j hj
          simp only [deref, List.mem_map] at hj
          obtain ⟨p, hp, rfl⟩ := hj
          exact (hbound p hp).1)
      have hd : dispatch policy s.tasks (deref s.job_pool s.ready_queue) = some b := by
        simp only [dispatch, hlen, if_true, hedf, edf_scan_eq, hb]
      simp only [deref, List.getElem?_map, Option.map_eq_some'] at hx
      obtain ⟨p, hp, hpx⟩ := hx
      refine ⟨b, p, hd, hp, List.getElem?_mem hp, ?_, ?_, ?_⟩
      · simp [current_job_of, hd, List.getD_eq_getElem?_getD, hp]
      · intro _ r hr
        rw [hpx]
        exact hmin _ (by simp only [deref, List.mem_map]; exact ⟨r, hr, rfl⟩)
      · intro hrm
        exfalso
        rcases hrm with h | h | h <;> subst h <;> simp [Scheduler.toNat] at hedf
    · obtain ⟨b, x, hb, hx, hmin⟩ := key_scan_min (fun j => (taskAt s.tasks j.task).period)
        (deref s.job_pool s.ready_queue) hqne (by
          intro j hj
          simp only [deref, List.mem_map] at hj
          obtain ⟨p, hp, rfl⟩ := hj
          exact (hbound p hp).2)
      have hd : dispatch policy s.tasks (deref s.job_pool s.ready_queue) = some b := by
        simp only [dispatch, hlen, if_true, hedf, if_false, rm_scan_eq, hb]
      simp only [deref, List.getElem?_map, Option.map_eq_some'] at hx
      obtain ⟨p, hp, hpx⟩ := hx
      refine ⟨b, p, hd, hp, List.getElem?_mem hp, ?_, ?_, ?_⟩
      · simp [current_job_of, hd, List.getD_eq_getElem?_getD, hp]
      · intro he
        exfalso
        rcases he with h | h | h | h <;> subst h <;> simp [Scheduler.toNat] at hedf
      · intro _ r hr
        rw [hpx]
        exact hmin _ (by simp only [deref, List.mem_map]; exact ⟨r, hr, rfl⟩)

/-- C5 on the ready set of `two_jobs_state` (job 0: deadline 4, period 4;
job 1: deadline 6, period 6): under LAEDF and under CCRM job 0 is selected, and
on the empty ready set of the initial state nothing is selected. -/
theorem C5_dispatch_selects_min_witness :
    (two_jobs_state Scheduler.LAEDF).ready_queue = [0, 1] ∧
    current_job_of Scheduler.LAEDF (two_jobs_state Scheduler.LAEDF) = some 0 ∧
    current_job_of Scheduler.CCRM (two_jobs_state Scheduler.CCRM) = some 0 ∧
    (∃ b p, dispatch Scheduler.LAEDF (two_jobs_state Scheduler.LAEDF).tasks
        (deref (two_jobs_state Scheduler.LAEDF).job_pool
          (two_jobs_state Scheduler.LAEDF).ready_queue) = some b ∧
      (two_jobs_state Scheduler.LAEDF).ready_queue[b]? = some p ∧
      ∀ r, r ∈ (two_jobs_state Scheduler.LAEDF).ready_queue →
        (jobAt (two_jobs_state Scheduler.LAEDF).job_pool p).absolute_deadline
          ≤ (jobAt (two_jobs_state Scheduler.LAEDF).job_pool r).absolute_deadline) ∧
    current_job_of Scheduler.LAEDF (sim_init Scheduler.LAEDF [mkTask 0 4 1]) = none := by
  refine ⟨by decide!, by decide!, by decide!, ?_, ?_⟩
  · obtain ⟨b, p, h1, h2, _, _, h5, _⟩ :=
      (C5_dispatch_selects_min Scheduler.LAEDF (two_jobs_state Scheduler.LAEDF)).2
        (by decide!) (by decide!)
    exact ⟨b, p, h1, h2, h5 (Or.inr (Or.inr (Or.inr rfl)))⟩
  · exact (C5_dispatch_selects_min Scheduler.LAEDF
      (sim_init Scheduler.LAEDF [mkTask 0 4 1])).1 (by decide!)

/-! ## C7: look-ahead EDF speed -/

theorem laedf_fold_work (q : List Job) (w : ℚ) (e : Int) :
    (q.foldl laedf_scan (w, e)).1 = w + (q.map (fun j => j.remaining_work)).sum := by
  induction q generalizing w e with
  | nil => simp
  | cons j rest ih =>
    simp only [List.foldl_cons, List.map_cons, List.sum_cons]
    rw [laedf_scan, ih]
    ring

theorem laedf_fold_deadline (q : List Job) (w : ℚ) (e : Int) :
    (q.foldl laedf_scan (w, e)).2 ≤ e ∧
    (∀ j, j ∈ q → (q.foldl laedf_scan (w, e)).2 ≤ j.absolute_deadline) ∧
    ((q.foldl laedf_scan (w, e)).2 = e ∨
      ∃ j, j ∈ q ∧ j.absolute_deadline = (q.foldl laedf_scan (w, e)).2) := by
  induction q generalizing w e with
  | nil => simp
  | cons j rest ih =>
    simp only [List.foldl_cons]
    rw [laedf_scan]
    by_cases hj : j.absolute_deadline < e
    · simp only [hj, if_true]
      obtain ⟨h1, h2, h3⟩ := ih (w + j.remaining_work) j.absolute_deadline
      refine ⟨le_of_lt (lt_of_le_of_lt h1 hj), ?_, ?_⟩
      · intro x hx
        rcases List.mem_cons.mp hx with hx | hx
        · subst hx; exact h1
        · exact h2 x hx
      · right
        rcases h3 with h3 | ⟨x, hx, hxe⟩
        · exact ⟨j, List.mem_cons_self _ _, h3.symm⟩
        · exact ⟨x, List.mem_cons_of_mem _ hx, hxe⟩
    · simp only [hj, if_false]
      obtain ⟨h1, h2, h3⟩ := ih (w + j.remaining_work) e
      refine ⟨h1, ?_, ?_⟩
      · intro x hx
        rcases List.mem_cons.mp hx with hx | hx
        · subst hx; exact le_trans h1 (not_lt.mp hj)
        · exact h2 x hx
      · rcases h3 with h3 | ⟨x, hx, hxe⟩
        · exact Or.inl h3
        · exact Or.inr ⟨x, List.mem_cons_of_mem _ hx, hxe⟩

theorem freq_lowest_eq : freq (NUM_FREQ_LEVELS - 1) = 4 / 10 := by
  simp [freq, FREQ_LEVELS, NUM_FREQ_LEVELS]

/-- C7: `get_laedf_alpha t Q` is `FREQ_LEVELS[6] = 0.4` when `Q` is empty;
otherwise, with `W` the sum of the remaining work over `Q` and `D` the minimum
absolute deadline over `Q` (deadlines being C `int` values), it is `1` when
`D ≤ t` and `max 0.4 (min 1 (W / (D - t)))` when `D > t`; in every case the
result lies in `[0.4, 1]`. -/
theorem C7_laedf_alpha (t : ℚ) (q : List Job) :
    (q = [] → get_laedf_alpha t q = freq 6 ∧ freq 6 = 4 / 10) ∧
    (q ≠ [] → (∀ j, j ∈ q → j.absolute_deadline ≤ INT_MAX) →
      ∃ D : Int, (∃ j, j ∈ q ∧ j.absolute_deadline = D) ∧
        (∀ j, j ∈ q → D ≤ j.absolute_deadline) ∧
        ((D : ℚ) ≤ t → get_laedf_alpha t q = 1) ∧
        (t < (D : ℚ) → get_laedf_alpha t q
          = max (4 / 10) (min 1 ((q.map (fun j => j.remaining_work)).sum / ((D : ℚ) - t))))) ∧
    (4 / 10 ≤ get_laedf_alpha t q ∧ get_laedf_alpha t q ≤ 1) := by
  refine ⟨?_, ?_, ?_⟩
  · intro hq
    subst hq
    exact ⟨by simp [get_laedf_alpha, NUM_FREQ_LEVELS], by simp [freq, FREQ_LEVELS]⟩
  · intro hne hint
    have hlen : q.length ≠ 0 := fun h => hne (List.length_eq_zero.mp h)
    obtain ⟨h1, h2, h3⟩ := laedf_fold_deadline q 0 INT_MAX
    have hw := laedf_fold_work q 0 INT_MAX
    rw [zero_add] at hw
    refine ⟨(q.foldl laedf_scan (0, INT_MAX)).2, ?_, h2, ?_, ?_⟩
    · rcases h3 with h3 | h3
      · obtain ⟨j, hj⟩ := List.exists_mem_of_ne_nil q hne
        refine ⟨j, hj, ?_⟩
        have := h2 j hj
        rw [h3] at this ⊢
        exact le_antisymm (hint j hj) this
      · exact h3
    · intro hD
      simp only [get_laedf_alpha, hlen, if_false, hD, if_true]
    · intro hD
      simp only [get_laedf_alpha, hlen, if_false, not_le.mpr hD, hw, freq_lowest_eq]
      rw [max_comm, min_comm]
  · unfold get_laedf_alpha
    by_cases h1 : q.length = 0
    · rw [if_pos h1, freq_lowest_eq]; norm_num
    · rw [if_neg h1]
      simp only
      by_cases hD : ((q.foldl laedf_scan (0, INT_MAX)).2 : ℚ) ≤ t
      · rw [if_pos hD]; norm_num
      · rw [if_neg hD, freq_lowest_eq]
        exact ⟨le_max_right _ _, max_le (min_le_right _ _) (by norm_num)⟩

/-- C7 at time `1` on the queue with jobs (deadline 4, work 1) and (deadline 6,
work 2): `W = 3`, `D = 4`, and the result is `min 1 (3 / 3) = 1`; at time `5`
the deadline 4 has passed and the result is `1`; on the same queue at time
`-6` the quotient `3/10` is clamped to `0.4`. -/
theorem C7_laedf_alpha_witness :
    get_laedf_alpha 1 [mkJob 0 4 1, mkJob 1 6 2] = 1 ∧
    get_laedf_alpha 5 [mkJob 0 4 1, mkJob 1 6 2] = 1 ∧
    get_laedf_alpha (-6) [mkJob 0 4 1, mkJob 1 6 2] = 4 / 10 ∧
    (∃ D : Int, (∀ j, j ∈ [mkJob 0 4 1, mkJob 1 6 2] → D ≤ j.absolute_deadline) ∧
      ((D : ℚ) ≤ 5 → get_laedf_alpha 5 [mkJob 0 4 1, mkJob 1 6 2] = 1)) ∧
    get_laedf_alpha 0 [] = 4 / 10 := by
  refine ⟨by decide!, by decide!, by decide!, ?_, ?_⟩
  · obtain ⟨D, _, h2, h3, _⟩ :=
      (C7_laedf_alpha 5 [mkJob 0 4 1, mkJob 1 6 2]).2.1 (by simp) (by decide!)
    exact ⟨D, h2, h3⟩
  · have h := (C7_laedf_alpha 0 []).1 rfl
    rw [h.1, h.2]

/-! ## The Liu-Layland test in exact arithmetic -/

theorem rm_util_sum_eq (alpha : ℚ) (tasks : List Task) :
    rm_util_sum alpha tasks
      = (tasks.map (fun t => (t.wcet : ℚ) / (alpha * (t.period : ℚ)))).sum := by
  unfold rm_util_sum
  rw [foldl_add_eq_sum (fun t : Task => (t.wcet : ℚ) / (alpha * (t.period : ℚ)))]
  simp

/-- The exact rational decision agrees with the comparison against the real
bound `n * (2^(1/n) - 1)`. -/
theorem le_liu_layland_bound_iff (x : ℚ) (n : Nat) (hn : 0 < n) :
    le_liu_layland_bound x n = true
      ↔ (x : ℝ) ≤ (n : ℝ) * ((2 : ℝ) ^ ((1 : ℝ) / (n : ℝ)) - 1) := by
  have hn0 : n ≠ 0 := Nat.pos_iff_ne_zero.mp hn
  have hnR : (0 : ℝ) < (n : ℝ) := by exact_mod_cast hn
  have hr0 : (0 : ℝ) < (2 : ℝ) ^ ((1 : ℝ) / (n : ℝ)) := Real.rpow_pos_of_pos (by norm_num) _
  have hrn : ((2 : ℝ) ^ ((1 : ℝ) / (n : ℝ))) ^ n = 2 := by
    rw [← Real.rpow_natCast, ← Real.rpow_mul (by norm_num)]
    rw [one_div, inv_mul_cancel₀ (ne_of_gt hnR)]
    simp
  have hy : (x : ℝ) ≤ (n : ℝ) * ((2 : ℝ) ^ ((1 : ℝ) / (n : ℝ)) - 1)
      ↔ (x : ℝ) / (n : ℝ) + 1 ≤ (2 : ℝ) ^ ((1 : ℝ) / (n : ℝ)) := by
    rw [← le_sub_iff_add_le, div_le_iff₀ hnR, mul_comm]
  rw [hy]
  simp only [le_liu_layland_bound, hn0, if_false, decide_eq_true_eq]
  have hcast : ((x / (n : ℚ) + 1 : ℚ) : ℝ) = (x : ℝ) / (n : ℝ) + 1 := by push_cast; ring
  constructor
  · rintro (h | h)
    · have : ((x / (n : ℚ) + 1 : ℚ) : ℝ) < 0 := by exact_mod_cast h
      rw [hcast] at this
      exact le_of_lt (lt_trans this hr0)
    · by_cases hneg : (x : ℝ) / (n : ℝ) + 1 < 0
      · exact le_of_lt (lt_trans hneg hr0)
      · have h2 : ((x / (n : ℚ) + 1 : ℚ) : ℝ) ^ n ≤ 2 := by exact_mod_cast h
        rw [hcast, ← hrn] at h2
        exact (pow_le_pow_iff_left₀ (not_lt.mp hneg) (le_of_lt hr0) hn0).mp h2
  · intro h
    by_cases hneg : x / (n : ℚ) + 1 < 0
    · exact Or.inl hneg
    · right
      have h0 : (0 : ℝ) ≤ (x : ℝ) / (n : ℝ) + 1 := by
        rw [← hcast]; exact_mod_cast not_lt.mp hneg
      have h2 : ((x : ℝ) / (n : ℝ) + 1) ^ n ≤ 2 := by
        rw [← hrn]
        exact pow_le_pow_left₀ h0 h n
      rw [← hcast] at h2
      exact_mod_cast h2

theorem rm_schedulability_test_iff (alpha : ℚ) (tasks : List Task) (hne : tasks ≠ []) :
    rm_schedulability_test alpha tasks = true ↔ liu_layland_holds alpha tasks := by
  unfold rm_schedulability_test liu_layland_holds
  rw [le_liu_layland_bound_iff _ _ (List.length_pos.mpr hne), rm_util_sum_eq]

/-! ## C9: the term `my_work` of the CCRM response-time test -/

theorem my_work_loop_absent (tasks : List Task) (tid : Int) (q : List Job)
    (h : ∀ j, j ∈ q → (taskAt tasks j.task).id ≠ tid) : my_work_loop tasks tid q = 0 := by
  induction q with
  | nil => rfl
  | cons j rest ih =>
    rw [my_work_loop, if_neg (h j (List.mem_cons_self _ _))]
    exact ih (fun x hx => h x (List.mem_cons_of_mem _ hx))

theorem my_work_loop_first (tasks : List Task) (tid : Int) (pre post : List Job) (j : Job)
    (hpre : ∀ x, x ∈ pre → (taskAt tasks x.task).id ≠ tid)
    (hj : (taskAt tasks j.task).id = tid) :
    my_work_loop tasks tid (pre ++ j :: post) = j.remaining_work := by
  induction pre with
  | nil => simp [my_work_loop, hj]
  | cons x rest ih =>
    rw [List.cons_append, my_work_loop, if_neg (hpre x (List.mem_cons_self _ _))]
    exact ih (fun y hy => hpre y (List.mem_cons_of_mem _ hy))

theorem interference_eq_sum (tasks : List Task) (i : Nat) (r : ℚ) :
    interference tasks i r
      = ((tasks.take i).map
          (fun t => ((⌈r / (t.period : ℚ)⌉ : Int) : ℚ) * (t.wcet : ℚ))).sum := by
  unfold interference
  rw [foldl_add_eq_sum (fun t : Task => ((⌈r / (t.period : ℚ)⌉ : Int) : ℚ) * (t.wcet : ℚ))]
  simp

/-- C9 (as amended): in `is_ccrm_schedulable` the iteration for task `i` starts
at `r_0 = wcet_i` and each step computes
`(my_work + sum_{j<i} ceil(r/period_j) * wcet_j) / alpha`, where `my_work` is the
remaining work of the first job of task `i` in the ready set when there is one
and `0` when the ready set contains no job of task `i`. -/
theorem C9_my_work_amended (alpha : ℚ) (tasks : List Task) (i : Nat) (q : List Job) :
    (∀ r, new_response_time alpha tasks q i r
      = (my_work tasks i q
          + ((tasks.take i).map
              (fun t => ((⌈r / (t.period : ℚ)⌉ : Int) : ℚ) * (t.wcet : ℚ))).sum) / alpha) ∧
    (∀ fuel rest, is_ccrm_schedulable_from fuel alpha tasks q (i :: rest)
      = match response_time_loop alpha tasks q i fuel ((taskAt tasks i).wcet : ℚ) with
        | none => none
        | some false => some false
        | some true => is_ccrm_schedulable_from fuel alpha tasks q rest) ∧
    (∀ pre j post, q = pre ++ j :: post →
      (∀ x, x ∈ pre → (taskAt tasks x.task).id ≠ (taskAt tasks i).id) →
      (taskAt tasks j.task).id = (taskAt tasks i).id →
      my_work tasks i q = j.remaining_work) ∧
    ((∀ j, j ∈ q → (taskAt tasks j.task).id ≠ (taskAt tasks i).id) →
      my_work tasks i q = 0) := by
  refine ⟨?_, ?_, ?_, ?_⟩
  · intro r
    rw [new_response_time, interference_eq_sum]
  · intro fuel rest
    rfl
  · intro pre j post hq hpre hj
    subst hq
    exact my_work_loop_first tasks _ pre post j hpre hj
  · intro h
    exact my_work_loop_absent tasks _ q h

/-- C9 (amended) on a one-task set (period 10, WCET 5): with a job of the task
in the ready set (remaining work `3/2`) `my_work` is `3/2`; with an empty ready
set it is `0`. -/
theorem C9_my_work_amended_witness :
    my_work [mkTask 0 10 5] 0 [mkJob 0 10 (3 / 2)] = 3 / 2 ∧
    my_work [mkTask 0 10 5] 0 [] = 0 := by
  have h := C9_my_work_amended 1 [mkTask 0 10 5] 0 [mkJob 0 10 (3 / 2)]
  have h0 := C9_my_work_amended 1 [mkTask 0 10 5] 0 []
  exact ⟨h.2.2.1 [] (mkJob 0 10 (3 / 2)) [] rfl (by simp) (by decide!),
    h0.2.2.2 (by simp)⟩

/-- C9 as stated fails: for the one-task set (period 10, deadline 10, WCET 5)
and an empty ready set, `my_work` is `0`, not `wcet = 5`.  At speed `0.4` the
iteration therefore goes `5, 0, 0` and the test succeeds, whereas with
`my_work = wcet` the first step would give `5 / 0.4 = 12.5 > 10`. -/
theorem C9_my_work_counterexample :
    my_work [mkTask 0 10 5] 0 [] = 0 ∧
    ((taskAt [mkTask 0 10 5] 0).wcet : ℚ) = 5 ∧
    my_work [mkTask 0 10 5] 0 [] ≠ ((taskAt [mkTask 0 10 5] 0).wcet : ℚ) ∧
    new_response_time (4 / 10) [mkTask 0 10 5] [] 0 5 = 0 ∧
    is_ccrm_schedulable 2 (4 / 10) [mkTask 0 10 5] [] = some true ∧
    (((taskAt [mkTask 0 10 5] 0).wcet : ℚ) + interference [mkTask 0 10 5] 0 5) / (4 / 10)
      > ((taskAt [mkTask 0 10 5] 0).deadline : ℚ) := by
  refine ⟨by decide!, by decide!, by decide!, by decide!, by decide!, by decide!⟩

/-! ## Termination of the response-time iteration -/

theorem ceil_mono_list (l : List Task) (hl : ∀ t, t ∈ l → 0 < t.period ∧ 0 ≤ t.wcet)
    (r r1 : ℚ) (h : r ≤ r1) :
    (l.map (fun t => (⌈r / (t.period : ℚ)⌉ : Int))).sum
      ≤ (l.map (fun t => (⌈r1 / (t.period : ℚ)⌉ : Int))).sum ∧
    (l.map (fun t => ((⌈r / (t.period : ℚ)⌉ : Int) : ℚ) * (t.wcet : ℚ))).sum
      ≤ (l.map (fun t => ((⌈r1 / (t.period : ℚ)⌉ : Int) : ℚ) * (t.wcet : ℚ))).sum ∧
    ((l.map (fun t => (⌈r / (t.period : ℚ)⌉ : Int))).sum
        = (l.map (fun t => (⌈r1 / (t.period : ℚ)⌉ : Int))).sum →
      (l.map (fun t => ((⌈r / (t.period : ℚ)⌉ : Int) : ℚ) * (t.wcet : ℚ))).sum
        = (l.map (fun t => ((⌈r1 / (t.period : ℚ)⌉ : Int) : ℚ) * (t.wcet : ℚ))).sum) := by
  induction l with
  | nil => simp
  | cons t rest ih =>
    obtain ⟨hp, hw⟩ := hl t (List.mem_cons_self _ _)
    obtain ⟨i1, i2, i3⟩ := ih (fun x hx => hl x (List.mem_cons_of_mem _ hx))
    have hpq : (0 : ℚ) < (t.period : ℚ) := by exact_mod_cast hp
    have hwq : (0 : ℚ) ≤ (t.wcet : ℚ) := by exact_mod_cast hw
    have hc : (⌈r / (t.period : ℚ)⌉ : Int) ≤ ⌈r1 / (t.period : ℚ)⌉ :=
      Int.ceil_le_ceil ((div_le_div_iff_of_pos_right hpq).mpr h)
    have hcq : ((⌈r / (t.period : ℚ)⌉ : Int) : ℚ) ≤ ((⌈r1 / (t.period : ℚ)⌉ : Int) : ℚ) := by
      exact_mod_cast hc
    simp only [List.map_cons, List.sum_cons]
    refine ⟨add_le_add hc i1, add_le_add (mul_le_mul_of_nonneg_right hcq hwq) i2, ?_⟩
    intro heq
    have e1 : (⌈r / (t.period : ℚ)⌉ : Int) = ⌈r1 / (t.period : ℚ)⌉ := by omega
    have e2 : (rest.map (fun t => (⌈r / (t.period : ℚ)⌉ : Int))).sum
        = (rest.map (fun t => (⌈r1 / (t.period : ℚ)⌉ : Int))).sum := by omega
    rw [e1, i3 e2]

theorem take_wf (tasks : List Task) (hwf : tasks_wf tasks) (i : Nat) :
    ∀ t, t ∈ tasks.take i → 0 < t.period ∧ 0 ≤ t.wcet :=
  fun t ht => hwf t (List.mem_of_mem_take ht)

theorem ceil_sum_mono (tasks : List Task) (hwf : tasks_wf tasks) (i : Nat) (r r1 : ℚ)
    (h : r ≤ r1) : ceil_sum tasks i r ≤ ceil_sum tasks i r1 :=
  (ceil_mono_list _ (take_wf tasks hwf i) r r1 h).1

theorem interference_mono (tasks : List Task) (hwf : tasks_wf tasks) (i : Nat) (r r1 : ℚ)
    (h : r ≤ r1) : interference tasks i r ≤ interference tasks i r1 := by
  rw [interference_eq_sum, interference_eq_sum]
  exact (ceil_mono_list _ (take_wf tasks hwf i) r r1 h).2.1

theorem interference_eq_of_ceil_sum (tasks : List Task) (hwf : tasks_wf tasks) (i : Nat)
    (r r1 : ℚ) (h : r ≤ r1) (hs : ceil_sum tasks i r = ceil_sum tasks i r1) :
    interference tasks i r = interference tasks i r1 := by
  rw [interference_eq_sum, interference_eq_sum]
  exact (ceil_mono_list _ (take_wf tasks hwf i) r r1 h).2.2 hs

theorem interference_nonneg (tasks : List Task) (hwf : tasks_wf tasks) (i : Nat) (r : ℚ)
    (h : 0 ≤ r) : 0 ≤ interference tasks i r := by
  rw [interference_eq_sum]
  apply List.sum_nonneg
  intro x hx
  simp only [List.mem_map] at hx
  obtain ⟨t, ht, rfl⟩ := hx
  obtain ⟨hp, hw⟩ := take_wf tasks hwf i t ht
  have hpq : (0 : ℚ) < (t.period : ℚ) := by exact_mod_cast hp
  have hwq : (0 : ℚ) ≤ (t.wcet : ℚ) := by exact_mod_cast hw
  have hc : (0 : Int) ≤ ⌈r / (t.period : ℚ)⌉ := Int.ceil_nonneg (div_nonneg h (le_of_lt hpq))
  have hcq : (0 : ℚ) ≤ ((⌈r / (t.period : ℚ)⌉ : Int) : ℚ) := by exact_mod_cast hc
  exact mul_nonneg hcq hwq

theorem ceil_sum_nonneg (tasks : List Task) (hwf : tasks_wf tasks) (i : Nat) (r : ℚ)
    (h : 0 ≤ r) : 0 ≤ ceil_sum tasks i r := by
  unfold ceil_sum
  apply List.sum_nonneg
  intro x hx
  simp only [List.mem_map] at hx
  obtain ⟨t, ht, rfl⟩ := hx
  obtain ⟨hp, _⟩ := take_wf tasks hwf i t ht
  have hpq : (0 : ℚ) < (t.period : ℚ) := by exact_mod_cast hp
  exact Int.ceil_nonneg (div_nonneg h (le_of_lt hpq))

theorem my_work_loop_nonneg (tasks : List Task) (tid : Int) (q : List Job)
    (hq : ∀ j, j ∈ q → 0 ≤ j.remaining_work) : 0 ≤ my_work_loop tasks tid q := by
  induction q with
  | nil => exact le_refl _
  | cons j rest ih =>
    rw [my_work_loop]
    split_ifs
    · exact hq j (List.mem_cons_self _ _)
    · exact ih (fun x hx => hq x (List.mem_cons_of_mem _ hx))

theorem new_response_time_mono (alpha : ℚ) (ha : 0 < alpha) (tasks : List Task)
    (hwf : tasks_wf tasks) (q : List Job) (i : Nat) (r r1 : ℚ) (h : r ≤ r1) :
    new_response_time alpha tasks q i r ≤ new_response_time alpha tasks q i r1 := by
  unfold new_response_time
  exact (div_le_div_iff_of_pos_right ha).mpr (add_le_add_left (interference_mono tasks hwf i r r1 h) _)

theorem new_response_time_eq_of_ceil_sum (alpha : ℚ) (tasks : List Task)
    (hwf : tasks_wf tasks) (q : List Job) (i : Nat) (r r1 : ℚ) (h : r ≤ r1)
    (hs : ceil_sum tasks i r = ceil_sum tasks i r1) :
    new_response_time alpha tasks q i r = new_response_time alpha tasks q i r1 := by
  unfold new_response_time
  rw [interference_eq_of_ceil_sum tasks hwf i r r1 h hs]

theorem new_response_time_nonneg (alpha : ℚ) (ha : 0 < alpha) (tasks : List Task)
    (hwf : tasks_wf tasks) (q : List Job) (hq : ∀ j, j ∈ q → 0 ≤ j.remaining_work)
    (i : Nat) (r : ℚ) (h : 0 ≤ r) : 0 ≤ new_response_time alpha tasks q i r := by
  unfold new_response_time
  exact div_nonneg (add_nonneg (my_work_loop_nonneg tasks _ q hq)
    (interference_nonneg tasks hwf i r h)) (le_of_lt ha)

/-- Termination scheme: under an invariant kept by the steps that stay within
the deadline and a natural-number measure that drops whenever the step after
next still moves, the loop returns within `measure + 2` evaluations. -/
theorem response_time_loop_terminates_of_measure (alpha : ℚ) (tasks : List Task)
    (q : List Job) (i : Nat) (Inv : ℚ → Prop) (mu : ℚ → Nat)
    (hInv : ∀ r, Inv r →
      new_response_time alpha tasks q i r ≤ ((taskAt tasks i).deadline : ℚ) →
      Inv (new_response_time alpha tasks q i r))
    (hmu : ∀ r, Inv r →
      new_response_time alpha tasks q i r ≤ ((taskAt tasks i).deadline : ℚ) →
      new_response_time alpha tasks q i (new_response_time alpha tasks q i r)
        ≠ new_response_time alpha tasks q i r →
      mu (new_response_time alpha tasks q i r) < mu r) :
    ∀ k r, Inv r → mu r ≤ k →
      ∃ b, response_time_loop alpha tasks q i (k + 2) r = some b := by
  have key : ∀ k r, Inv r → mu r ≤ k →
      (∀ r1, Inv r1 → mu r1 < k → ∃ b, response_time_loop alpha tasks q i (k + 1) r1 = some b) →
      ∃ b, response_time_loop alpha tasks q i (k + 2) r = some b := by
    intro k r hI _ hrec
    rw [response_time_loop]
    by_cases h1 : new_response_time alpha tasks q i r > ((taskAt tasks i).deadline : ℚ)
    · exact ⟨false, by rw [if_pos h1]⟩
    · rw [if_neg h1]
      by_cases h2 : |new_response_time alpha tasks q i r - r| < RTA_EPS
      · exact ⟨true, by rw [if_pos h2]⟩
      · rw [if_neg h2]
        by_cases h3 : new_response_time alpha tasks q i (new_response_time alpha tasks q i r)
            = new_response_time alpha tasks q i r
        · rw [response_time_loop]
          rw [h3, if_neg h1]
          exact ⟨true, by rw [if_pos (by simp [RTA_EPS])]⟩
        · have hlt := hmu r hI (not_lt.mp h1) h3
          exact hrec _ (hInv r hI (not_lt.mp h1)) (by omega)
  intro k
  induction k with
  | zero =>
    intro r hI hm
    exact key 0 r hI hm (fun r1 _ h => absurd h (by omega))
  | succ k ih =>
    intro r hI hm
    exact key (k + 1) r hI hm (fun r1 hI1 h1 => ih r1 hI1 (by omega))

theorem response_time_loop_mono (alpha : ℚ) (tasks : List Task) (q : List Job) (i : Nat)
    (F : Nat) (r : ℚ) (b : Bool)
    (h : response_time_loop alpha tasks q i F r = some b) :
    response_time_loop alpha tasks q i (F + 1) r = some b := by
  induction F generalizing r with
  | zero => simp [response_time_loop] at h
  | succ F ih =>
    rw [response_time_loop] at h ⊢
    split_ifs at h ⊢ with h1 h2
    · exact h
    · exact h
    · exact ih _ h

theorem response_time_loop_mono_le (alpha : ℚ) (tasks : List Task) (q : List Job) (i : Nat)
    (F G : Nat) (hFG : F ≤ G) (r : ℚ) (b : Bool)
    (h : response_time_loop alpha tasks q i F r = some b) :
    response_time_loop alpha tasks q i G r = some b := by
  induction G with
  | zero =>
    have : F = 0 := by omega
    subst this; exact h
  | succ G ih =>
    rcases Nat.lt_succ_iff_lt_or_eq.mp (Nat.lt_succ_of_le hFG) with h1 | h1
    · exact response_time_loop_mono alpha tasks q i G r b (ih (Nat.lt_succ_iff.mp h1))
    · subst h1; exact h

theorem taskAt_wcet_nonneg (tasks : List Task) (hwf : tasks_wf tasks) (i : Nat) :
    0 ≤ (taskAt tasks i).wcet := by
  unfold taskAt
  rw [List.getD_eq_getElem?_getD]
  cases h : tasks[i]? with
  | none => simp [dummyTask]
  | some t => exact (hwf t (List.getElem?_mem h)).2

/-- The response-time iteration of one task returns for every non-negative
starting value, positive speed, well-formed task set and ready set with
non-negative remaining work. -/
theorem response_time_loop_terminates (alpha : ℚ) (ha : 0 < alpha) (tasks : List Task)
    (hwf : tasks_wf tasks) (q : List Job) (hq : ∀ j, j ∈ q → 0 ≤ j.remaining_work)
    (i : Nat) (r0 : ℚ) (h0 : 0 ≤ r0) :
    ∃ F b, response_time_loop alpha tasks q i F r0 = some b := by
  rcases le_total r0 (new_response_time alpha tasks q i r0) with hinc | hdec
  · -- the iterates never decrease; their ceilings are bounded by those of the deadline
    obtain ⟨b, hb⟩ := response_time_loop_terminates_of_measure alpha tasks q i
      (fun r => r ≤ new_response_time alpha tasks q i r)
      (fun r => (ceil_sum tasks i ((taskAt tasks i).deadline : ℚ) - ceil_sum tasks i r).toNat)
      (fun r hr _ => new_response_time_mono alpha ha tasks hwf q i _ _ hr)
      (fun r hr hd hne => by
        have h1 := ceil_sum_mono tasks hwf i _ _ hr
        have h2 := ceil_sum_mono tasks hwf i _ _ hd
        have h3 : ceil_sum tasks i r ≠ ceil_sum tasks i (new_response_time alpha tasks q i r) :=
          fun he => hne (new_response_time_eq_of_ceil_sum alpha tasks hwf q i _ _ hr he).symm
        simp only
        omega)
      _ r0 hinc (le_refl _)
    exact ⟨_, b, hb⟩
  · -- the iterates never increase and stay non-negative
    obtain ⟨b, hb⟩ := response_time_loop_terminates_of_measure alpha tasks q i
      (fun r => new_response_time alpha tasks q i r ≤ r ∧ 0 ≤ r)
      (fun r => (ceil_sum tasks i r).toNat)
      (fun r hr _ => ⟨new_response_time_mono alpha ha tasks hwf q i _ _ hr.1,
        new_response_time_nonneg alpha ha tasks hwf q hq i r hr.2⟩)
      (fun r hr _ hne => by
        have h1 := ceil_sum_mono tasks hwf i _ _ hr.1
        have h2 := ceil_sum_nonneg tasks hwf i _
          (new_response_time_nonneg alpha ha tasks hwf q hq i r hr.2)
        have h3 : ceil_sum tasks i (new_response_time alpha tasks q i r) ≠ ceil_sum tasks i r :=
          fun he => hne (new_response_time_eq_of_ceil_sum alpha tasks hwf q i _ _ hr.1 he)
        simp only
        omega)
      _ r0 ⟨hdec, h0⟩ (le_refl _)
    exact ⟨_, b, hb⟩

theorem is_ccrm_schedulable_from_total (alpha : ℚ) (ha : 0 < alpha) (tasks : List Task)
    (hwf : tasks_wf tasks) (q : List Job) (hq : ∀ j, j ∈ q → 0 ≤ j.remaining_work)
    (l : List Nat) :
    ∃ F, ∀ fuel, F ≤ fuel → ∃ b, is_ccrm_schedulable_from fuel alpha tasks q l = some b := by
  induction l with
  | nil => exact ⟨0, fun _ _ => ⟨true, rfl⟩⟩
  | cons i rest ih =>
    obtain ⟨F2, h2⟩ := ih
    obtain ⟨F1, b1, h1⟩ := response_time_loop_terminates alpha ha tasks hwf q hq i
      ((taskAt tasks i).wcet : ℚ) (by exact_mod_cast taskAt_wcet_nonneg tasks hwf i)
    refine ⟨max F1 F2, fun fuel hf => ?_⟩
    have hl := response_time_loop_mono_le alpha tasks q i F1 fuel
      (le_trans (le_max_left _ _) hf) _ b1 h1
    rw [is_ccrm_schedulable_from, hl]
    cases b1 with
    | false => exact ⟨false, rfl⟩
    | true => exact h2 fuel (le_trans (le_max_right _ _) hf)

/-- With enough fuel `is_ccrm_schedulable` returns at every level of the
table below `k`. -/
theorem is_ccrm_schedulable_total (tasks : List Task) (hwf : tasks_wf tasks) (q : List Job)
    (hq : ∀ j, j ∈ q → 0 ≤ j.remaining_work) (k : Nat) (hk : k ≤ NUM_FREQ_LEVELS) :
    ∃ F, ∀ fuel, F ≤ fuel → ∀ i, i < k →
      ∃ b, is_ccrm_schedulable fuel (freq i) tasks q = some b := by
  induction k with
  | zero => exact ⟨0, fun _ _ i hi => absurd hi (by omega)⟩
  | succ k ih =>
    obtain ⟨F1, h1⟩ := ih (by omega)
    obtain ⟨F2, h2⟩ := is_ccrm_schedulable_from_total (freq k) (freq_pos k (by omega)) tasks hwf
      q hq (List.range tasks.length)
    refine ⟨max F1 F2, fun fuel hf i hi => ?_⟩
    rcases Nat.lt_succ_iff_lt_or_eq.mp hi with h | h
    · exact h1 fuel (le_trans (le_max_left _ _) hf) i h
    · subst h
      exact h2 fuel (le_trans (le_max_right _ _) hf)

/-! ## C10: CCRM speed -/

/-- The downward scan of `get_ccrm_alpha`, when the test returns at every level
below `k`. -/
theorem get_ccrm_alpha_loop_spec (fuel : Nat) (tasks : List Task) (q : List Job) (k : Nat)
    (htot : ∀ i, i < k → ∃ b, is_ccrm_schedulable fuel (freq i) tasks q = some b) :
    ∃ a, get_ccrm_alpha_loop fuel tasks q k = some a ∧
      ((∃ i, i < k ∧ is_ccrm_schedulable fuel (freq i) tasks q = some true) →
        ∃ i, i < k ∧ a = freq i ∧ is_ccrm_schedulable fuel (freq i) tasks q = some true ∧
          ∀ m, m < k → is_ccrm_schedulable fuel (freq m) tasks q = some true → m ≤ i) ∧
      ((∀ i, i < k → is_ccrm_schedulable fuel (freq i) tasks q = some false) → a = 1) := by
  induction k with
  | zero =>
    refine ⟨1, rfl, ?_, fun _ => rfl⟩
    rintro ⟨i, hi, _⟩
    omega
  | succ k ih =>
    obtain ⟨b, hb⟩ := htot k (Nat.lt_succ_self k)
    cases b with
    | true =>
      refine ⟨freq k, by rw [get_ccrm_alpha_loop, hb], ?_, ?_⟩
      · intro _
        exact ⟨k, Nat.lt_succ_self k, rfl, hb, fun m hm _ => Nat.lt_succ_iff.mp hm⟩
      · intro h
        have := h k (Nat.lt_succ_self k)
        rw [hb] at this
        exact absurd this (by simp)
    | false =>
      obtain ⟨a, h1, h2, h3⟩ := ih (fun i hi => htot i (Nat.lt_succ_of_lt hi))
      refine ⟨a, by rw [get_ccrm_alpha_loop, hb]; exact h1, ?_, ?_⟩
      · rintro ⟨i, hi, hia⟩
        have hik : i < k := by
          rcases Nat.lt_succ_iff_lt_or_eq.mp hi with h | h
          · exact h
          · subst h
            rw [hb] at hia
            exact absurd hia (by simp)
        obtain ⟨r, r1, r2, r3, r4⟩ := h2 ⟨i, hik, hia⟩
        refine ⟨r, Nat.lt_succ_of_lt r1, r2, r3, fun m hm hma => ?_⟩
        rcases Nat.lt_succ_iff_lt_or_eq.mp hm with h | h
        · exact r4 m h hma
        · subst h
          rw [hb] at hma
          exact absurd hma (by simp)
      · intro h
        exact h3 (fun i hi => h i (Nat.lt_succ_of_lt hi))

/-- Whenever the downward scan of `get_ccrm_alpha` returns, it returns either
the level of the largest index at which the test succeeded, the test having
failed at every larger index, or `1` after the test failed at every index. -/
theorem get_ccrm_alpha_loop_result (fuel : Nat) (tasks : List Task) (q : List Job) (k : Nat)
    (a : ℚ) (h : get_ccrm_alpha_loop fuel tasks q k = some a) :
    (∃ i, i < k ∧ a = freq i ∧ is_ccrm_schedulable fuel (freq i) tasks q = some true ∧
      ∀ m, i < m → m < k → is_ccrm_schedulable fuel (freq m) tasks q = some false) ∨
    (a = 1 ∧ ∀ m, m < k → is_ccrm_schedulable fuel (freq m) tasks q = some false) := by
  induction k with
  | zero =>
    right
    simp only [get_ccrm_alpha_loop, Option.some.injEq] at h
    exact ⟨h.symm, fun m hm => absurd hm (by omega)⟩
  | succ k ih =>
    rw [get_ccrm_alpha_loop] at h
    cases hb : is_ccrm_schedulable fuel (freq k) tasks q with
    | none => rw [hb] at h; exact absurd h (by simp)
    | some b =>
      rw [hb] at h
      cases b with
      | true =>
        simp only [Option.some.injEq] at h
        exact Or.inl ⟨k, Nat.lt_succ_self k, h.symm, hb, fun m h1 h2 => absurd h2 (by omega)⟩
      | false =>
        simp only at h
        rcases ih h with ⟨i, h1, h2, h3, h4⟩ | ⟨h1, h2⟩
        · refine Or.inl ⟨i, Nat.lt_succ_of_lt h1, h2, h3, fun m hm1 hm2 => ?_⟩
          rcases Nat.lt_succ_iff_lt_or_eq.mp hm2 with h5 | h5
          · exact h4 m hm1 h5
          · subst h5; exact hb
        · refine Or.inr ⟨h1, fun m hm => ?_⟩
          rcases Nat.lt_succ_iff_lt_or_eq.mp hm with h5 | h5
          · exact h2 m h5
          · subst h5; exact hb

/-- C10: whenever `get_ccrm_alpha` returns a value `a` (for any task set and
ready set), either `a` is a table level at which `is_ccrm_schedulable` succeeds
and no level at which it succeeds is smaller, or `a = 1` and
`is_ccrm_schedulable` fails at all seven levels; and for every task set with
positive periods and non-negative WCETs and every ready set with non-negative
remaining work there is an amount of fuel from which on `is_ccrm_schedulable`
returns at all seven levels and `get_ccrm_alpha` returns. -/
theorem C10_ccrm_alpha (tasks : List Task) (q : List Job) :
    (∀ fuel a, get_ccrm_alpha fuel tasks q = some a →
      (∃ i, i < NUM_FREQ_LEVELS ∧ a = freq i ∧
        is_ccrm_schedulable fuel (freq i) tasks q = some true ∧
        ∀ m, m < NUM_FREQ_LEVELS →
          is_ccrm_schedulable fuel (freq m) tasks q = some true → a ≤ freq m) ∨
      (a = 1 ∧ ∀ m, m < NUM_FREQ_LEVELS →
        is_ccrm_schedulable fuel (freq m) tasks q = some false)) ∧
    (tasks_wf tasks → (∀ j, j ∈ q → 0 ≤ j.remaining_work) →
      ∃ F, ∀ fuel, F ≤ fuel →
        (∀ i, i < NUM_FREQ_LEVELS →
          ∃ b, is_ccrm_schedulable fuel (freq i) tasks q = some b) ∧
        ∃ a, get_ccrm_alpha fuel tasks q = some a) := by
  constructor
  · intro fuel a h
    rcases get_ccrm_alpha_loop_result fuel tasks q NUM_FREQ_LEVELS a h with
      ⟨i, h1, h2, h3, h4⟩ | h0
    · refine Or.inl ⟨i, h1, h2, h3, fun m hm hma => ?_⟩
      rw [h2]
      apply freq_antitone m i _ h1
      by_contra hlt
      have := h4 m (not_le.mp hlt) hm
      rw [hma] at this
      exact absurd this (by simp)
    · exact Or.inr h0
  · intro hwf hq
    obtain ⟨F, hF⟩ := is_ccrm_schedulable_total tasks hwf q hq NUM_FREQ_LEVELS (le_refl _)
    refine ⟨F, fun fuel hf => ⟨hF fuel hf, ?_⟩⟩
    obtain ⟨a, h1, _⟩ := get_ccrm_alpha_loop_spec fuel tasks q NUM_FREQ_LEVELS (hF fuel hf)
    exact ⟨a, h1⟩

/-- C10 on the task set (period 4, WCET 1), (period 6, WCET 2) with both first
jobs ready: the test fails at `0.4`, `0.5`, `0.6` and succeeds at `0.7`, which
`get_ccrm_alpha` returns; with WCETs 3 and 4 the test fails at all seven levels
and the result is `1`. -/
theorem C10_ccrm_alpha_witness :
    get_ccrm_alpha 5 [mkTask 0 4 1, mkTask 1 6 2]
      [{ mkJob 0 4 1 with task := 0 }, { mkJob 1 6 2 with task := 1 }] = some (7 / 10) ∧
    is_ccrm_schedulable 5 (6 / 10) [mkTask 0 4 1, mkTask 1 6 2]
      [{ mkJob 0 4 1 with task := 0 }, { mkJob 1 6 2 with task := 1 }] = some false ∧
    get_ccrm_alpha 5 [mkTask 0 4 3, mkTask 1 6 4]
      [{ mkJob 0 4 3 with task := 0 }, { mkJob 1 6 4 with task := 1 }] = some 1 ∧
    (∃ F, ∀ fuel, F ≤ fuel → ∃ a, get_ccrm_alpha fuel [mkTask 0 4 1, mkTask 1 6 2]
      [{ mkJob 0 4 1 with task := 0 }, { mkJob 1 6 2 with task := 1 }] = some a) := by
  refine ⟨by decide!, by decide!, by decide!, ?_⟩
  obtain ⟨F, hF⟩ := (C10_ccrm_alpha [mkTask 0 4 1, mkTask 1 6 2]
      [{ mkJob 0 4 1 with task := 0 }, { mkJob 1 6 2 with task := 1 }]).2
    (by
      intro t ht
      simp only [List.mem_cons, List.mem_singleton, List.not_mem_nil, or_false] at ht
      rcases ht with rfl | rfl <;> decide)
    (by
      intro j hj
      simp only [List.mem_cons, List.mem_singleton, List.not_mem_nil, or_false] at hj
      rcases hj with rfl | rfl <;> decide!)
  exact ⟨F, fun fuel hf => (hF fuel hf).2⟩

/-! ## Structural invariants of a run -/

theorem map_set_getD {α β : Type} (f : α → β) (l : List α) (i : Nat) (d x : α)
    (hx : f x = f (l.getD i d)) (hd : i < l.length) : (l.set i x).map f = l.map f := by
  induction l generalizing i with
  | nil => simp
  | cons a rest ih =>
    cases i with
    | zero =>
      simp only [List.set_cons_zero, List.map_cons, List.getD_cons_zero] at hx ⊢
      rw [hx]
    | succ i =>
      simp only [List.set_cons_succ, List.map_cons, List.getD_cons_succ] at hx ⊢
      rw [ih i hx (by simpa using hd)]

theorem map_set_getD_any {α β : Type} (f : α → β) (l : List α) (i : Nat) (d x : α)
    (hx : f x = f (l.getD i d)) : (l.set i x).map f = l.map f := by
  by_cases hd : i < l.length
  · exact map_set_getD f l i d x hx hd
  · rw [List.set_eq_of_length_le (not_lt.mp hd)]

theorem taskAt_reset_heads (ts : List Task) (i : Nat) :
    taskAt (reset_heads ts) i = { taskAt ts i with invocation_head := 0 } := by
  unfold taskAt reset_heads
  rw [List.getD_eq_getElem?_getD, List.getD_eq_getElem?_getD, List.getElem?_map]
  cases ts[i]? with
  | none => rfl
  | some t => rfl

/-- Two task arrays that differ only in the invocation cursors have the same
static fields at every index, and the same length. -/
theorem static_fields_eq (ts ts0 : List Task) (h : reset_heads ts = reset_heads ts0)
    (i : Nat) :
    (taskAt ts i).id = (taskAt ts0 i).id ∧ (taskAt ts i).phase = (taskAt ts0 i).phase ∧
    (taskAt ts i).period = (taskAt ts0 i).period ∧ (taskAt ts i).wcet = (taskAt ts0 i).wcet ∧
    (taskAt ts i).deadline = (taskAt ts0 i).deadline ∧
    (taskAt ts i).invocation_times = (taskAt ts0 i).invocation_times ∧
    (taskAt ts i).num_invocations = (taskAt ts0 i).num_invocations := by
  have h1 := taskAt_reset_heads ts i
  have h2 := taskAt_reset_heads ts0 i
  rw [h] at h1
  rw [h1] at h2
  simp only [Task.mk.injEq] at h2
  obtain ⟨a, b, c, d, e, f, g, _⟩ := h2
  exact ⟨a, b, c, d, e, f, g⟩

theorem static_length_eq (ts ts0 : List Task) (h : reset_heads ts = reset_heads ts0) :
    ts.length = ts0.length := by
  have := congrArg List.length h
  simpa [reset_heads] using this

theorem release_due_static (t t0 : Task) (c : ℚ) (hp : t.phase = t0.phase)
    (hq : t.period = t0.period) : release_due t c = release_due t0 c := by
  unfold release_due
  rw [hp, hq]

/-- A release that is not due leaves the state unchanged. -/
theorem release_task_not_due (policy : Scheduler) (s : SimState) (i : Nat)
    (h : release_due (taskAt s.tasks i) s.current_time = false) :
    release_task policy s i = s := by
  simp [release_task, h]

/-- The effect of a due release on the fields of the state. -/
theorem release_task_due (policy : Scheduler) (s : SimState) (i : Nat)
    (h : release_due (taskAt s.tasks i) s.current_time = true) :
    reset_heads (release_task policy s i).tasks = reset_heads s.tasks ∧
    (∃ j, (release_task policy s i).job_pool = s.job_pool ++ [j] ∧ j.task = i ∧
      j.id = s.job_count) ∧
    (release_task policy s i).job_count = s.job_count + 1 ∧
    (release_task policy s i).ready_queue = s.ready_queue ++ [s.job_count] ∧
    (release_task policy s i).ccedf_utils
      = (if policy = Scheduler.CCEDF then
          s.ccedf_utils.set (taskAt s.tasks i).id.toNat
            (((taskAt s.tasks i).wcet : ℚ) / ((taskAt s.tasks i).period : ℚ))
        else s.ccedf_utils) ∧
    (release_task policy s i).current_time = s.current_time := by
  have e : release_task policy s i =
      { s with
        tasks :=
          if (taskAt s.tasks i).num_invocations > 0 then
            s.tasks.set i
              { taskAt s.tasks i with
                invocation_head :=
                  Int.tmod ((taskAt s.tasks i).invocation_head + 1)
                    (taskAt s.tasks i).num_invocations }
          else s.tasks,
        job_pool := s.job_pool ++
          [{ id := s.job_count, task := i,
             release_time := truncToInt s.current_time,
             absolute_deadline := truncToInt s.current_time + (taskAt s.tasks i).deadline,
             remaining_work :=
               (((if (taskAt s.tasks i).num_invocations > 0 then
                  (taskAt s.tasks i).invocation_times.getD
                    (taskAt s.tasks i).invocation_head.toNat 0
                else (taskAt s.tasks i).wcet : Int)) : ℚ),
             actual_exec_time :=
               if (taskAt s.tasks i).num_invocations > 0 then
                 (taskAt s.tasks i).invocation_times.getD
                   (taskAt s.tasks i).invocation_head.toNat 0
               else (taskAt s.tasks i).wcet }],
        job_count := s.job_count + 1,
        ready_queue := s.ready_queue ++ [s.job_count],
        decision_points := s.decision_points + 1,
        ccedf_utils :=
          if policy = Scheduler.CCEDF then
            s.ccedf_utils.set (taskAt s.tasks i).id.toNat
              (((taskAt s.tasks i).wcet : ℚ) / ((taskAt s.tasks i).period : ℚ))
          else s.ccedf_utils } := by
    simp only [release_task, h, if_true]
  rw [e]
  refine ⟨?_, ⟨_, rfl, rfl, rfl⟩, rfl, rfl, rfl, rfl⟩
  simp only
  split_ifs
  · unfold reset_heads
    exact map_set_getD_any _ s.tasks i dummyTask _ rfl
  · rfl

theorem runInv_congr {tasks0 : List Task} {s s1 : SimState} (h : RunInv tasks0 s)
    (h1 : s1.tasks = s.tasks) (h2 : s1.ccedf_utils = s.ccedf_utils)
    (h3 : s1.job_pool = s.job_pool) (h4 : s1.job_count = s.job_count)
    (h5 : s1.ready_queue = s.ready_queue) : RunInv tasks0 s1 where
  tasks_static := by rw [h1]; exact h.tasks_static
  utils_len := by rw [h2]; exact h.utils_len
  pool_len := by rw [h3, h4]; exact h.pool_len
  queue_valid := by rw [h3, h5]; exact h.queue_valid
  pool_tasks := by
    intro k hk
    apply h.pool_tasks
    simpa [released_tasks, h3] using hk

theorem release_task_inv (policy : Scheduler) (tasks0 : List Task) (s : SimState) (i : Nat)
    (h : RunInv tasks0 s) (hi : i < tasks0.length) :
    RunInv tasks0 (release_task policy s i) := by
  cases hdue : release_due (taskAt s.tasks i) s.current_time with
  | false => rw [release_task_not_due policy s i hdue]; exact h
  | true =>
    obtain ⟨e1, ⟨j, e2, e3, _⟩, e4, e5, e6, _⟩ := release_task_due policy s i hdue
    refine ⟨?_, ?_, ?_, ?_, ?_⟩
    · rw [e1]; exact h.tasks_static
    · rw [e6]
      split_ifs
      · rw [List.length_set]; exact h.utils_len
      · exact h.utils_len
    · rw [e2, e4, List.length_append, h.pool_len]; rfl
    · intro p hp
      rw [e5] at hp
      rw [e2, List.length_append]
      rcases List.mem_append.mp hp with hp | hp
      · exact Nat.lt_add_right _ (h.queue_valid p hp)
      · simp only [List.mem_singleton] at hp
        rw [hp, h.pool_len]
        simp
    · intro k hk
      simp only [released_tasks, e2, List.map_append, List.map_cons, List.map_nil,
        List.mem_append, List.mem_singleton] at hk
      rcases hk with hk | hk
      · exact h.pool_tasks k hk
      · rw [hk, e3]; exact hi

theorem release_fold_inv (policy : Scheduler) (tasks0 : List Task) (l : List Nat)
    (hl : ∀ i, i ∈ l → i < tasks0.length) (s : SimState) (h : RunInv tasks0 s) :
    RunInv tasks0 (l.foldl (release_task policy) s) := by
  induction l generalizing s with
  | nil => exact h
  | cons i rest ih =>
    exact ih (fun x hx => hl x (List.mem_cons_of_mem _ hx)) _
      (release_task_inv policy tasks0 s i h (hl i (List.mem_cons_self _ _)))

theorem release_phase_inv (policy : Scheduler) (tasks0 : List Task) (s : SimState)
    (h : RunInv tasks0 s) : RunInv tasks0 (release_phase policy s) := by
  apply release_fold_inv policy tasks0 _ _ s h
  intro i hi
  rw [List.mem_range, static_length_eq _ _ h.tasks_static] at hi
  exact hi

theorem advance_fields (s : SimState) (cj : Option Nat) (d : ℚ) :
    (advance s cj d).tasks = s.tasks ∧ (advance s cj d).ccedf_utils = s.ccedf_utils ∧
    (advance s cj d).job_count = s.job_count ∧
    (advance s cj d).ready_queue = s.ready_queue ∧
    (advance s cj d).job_pool.length = s.job_pool.length ∧
    released_tasks (advance s cj d) = released_tasks s ∧
    (∀ p, (jobAt (advance s cj d).job_pool p).task = (jobAt s.job_pool p).task ∧
      (jobAt (advance s cj d).job_pool p).actual_exec_time
        = (jobAt s.job_pool p).actual_exec_time) := by
  unfold advance
  cases cj with
  | none => exact ⟨rfl, rfl, rfl, rfl, rfl, rfl, fun _ => ⟨rfl, rfl⟩⟩
  | some c =>
    refine ⟨rfl, rfl, rfl, rfl, ?_, ?_, ?_⟩
    · simp only [List.length_set]
    · simp only [released_tasks]
      exact map_set_getD_any _ s.job_pool c dummyJob _ rfl
    · intro p
      simp only [jobAt, List.getD_eq_getElem?_getD, List.getElem?_set]
      by_cases hcp : c = p
      · subst hcp
        by_cases hlen : c < s.job_pool.length
        · simp [hlen]
        · simp [hlen, List.getElem?_eq_none (not_lt.mp hlen)]
      · simp [hcp]

theorem advance_inv (tasks0 : List Task) (s : SimState) (cj : Option Nat) (d : ℚ)
    (h : RunInv tasks0 s) : RunInv tasks0 (advance s cj d) := by
  obtain ⟨e1, e2, e3, e4, e5, e6, _⟩ := advance_fields s cj d
  refine ⟨?_, ?_, ?_, ?_, ?_⟩
  · rw [e1]; exact h.tasks_static
  · rw [e2]; exact h.utils_len
  · rw [e5, e3]; exact h.pool_len
  · rw [e5, e4]; exact h.queue_valid
  · rw [e6]; exact h.pool_tasks

theorem mem_remove_at (rq : List Nat) (b x : Nat) (h : x ∈ remove_at rq b) : x ∈ rq := by
  unfold remove_at at h
  simp only at h
  split_ifs at h with hb
  · rcases List.mem_or_eq_of_mem_set h with h1 | h1
    · exact List.mem_of_mem_take h1
    · rw [h1, List.getD_eq_getElem?_getD]
      have hlen : rq.length - 1 < rq.length := by omega
      rw [List.getElem?_eq_getElem hlen]
      exact List.getElem_mem _
  · exact List.mem_of_mem_take h

theorem completion_fields (policy : Scheduler) (s : SimState) (cj : Option Nat) (b : Nat) :
    (completion policy s cj b).tasks = s.tasks ∧
    (completion policy s cj b).job_pool = s.job_pool ∧
    (completion policy s cj b).job_count = s.job_count ∧
    (completion policy s cj b).ccedf_utils.length = s.ccedf_utils.length ∧
    (∀ x, x ∈ (completion policy s cj b).ready_queue → x ∈ s.ready_queue) := by
  unfold completion
  cases cj with
  | none => exact ⟨rfl, rfl, rfl, rfl, fun _ h => h⟩
  | some p =>
    simp only
    by_cases hrem : (jobAt s.job_pool p).remaining_work ≤ EPS
    · rw [if_pos hrem]
      refine ⟨rfl, rfl, rfl, ?_, fun x hx => mem_remove_at _ _ x hx⟩
      simp only
      split_ifs
      · simp
      · rfl
    · rw [if_neg hrem]
      exact ⟨rfl, rfl, rfl, rfl, fun _ h => h⟩

theorem completion_inv (policy : Scheduler) (tasks0 : List Task) (s : SimState)
    (cj : Option Nat) (b : Nat) (h : RunInv tasks0 s) :
    RunInv tasks0 (completion policy s cj b) := by
  obtain ⟨e1, e2, e3, e4, e5⟩ := completion_fields policy s cj b
  refine ⟨?_, ?_, ?_, ?_, ?_⟩
  · rw [e1]; exact h.tasks_static
  · rw [e4]; exact h.utils_len
  · rw [e2, e3]; exact h.pool_len
  · intro p hp
    rw [e2]; exact h.queue_valid p (e5 p hp)
  · intro k hk
    apply h.pool_tasks
    simpa [released_tasks, e2] using hk

/-- The three ways an iteration ends: `break` or nudge after the switch
accounting when the duration is below `1e-9`, and advance followed by the
completion phase otherwise. -/
theorem sim_iteration_cases (fuel : Nat) (policy : Scheduler) (H : ℚ) (s s1 : SimState)
    (b : Bool) (h : sim_iteration fuel policy H s = some (s1, b)) :
    ∃ s2, speed_update fuel policy (release_phase policy s) = some s2 ∧
      ((exec_duration H (account_switch s2 (current_job_of policy s2))
            (current_job_of policy s2) < EPS ∧
          (s1 = account_switch s2 (current_job_of policy s2) ∨
           s1 = { account_switch s2 (current_job_of policy s2) with
                  current_time :=
                    (account_switch s2 (current_job_of policy s2)).current_time + EPS })) ∨
       (EPS ≤ exec_duration H (account_switch s2 (current_job_of policy s2))
            (current_job_of policy s2) ∧ b = false ∧
          s1 = completion policy
            (advance (account_switch s2 (current_job_of policy s2)) (current_job_of policy s2)
              (exec_duration H (account_switch s2 (current_job_of policy s2))
                (current_job_of policy s2)))
            (current_job_of policy s2)
            ((dispatch policy s2.tasks (deref s2.job_pool s2.ready_queue)).getD 0))) := by
  unfold sim_iteration at h
  cases hsu : speed_update fuel policy (release_phase policy s) with
  | none => rw [hsu] at h; exact absurd h (by simp)
  | some s2 =>
    rw [hsu] at h
    simp only at h
    refine ⟨s2, rfl, ?_⟩
    by_cases hd : exec_duration H (account_switch s2 (current_job_of policy s2))
        (current_job_of policy s2) < EPS
    · left
      rw [if_pos hd] at h
      refine ⟨hd, ?_⟩
      split_ifs at h
      · simp only [Option.some.injEq, Prod.mk.injEq] at h
        exact Or.inl h.1.symm
      · simp only [Option.some.injEq, Prod.mk.injEq] at h
        exact Or.inr h.1.symm
    · right
      rw [if_neg hd] at h
      simp only [Option.some.injEq, Prod.mk.injEq] at h
      exact ⟨not_lt.mp hd, h.2.symm, h.1.symm⟩

theorem sim_iteration_inv (fuel : Nat) (policy : Scheduler) (H : ℚ) (tasks0 : List Task)
    (s s1 : SimState) (b : Bool) (hinv : RunInv tasks0 s)
    (h : sim_iteration fuel policy H s = some (s1, b)) : RunInv tasks0 s1 := by
  obtain ⟨s2, hsu, hcases⟩ := sim_iteration_cases fuel policy H s s1 b h
  obtain ⟨_, _, u1, u2, u3, u4, u5⟩ := speed_update_fields fuel policy _ s2 hsu
  have h2 : RunInv tasks0 s2 := runInv_congr (release_phase_inv policy tasks0 s hinv) u1 u4 u2 u5 u3
  obtain ⟨_, _, _, _, a1, a2, a3, a4, a5⟩ :=
    account_switch_fields s2 (current_job_of policy s2)
  have h3 : RunInv tasks0 (account_switch s2 (current_job_of policy s2)) :=
    runInv_congr h2 a2 a4 a1 a5 a3
  rcases hcases with ⟨_, hs | hs⟩ | ⟨_, _, hs⟩
  · rw [hs]; exact h3
  · rw [hs]; exact runInv_congr h3 rfl rfl rfl rfl rfl
  · rw [hs]
    exact completion_inv policy tasks0 _ _ _ (advance_inv tasks0 _ _ _ h3)

theorem sim_init_fields (policy : Scheduler) (tasks : List Task) :
    (sim_init policy tasks).tasks = reset_heads tasks ∧
    (sim_init policy tasks).job_pool = [] ∧ (sim_init policy tasks).job_count = 0 ∧
    (sim_init policy tasks).ready_queue = [] ∧
    (sim_init policy tasks).ccedf_utils = List.replicate MAX_TASKS 0 ∧
    (sim_init policy tasks).current_time = 0 ∧ (sim_init policy tasks).total_energy = 0 := by
  unfold sim_init
  simp only
  split_ifs <;> exact ⟨rfl, rfl, rfl, rfl, rfl, rfl, rfl⟩

theorem reset_heads_idem (tasks : List Task) :
    reset_heads (reset_heads tasks) = reset_heads tasks := by
  unfold reset_heads
  rw [List.map_map]
  rfl

theorem sim_init_inv (policy : Scheduler) (tasks : List Task) :
    RunInv tasks (sim_init policy tasks) := by
  obtain ⟨e1, e2, e3, e4, e5, _⟩ := sim_init_fields policy tasks
  refine ⟨?_, ?_, ?_, ?_, ?_⟩
  · rw [e1]; exact reset_heads_idem tasks
  · rw [e5]; simp
  · rw [e2, e3]; rfl
  · intro p hp; rw [e4] at hp; exact absurd hp (by simp)
  · intro k hk
    simp [released_tasks, e2] at hk

/-- Every state of a run satisfies the structural invariant. -/
theorem reach_inv (policy : Scheduler) (tasks : List Task) (H : ℚ) (s : SimState)
    (h : Reach policy tasks H s) : RunInv tasks s := by
  induction h with
  | init => exact sim_init_inv policy tasks
  | step fuel s s1 b _ _ hit ih => exact sim_iteration_inv fuel policy H tasks s s1 b ih hit

/-! ## C6: the utilisations of CCEDF -/

theorem getD_set_utils (u : List ℚ) (i k : Nat) (v : ℚ) (hi : i < u.length) :
    (u.set i v).getD k 0 = if k = i then v else u.getD k 0 := by
  simp only [List.getD_eq_getElem?_getD, List.getElem?_set]
  by_cases hik : i = k
  · subst hik; simp [hi]
  · have : ¬ k = i := fun h => hik h.symm
    simp [hik, this]

/-- The effect of the release of task `i` under CCEDF on the slot of task `k`
and on the set of released tasks. -/
theorem release_task_ccedf (tasks0 : List Task) (hid : ids_in_order tasks0)
    (hn : tasks0.length ≤ MAX_TASKS) (s : SimState) (h : RunInv tasks0 s) (i : Nat)
    (hi : i < tasks0.length) (k : Nat) :
    (release_task Scheduler.CCEDF s i).ccedf_utils.getD k 0
      = (if k = i ∧ release_due (taskAt tasks0 i) s.current_time = true then
          ((taskAt tasks0 i).wcet : ℚ) / ((taskAt tasks0 i).period : ℚ)
        else s.ccedf_utils.getD k 0) ∧
    (k ∈ released_tasks (release_task Scheduler.CCEDF s i)
      ↔ k ∈ released_tasks s ∨ (k = i ∧ release_due (taskAt tasks0 i) s.current_time = true)) := by
  obtain ⟨f1, f2, f3, f4, _⟩ := static_fields_eq s.tasks tasks0 h.tasks_static i
  have hdue0 : release_due (taskAt s.tasks i) s.current_time
      = release_due (taskAt tasks0 i) s.current_time := release_due_static _ _ _ f2 f3
  cases hdue : release_due (taskAt s.tasks i) s.current_time with
  | false =>
    rw [release_task_not_due _ s i hdue]
    rw [← hdue0, hdue]
    simp
  | true =>
    obtain ⟨_, ⟨j, e2, e3, _⟩, _, _, e6, _⟩ := release_task_due Scheduler.CCEDF s i hdue
    rw [← hdue0, hdue]
    constructor
    · rw [e6, if_pos rfl, f1, hid i hi, f3, f4]
      have hlen : i < s.ccedf_utils.length := by rw [h.utils_len]; omega
      simp only [Int.toNat_ofNat]
      rw [getD_set_utils _ _ _ _ hlen]
      simp
    · simp only [released_tasks, e2, List.map_append, List.map_cons, List.map_nil,
        List.mem_append, List.mem_singleton, e3, and_true]

theorem release_fold_ccedf (tasks0 : List Task) (hid : ids_in_order tasks0)
    (hn : tasks0.length ≤ MAX_TASKS) (l : List Nat) (hl : ∀ i, i ∈ l → i < tasks0.length)
    (s : SimState) (h : RunInv tasks0 s) (k : Nat) :
    (l.foldl (release_task Scheduler.CCEDF) s).ccedf_utils.getD k 0
      = (if k ∈ l ∧ release_due (taskAt tasks0 k) s.current_time = true then
          ((taskAt tasks0 k).wcet : ℚ) / ((taskAt tasks0 k).period : ℚ)
        else s.ccedf_utils.getD k 0) ∧
    (k ∈ released_tasks (l.foldl (release_task Scheduler.CCEDF) s)
      ↔ k ∈ released_tasks s ∨ (k ∈ l ∧ release_due (taskAt tasks0 k) s.current_time = true)) := by
  induction l generalizing s with
  | nil => simp
  | cons i rest ih =>
    have hi := hl i (List.mem_cons_self _ _)
    obtain ⟨r1, r2⟩ := release_task_ccedf tasks0 hid hn s h i hi k
    have ht : (release_task Scheduler.CCEDF s i).current_time = s.current_time :=
      (release_task_speed Scheduler.CCEDF s i).2.2.2
    obtain ⟨i1, i2⟩ := ih (fun x hx => hl x (List.mem_cons_of_mem _ hx))
      (release_task Scheduler.CCEDF s i) (release_task_inv _ tasks0 s i h hi)
    rw [ht] at i1 i2
    simp only [List.foldl_cons]
    constructor
    · rw [i1, r1]
      by_cases hk : k = i
      · subst hk
        by_cases hd : release_due (taskAt tasks0 k) s.current_time = true
        · simp [hd]
        · simp [hd]
      · simp [hk]
    · rw [i2, r2]
      by_cases hk : k = i
      · subst hk; simp; tauto
      · simp [hk]

/-- The release phase under CCEDF: the slot of every task with a due release
holds `wcet / period`, all other slots are kept, and the released tasks grow by
the tasks with a due release. -/
theorem release_phase_ccedf (tasks0 : List Task) (hid : ids_in_order tasks0)
    (hn : tasks0.length ≤ MAX_TASKS) (s : SimState) (h : RunInv tasks0 s) (k : Nat)
    (hk : k < tasks0.length) :
    (release_phase Scheduler.CCEDF s).ccedf_utils.getD k 0
      = (if release_due (taskAt tasks0 k) s.current_time = true then
          ((taskAt tasks0 k).wcet : ℚ) / ((taskAt tasks0 k).period : ℚ)
        else s.ccedf_utils.getD k 0) ∧
    (k ∈ released_tasks (release_phase Scheduler.CCEDF s)
      ↔ k ∈ released_tasks s ∨ release_due (taskAt tasks0 k) s.current_time = true) := by
  have hlen := static_length_eq _ _ h.tasks_static
  obtain ⟨r1, r2⟩ := release_fold_ccedf tasks0 hid hn (List.range s.tasks.length)
    (fun i hi => by rw [List.mem_range, hlen] at hi; exact hi) s h k
  have hmem : k ∈ List.range s.tasks.length := by rw [List.mem_range, hlen]; exact hk
  simp only [hmem, true_and] at r1 r2
  exact ⟨r1, r2⟩

theorem get_ccedf_alpha_eq (u : List ℚ) (n : Nat) :
    get_ccedf_alpha u n = ((List.range n).map (fun i => u.getD i 0)).sum := by
  unfold get_ccedf_alpha
  rw [foldl_add_eq_sum (fun i : Nat => u.getD i 0)]
  simp

theorem speed_update_ccedf (fuel : Nat) (s : SimState) :
    ∃ s2, speed_update fuel Scheduler.CCEDF s = some s2 ∧
      s2.required_util = ((List.range s.tasks.length).map (fun i => s.ccedf_utils.getD i 0)).sum ∧
      s2.freq_idx = get_freq_idx_for_alpha s2.required_util ∧
      s2.alpha = freq s2.freq_idx := by
  refine ⟨{ s with
      required_util := get_ccedf_alpha s.ccedf_utils s.tasks.length,
      freq_idx := get_freq_idx_for_alpha (get_ccedf_alpha s.ccedf_utils s.tasks.length),
      alpha := freq (get_freq_idx_for_alpha (get_ccedf_alpha s.ccedf_utils s.tasks.length)) },
    by simp [speed_update], ?_, rfl, rfl⟩
  exact get_ccedf_alpha_eq _ _

theorem dispatch_lt (policy : Scheduler) (tasks : List Task) (q : List Job) (b : Nat)
    (h : dispatch policy tasks q = some b) : b < q.length := by
  unfold dispatch at h
  split_ifs at h with h1 h2
  · rw [edf_scan_eq] at h
    obtain ⟨m, _, _, hs, _⟩ := key_scan_spec (fun j => j.absolute_deadline) INT_MAX q []
      INT_MAX none (fun _ => rfl) (fun b hb => absurd hb (by simp))
      (fun j hj => absurd hj (by simp)) (le_refl _)
    obtain ⟨x, hx, _⟩ := hs b h
    simp only [List.nil_append] at hx
    exact (List.getElem?_eq_some.mp hx).1
  · rw [rm_scan_eq] at h
    obtain ⟨m, _, _, hs, _⟩ := key_scan_spec (fun j => (taskAt tasks j.task).period) INT_MAX q []
      INT_MAX none (fun _ => rfl) (fun b hb => absurd hb (by simp))
      (fun j hj => absurd hj (by simp)) (le_refl _)
    obtain ⟨x, hx, _⟩ := hs b h
    simp only [List.nil_append] at hx
    exact (List.getElem?_eq_some.mp hx).1

/-- The dispatched job pointer is an entry of the ready queue. -/
theorem current_job_mem (policy : Scheduler) (s : SimState) (p : Nat)
    (h : current_job_of policy s = some p) : p ∈ s.ready_queue := by
  unfold current_job_of at h
  cases hd : dispatch policy s.tasks (deref s.job_pool s.ready_queue) with
  | none => rw [hd] at h; exact absurd h (by simp)
  | some b =>
    rw [hd] at h
    simp only [Option.map_some', Option.some.injEq] at h
    have hb := dispatch_lt policy s.tasks _ b hd
    simp only [deref, List.length_map] at hb
    rw [← h, List.getD_eq_getElem?_getD, List.getElem?_eq_getElem hb]
    exact List.getElem_mem _

theorem jobAt_task_mem (s : SimState) (p : Nat) (hp : p < s.job_pool.length) :
    (jobAt s.job_pool p).task ∈ released_tasks s := by
  unfold jobAt released_tasks
  rw [List.getD_eq_getElem?_getD, List.getElem?_eq_getElem hp]
  exact List.mem_map_of_mem _ (List.getElem_mem _)

/-- The completion phase under CCEDF for a dispatched job `p` of the pool:
when the job is complete the slot of its task holds `actual / period` and the
other slots are kept; otherwise nothing changes. -/
theorem completion_ccedf (tasks0 : List Task) (hid : ids_in_order tasks0)
    (hn : tasks0.length ≤ MAX_TASKS) (s : SimState) (h : RunInv tasks0 s) (p b : Nat)
    (hp : p < s.job_pool.length) (k : Nat) :
    (completion Scheduler.CCEDF s (some p) b).ccedf_utils.getD k 0
      = (if (jobAt s.job_pool p).remaining_work ≤ EPS ∧ k = (jobAt s.job_pool p).task then
          ((jobAt s.job_pool p).actual_exec_time : ℚ)
            / ((taskAt tasks0 (jobAt s.job_pool p).task).period : ℚ)
        else s.ccedf_utils.getD k 0) := by
  have hjt : (jobAt s.job_pool p).task < tasks0.length :=
    h.pool_tasks _ (jobAt_task_mem s p hp)
  obtain ⟨f1, _, f3, _⟩ := static_fields_eq s.tasks tasks0 h.tasks_static
    (jobAt s.job_pool p).task
  have hidj : (taskAt s.tasks (jobAt s.job_pool p).task).id.toNat = (jobAt s.job_pool p).task := by
    rw [f1, hid _ hjt]; simp
  unfold completion
  simp only
  by_cases hrem : (jobAt s.job_pool p).remaining_work ≤ EPS
  · rw [if_pos hrem]
    simp only [if_true, hrem, true_and]
    rw [hidj, f3]
    have hlen : (jobAt s.job_pool p).task < s.ccedf_utils.length := by
      rw [h.utils_len]; omega
    exact getD_set_utils _ _ _ _ hlen
  · rw [if_neg hrem]
    simp [hrem]

theorem utilsZero_congr {tasks0 : List Task} {s s1 : SimState} (h : UtilsZero tasks0 s)
    (h1 : s1.ccedf_utils = s.ccedf_utils) (h2 : released_tasks s1 = released_tasks s) :
    UtilsZero tasks0 s1 := by
  intro k hk hnot
  rw [h1]
  rw [h2] at hnot
  exact h k hk hnot

theorem released_tasks_congr (s s1 : SimState) (h : s1.job_pool = s.job_pool) :
    released_tasks s1 = released_tasks s := by
  unfold released_tasks
  rw [h]

theorem sim_iteration_utils_zero (fuel : Nat) (H : ℚ) (tasks0 : List Task)
    (hid : ids_in_order tasks0) (hn : tasks0.length ≤ MAX_TASKS)
    (s s1 : SimState) (b : Bool) (hinv : RunInv tasks0 s) (hz : UtilsZero tasks0 s)
    (h : sim_iteration fuel Scheduler.CCEDF H s = some (s1, b)) : UtilsZero tasks0 s1 := by
  obtain ⟨s2, hsu, hcases⟩ := sim_iteration_cases fuel Scheduler.CCEDF H s s1 b h
  obtain ⟨_, _, u1, u2, u3, u4, u5⟩ := speed_update_fields fuel Scheduler.CCEDF _ s2 hsu
  have hz1 : UtilsZero tasks0 (release_phase Scheduler.CCEDF s) := by
    intro k hk hnot
    obtain ⟨r1, r2⟩ := release_phase_ccedf tasks0 hid hn s hinv k hk
    have hnot2 : ¬ (k ∈ released_tasks s ∨ release_due (taskAt tasks0 k) s.current_time = true) :=
      fun hc => hnot (r2.mpr hc)
    rw [r1, if_neg (fun hc => hnot2 (Or.inr hc))]
    exact hz k hk (fun hc => hnot2 (Or.inl hc))
  have h2 : RunInv tasks0 s2 :=
    runInv_congr (release_phase_inv Scheduler.CCEDF tasks0 s hinv) u1 u4 u2 u5 u3
  have hz2 : UtilsZero tasks0 s2 := utilsZero_congr hz1 u4 (released_tasks_congr _ _ u2)
  generalize hcj : current_job_of Scheduler.CCEDF s2 = cj at hcases
  obtain ⟨_, _, _, _, a1, a2, a3, a4, a5⟩ := account_switch_fields s2 cj
  have h3 : RunInv tasks0 (account_switch s2 cj) := runInv_congr h2 a2 a4 a1 a5 a3
  have hz3 : UtilsZero tasks0 (account_switch s2 cj) :=
    utilsZero_congr hz2 a4 (released_tasks_congr _ _ a1)
  rcases hcases with ⟨_, hs | hs⟩ | ⟨_, _, hs⟩
  · rw [hs]; exact hz3
  · rw [hs]; exact utilsZero_congr hz3 rfl rfl
  · rw [hs]
    generalize exec_duration H (account_switch s2 cj) cj = d
    generalize (dispatch Scheduler.CCEDF s2.tasks (deref s2.job_pool s2.ready_queue)).getD 0
      = best
    obtain ⟨_, v2, _, v4, _, v6, _⟩ := advance_fields (account_switch s2 cj) cj d
    have h4 := advance_inv tasks0 _ cj d h3
    have hz4 : UtilsZero tasks0 (advance (account_switch s2 cj) cj d) := utilsZero_congr hz3 v2 v6
    cases cj with
    | none => exact utilsZero_congr hz4 rfl rfl
    | some p =>
      have hp : p < (advance (account_switch s2 (some p)) (some p) d).job_pool.length :=
        h4.queue_valid p (by
          rw [v4, a3]
          exact current_job_mem _ _ _ hcj)
      intro k hk hnot
      have hrel : released_tasks (completion Scheduler.CCEDF
          (advance (account_switch s2 (some p)) (some p) d) (some p) best)
          = released_tasks (advance (account_switch s2 (some p)) (some p) d) :=
        released_tasks_congr _ _ (completion_fields _ _ _ _).2.1
      rw [hrel] at hnot
      rw [completion_ccedf tasks0 hid hn _ h4 p best hp k]
      have hne : k ≠ (jobAt (advance (account_switch s2 (some p)) (some p) d).job_pool p).task :=
        fun hc => hnot (hc ▸ jobAt_task_mem _ p hp)
      rw [if_neg (fun hc => hne hc.2)]
      exact hz4 k hk hnot

theorem sim_init_utils_zero (policy : Scheduler) (tasks : List Task) :
    UtilsZero tasks (sim_init policy tasks) := by
  intro k _ _
  rw [(sim_init_fields policy tasks).2.2.2.2.1]
  simp only [List.getD_eq_getElem?_getD, List.getElem?_replicate]
  split_ifs <;> rfl

theorem reach_utils_zero (tasks : List Task) (H : ℚ) (hid : ids_in_order tasks)
    (hn : tasks.length ≤ MAX_TASKS) (s : SimState)
    (h : Reach Scheduler.CCEDF tasks H s) : UtilsZero tasks s := by
  induction h with
  | init => exact sim_init_utils_zero _ tasks
  | step fuel s s1 b hr _ hit ih =>
    exact sim_iteration_utils_zero fuel H tasks hid hn s s1 b
      (reach_inv _ tasks H s hr) ih hit

/-- C6: in a CCEDF run on a task list in original order (`tasks[i].id = i`, at
most `MAX_TASKS` tasks), at every state `s` of the run: the stored utilisation
of a task that has not released a job yet is `0`; after the release phase the
slot of every task with a due release holds `wcet / period`; the speed update
sets the required utilisation to the sum of the stored utilisations over all
tasks; and when the iteration completes the dispatched job `p`, the slot of its
task holds the job's actual execution time divided by the task's period. -/
theorem C6_ccedf_utils (tasks : List Task) (H : ℚ) (hid : ids_in_order tasks)
    (hn : tasks.length ≤ MAX_TASKS) (s : SimState)
    (hs : Reach Scheduler.CCEDF tasks H s) :
    (∀ k, k < tasks.length → k ∉ released_tasks s → s.ccedf_utils.getD k 0 = 0) ∧
    (∀ k, k < tasks.length → release_due (taskAt tasks k) s.current_time = true →
      k ∈ released_tasks (release_phase Scheduler.CCEDF s) ∧
      (release_phase Scheduler.CCEDF s).ccedf_utils.getD k 0
        = ((taskAt tasks k).wcet : ℚ) / ((taskAt tasks k).period : ℚ)) ∧
    (∀ fuel, ∃ s2, speed_update fuel Scheduler.CCEDF (release_phase Scheduler.CCEDF s) = some s2 ∧
      s2.ccedf_utils = (release_phase Scheduler.CCEDF s).ccedf_utils ∧
      s2.required_util
        = ((List.range tasks.length).map (fun i => s2.ccedf_utils.getD i 0)).sum) ∧
    (∀ fuel s1 b s2 p, sim_iteration fuel Scheduler.CCEDF H s = some (s1, b) →
      speed_update fuel Scheduler.CCEDF (release_phase Scheduler.CCEDF s) = some s2 →
      current_job_of Scheduler.CCEDF s2 = some p →
      EPS ≤ exec_duration H (account_switch s2 (some p)) (some p) →
      (jobAt s1.job_pool p).remaining_work ≤ EPS →
      s1.ccedf_utils.getD (jobAt s1.job_pool p).task 0
        = ((jobAt s1.job_pool p).actual_exec_time : ℚ)
          / ((taskAt tasks (jobAt s1.job_pool p).task).period : ℚ)) := by
  have hinv := reach_inv _ tasks H s hs
  have hlen := static_length_eq _ _ hinv.tasks_static
  refine ⟨reach_utils_zero tasks H hid hn s hs, ?_, ?_, ?_⟩
  · intro k hk hdue
    obtain ⟨r1, r2⟩ := release_phase_ccedf tasks hid hn s hinv k hk
    exact ⟨r2.mpr (Or.inr hdue), by rw [r1, if_pos hdue]⟩
  · intro fuel
    obtain ⟨s2, h1, h2, _⟩ := speed_update_ccedf fuel (release_phase Scheduler.CCEDF s)
    have hu := (speed_update_fields fuel _ _ s2 h1).2.2.2.2.2.1
    refine ⟨s2, h1, hu, ?_⟩
    rw [h2, hu, static_length_eq _ _ (release_phase_inv _ tasks s hinv).tasks_static]
  · intro fuel s1 b s2 p hit hsu hcj hd hrem
    have hadv := sim_iteration_advance fuel Scheduler.CCEDF H s s2 hsu (by rw [hcj]; exact hd)
    rw [hit, hcj] at hadv
    simp only [Option.some.injEq, Prod.mk.injEq] at hadv
    obtain ⟨hs1, _⟩ := hadv
    obtain ⟨_, _, u1, u2, u3, u4, u5⟩ := speed_update_fields fuel Scheduler.CCEDF _ s2 hsu
    have h2 : RunInv tasks s2 :=
      runInv_congr (release_phase_inv Scheduler.CCEDF tasks s hinv) u1 u4 u2 u5 u3
    obtain ⟨_, _, _, _, a1, a2, a3, a4, a5⟩ := account_switch_fields s2 (some p)
    have h3 : RunInv tasks (account_switch s2 (some p)) := runInv_congr h2 a2 a4 a1 a5 a3
    generalize hdd : exec_duration H (account_switch s2 (some p)) (some p) = d at hs1
    generalize hbest : (dispatch Scheduler.CCEDF s2.tasks
      (deref s2.job_pool s2.ready_queue)).getD 0 = best at hs1
    have h4 := advance_inv tasks _ (some p) d h3
    have hp : p < (advance (account_switch s2 (some p)) (some p) d).job_pool.length :=
      h4.queue_valid p (by
        rw [(advance_fields _ _ _).2.2.2.1, a3]
        exact current_job_mem _ _ _ hcj)
    have hpool : s1.job_pool = (advance (account_switch s2 (some p)) (some p) d).job_pool := by
      rw [hs1]; exact (completion_fields _ _ _ _).2.1
    rw [hpool] at hrem ⊢
    rw [hs1, completion_ccedf tasks hid hn _ h4 p best hp, if_pos ⟨hrem, rfl⟩]

/-- C6 on the CCEDF run of `ccedf_demo_task` (period 10, WCET 5, every
invocation 2) with hyperperiod 10: before the first release the slot is `0`,
after the release phase it is `5/10`, and the first iteration runs the job to
completion at time 4, after which the slot is `2/10`. -/
theorem C6_ccedf_utils_witness :
    (sim_init Scheduler.CCEDF [ccedf_demo_task]).ccedf_utils.getD 0 0 = 0 ∧
    (release_phase Scheduler.CCEDF
      (sim_init Scheduler.CCEDF [ccedf_demo_task])).ccedf_utils.getD 0 0 = 5 / 10 ∧
    sim_iteration 0 Scheduler.CCEDF 10 (sim_init Scheduler.CCEDF [ccedf_demo_task])
      = some (ccedf_demo_s1, false) ∧
    ccedf_demo_s1.current_time = 4 ∧
    ccedf_demo_s1.ccedf_utils.getD 0 0 = 2 / 10 := by
  have hid : ids_in_order [ccedf_demo_task] := by
    intro i hi
    simp only [List.length_singleton, Nat.lt_one_iff] at hi
    subst hi
    decide
  have h := C6_ccedf_utils [ccedf_demo_task] 10 hid (by decide)
    (sim_init Scheduler.CCEDF [ccedf_demo_task]) (Reach.init)
  refine ⟨h.1 0 (by decide) (by decide!), ?_, by decide!, by decide!, ?_⟩
  · rw [(h.2.1 0 (by decide) (by decide!)).2]
    decide!
  · have h4 := h.2.2.2 0 ccedf_demo_s1 false ccedf_demo_s2 0 (by decide!) (by decide!)
      (by decide!) (by decide!) (by decide!)
    have e : (jobAt ccedf_demo_s1.job_pool 0).task = 0 := by decide!
    rw [e] at h4
    rw [h4]
    decide!

/-! ## The Euclidean algorithm -/

theorem bubble_pass_perm (k : Nat) (l : List Task) : (bubble_pass k l).Perm l := by
  induction k generalizing l with
  | zero => cases l <;> simp [bubble_pass]
  | succ k ih =>
    match l with
    | [] => simp [bubble_pass]
    | [a] => simp [bubble_pass]
    | a :: b :: rest =>
      rw [bubble_pass]
      split_ifs
      · exact ((ih (a :: rest)).cons b).trans (List.Perm.swap a b rest)
      · exact (ih (b :: rest)).cons a

theorem bubble_pass_filter (k : Nat) (l : List Task) (p : Int) :
    (bubble_pass k l).filter (fun t => decide (t.period = p))
      = l.filter (fun t => decide (t.period = p)) := by
  induction k generalizing l with
  | zero => cases l <;> simp [bubble_pass]
  | succ k ih =>
    match l with
    | [] => simp [bubble_pass]
    | [a] => simp [bubble_pass]
    | a :: b :: rest =>
      rw [bubble_pass]
      split_ifs with h
      · by_cases hb : b.period = p
        · have ha : ¬ a.period = p := fun hc => by omega
          simp [List.filter_cons, hb, ha, ih (a :: rest)]
        · simp [List.filter_cons, hb, ih (a :: rest)]
      · simp only [List.filter_cons, ih (b :: rest)]

theorem bubble_pass_length (k : Nat) (l : List Task) : (bubble_pass k l).length = l.length :=
  (bubble_pass_perm k l).length_eq

/-- A pass with `k` comparisons leaves everything after the first `k + 1`
elements untouched. -/
theorem bubble_pass_append (k : Nat) (pre suf : List Task) (h : pre.length = k + 1) :
    bubble_pass k (pre ++ suf) = bubble_pass k pre ++ suf := by
  induction k generalizing pre with
  | zero =>
    match pre, h with
    | [a], _ => cases suf <;> simp [bubble_pass]
  | succ k ih =>
    match pre, h with
    | a :: b :: rest, h =>
      have hl : (a :: rest).length = k + 1 := by simpa using h
      have hl2 : (b :: rest).length = k + 1 := by simpa using h
      have e1 := ih (a :: rest) hl
      have e2 := ih (b :: rest) hl2
      simp only [List.cons_append] at e1 e2 ⊢
      rw [bubble_pass, bubble_pass]
      split_ifs
      · rw [e1]; rfl
      · rw [e2]; rfl

/-- A pass with `k` comparisons over `k + 1` elements ends with an element of
greatest period. -/
theorem bubble_pass_last (k : Nat) (pre : List Task) (h : pre.length = k + 1) :
    ∃ init m, bubble_pass k pre = init ++ [m] ∧ ∀ x, x ∈ pre → x.period ≤ m.period := by
  induction k generalizing pre with
  | zero =>
    match pre, h with
    | [a], _ => exact ⟨[], a, by simp [bubble_pass], fun x hx => by simp at hx; rw [hx]⟩
  | succ k ih =>
    match pre, h with
    | a :: b :: rest, h =>
      rw [bubble_pass]
      split_ifs with hab
      · obtain ⟨init, m, e, hm⟩ := ih (a :: rest) (by simpa using h)
        refine ⟨b :: init, m, by rw [e]; rfl, fun x hx => ?_⟩
        simp only [List.mem_cons] at hx
        rcases hx with hx | hx | hx
        · subst hx; exact hm x (List.mem_cons_self _ _)
        · subst hx
          exact le_of_lt (lt_of_lt_of_le hab (hm a (List.mem_cons_self _ _)))
        · exact hm x (List.mem_cons_of_mem _ hx)
      · obtain ⟨init, m, e, hm⟩ := ih (b :: rest) (by simpa using h)
        refine ⟨a :: init, m, by rw [e]; rfl, fun x hx => ?_⟩
        simp only [List.mem_cons] at hx
        rcases hx with hx | hx | hx
        · subst hx
          exact le_trans (not_lt.mp hab) (hm b (List.mem_cons_self _ _))
        · subst hx; exact hm x (List.mem_cons_self _ _)
        · exact hm x (List.mem_cons_of_mem _ hx)

theorem bubble_sort_loop_perm (k : Nat) (l : List Task) : (bubble_sort_loop k l).Perm l := by
  induction k generalizing l with
  | zero => exact List.Perm.refl _
  | succ k ih => exact (ih _).trans (bubble_pass_perm _ l)

theorem bubble_sort_loop_filter (k : Nat) (l : List Task) (p : Int) :
    (bubble_sort_loop k l).filter (fun t => decide (t.period = p))
      = l.filter (fun t => decide (t.period = p)) := by
  induction k generalizing l with
  | zero => rfl
  | succ k ih => rw [bubble_sort_loop, ih, bubble_pass_filter]

/-- Invariant of the outer loop: with `k` passes left, the part after the first
`k + 1` elements is sorted and bounds the first part from above. -/
theorem bubble_sort_loop_sorted (k : Nat) (pre suf : List Task) (h : pre.length = k + 1)
    (hs : suf.Pairwise (fun a b => a.period ≤ b.period))
    (hb : ∀ x, x ∈ pre → ∀ y, y ∈ suf → x.period ≤ y.period) :
    (bubble_sort_loop k (pre ++ suf)).Pairwise (fun a b => a.period ≤ b.period) := by
  induction k generalizing pre suf with
  | zero =>
    match pre, h with
    | [a], _ =>
      simp only [bubble_sort_loop, List.singleton_append, List.pairwise_cons]
      exact ⟨fun y hy => hb a (List.mem_cons_self _ _) y hy, hs⟩
  | succ k ih =>
    rw [bubble_sort_loop, bubble_pass_append (k + 1) pre suf h]
    obtain ⟨init, m, e, hm⟩ := bubble_pass_last (k + 1) pre h
    have hperm : (init ++ [m]).Perm pre := e ▸ bubble_pass_perm (k + 1) pre
    have hlen : init.length = k + 1 := by
      have := hperm.length_eq
      simp only [List.length_append, List.length_singleton] at this
      omega
    have hmem : ∀ x, x ∈ init ++ [m] → x ∈ pre := fun x hx => hperm.subset hx
    rw [e, List.append_assoc]
    apply ih init ([m] ++ suf) hlen
    · simp only [List.singleton_append, List.pairwise_cons]
      exact ⟨fun y hy => hb m (hmem m (by simp)) y hy, hs⟩
    · intro x hx y hy
      simp only [List.singleton_append, List.mem_cons] at hy
      rcases hy with hy | hy
      · rw [hy]; exact hm x (hmem x (by simp [hx]))
      · exact hb x (hmem x (by simp [hx])) y hy

theorem bubble_sort_sorted (tasks : List Task) :
    (bubble_sort tasks).Pairwise (fun a b => a.period ≤ b.period) := by
  unfold bubble_sort
  cases tasks with
  | nil => simp [bubble_sort_loop]
  | cons a rest =>
    have := bubble_sort_loop_sorted rest.length (a :: rest) [] (by simp) List.Pairwise.nil
      (fun x _ y hy => absurd hy (by simp))
    simpa using this

theorem reset_heads_congr_init (policy : Scheduler) (t1 t2 : List Task)
    (h : reset_heads t1 = reset_heads t2) : sim_init policy t1 = sim_init policy t2 := by
  unfold sim_init
  simp only [h]

/-- The states that `simulate_loop` passes through are states of the run. -/
theorem simulate_loop_reach (fuel : Nat) (policy : Scheduler) (tasks : List Task) (H : ℚ)
    (steps : Nat) (s s1 : SimState) (hs : Reach policy tasks H s)
    (h : simulate_loop fuel policy H steps s = some s1) : Reach policy tasks H s1 := by
  induction steps generalizing s with
  | zero => simp [simulate_loop] at h
  | succ n ih =>
    rw [simulate_loop] at h
    split_ifs at h with hlt
    · cases hit : sim_iteration fuel policy H s with
      | none => rw [hit] at h; exact absurd h (by simp)
      | some r =>
        obtain ⟨s2, b⟩ := r
        rw [hit] at h
        have hr := Reach.step fuel s s2 b hs hlt hit
        cases b with
        | true =>
          simp only [Option.some.injEq] at h
          rw [← h]; exact hr
        | false => exact ih s2 hr h
    · simp only [Option.some.injEq] at h
      rw [← h]; exact hs

theorem simulate_reach (fuel steps : Nat) (policy : Scheduler) (tasks : List Task) (H : ℚ)
    (s : SimState) (h : simulate fuel steps policy tasks H = some s) :
    Reach policy tasks H s :=
  simulate_loop_reach fuel policy tasks H steps _ s Reach.init h

theorem simulate_congr (fuel steps : Nat) (policy : Scheduler) (t1 t2 : List Task) (H : ℚ)
    (h : reset_heads t1 = reset_heads t2) :
    simulate fuel steps policy t1 H = simulate fuel steps policy t2 H := by
  unfold simulate
  rw [reset_heads_congr_init policy t1 t2 h]

/-- The task array left by a run differs from the one it started from only in
the invocation cursors. -/
theorem simulate_tasks_static (fuel steps : Nat) (policy : Scheduler) (tasks : List Task)
    (H : ℚ) (s : SimState) (h : simulate fuel steps policy tasks H = some s) :
    reset_heads s.tasks = reset_heads tasks :=
  (reach_inv policy tasks H s (simulate_reach fuel steps policy tasks H s h)).tasks_static

/-- The task arrays that `run_simulation_set` hands to the seven calls of
`simulate`. -/
theorem run_simulation_set_inputs (fuel steps : Nat) (original : List Task) (H : ℚ)
    (r : SetRun) (h : run_simulation_set fuel steps original H = some r) :
    ∃ t3 t4 t6, r.inputs =
        [(Scheduler.PLAIN_EDF, original), (Scheduler.PLAIN_RM, bubble_sort original),
         (Scheduler.STATIC_EDF, original), (Scheduler.CCEDF, t3), (Scheduler.LAEDF, t4),
         (Scheduler.STATIC_RM, bubble_sort original), (Scheduler.CCRM, t6)] ∧
      reset_heads t3 = reset_heads original ∧ reset_heads t4 = reset_heads original ∧
      reset_heads t6 = reset_heads (bubble_sort original) := by
  unfold run_simulation_set at h
  simp only at h
  cases h0 : simulate fuel steps Scheduler.PLAIN_EDF original H with
  | none => rw [h0] at h; exact absurd h (by simp)
  | some s0 =>
  rw [h0] at h; simp only at h
  cases h1 : simulate fuel steps Scheduler.PLAIN_RM (bubble_sort original) H with
  | none => rw [h1] at h; exact absurd h (by simp)
  | some s1 =>
  rw [h1] at h; simp only at h
  cases h2 : simulate fuel steps Scheduler.STATIC_EDF original H with
  | none => rw [h2] at h; exact absurd h (by simp)
  | some s2 =>
  rw [h2] at h; simp only at h
  cases h3 : simulate fuel steps Scheduler.CCEDF s2.tasks H with
  | none => rw [h3] at h; exact absurd h (by simp)
  | some s3 =>
  rw [h3] at h; simp only at h
  cases h4 : simulate fuel steps Scheduler.LAEDF s3.tasks H with
  | none => rw [h4] at h; exact absurd h (by simp)
  | some s4 =>
  rw [h4] at h; simp only at h
  cases h5 : simulate fuel steps Scheduler.STATIC_RM (bubble_sort original) H with
  | none => rw [h5] at h; exact absurd h (by simp)
  | some s5 =>
  rw [h5] at h; simp only at h
  cases h6 : simulate fuel steps Scheduler.CCRM s5.tasks H with
  | none => rw [h6] at h; exact absurd h (by simp)
  | some s6 =>
  rw [h6] at h
  simp only [Option.some.injEq] at h
  have e2 := simulate_tasks_static _ _ _ _ _ _ h2
  have e3 := simulate_tasks_static _ _ _ _ _ _ h3
  have e5 := simulate_tasks_static _ _ _ _ _ _ h5
  refine ⟨s2.tasks, s3.tasks, s5.tasks, by rw [← h], e2, e3.trans e2, e5⟩

/-- C17: the bubble sort that `run_simulation_set` runs before the RM-family
simulations returns a permutation of the original list with periods in
non-decreasing order in which the tasks of each period keep their original
relative order; the EDF-family simulations start from the original list in
its original order (for CCEDF and LAEDF with the invocation cursors left by the
previous run, which `simulate` resets, so that each run is the run on the
original list), the RM-family simulations from the sorted list. -/
theorem C17_task_order (original : List Task) :
    (bubble_sort original).Perm original ∧
    (bubble_sort original).Pairwise (fun a b => a.period ≤ b.period) ∧
    (∀ p : Int, (bubble_sort original).filter (fun t => decide (t.period = p))
      = original.filter (fun t => decide (t.period = p))) ∧
    (∀ fuel steps H r, run_simulation_set fuel steps original H = some r →
      ∃ t3 t4 t6, r.inputs =
          [(Scheduler.PLAIN_EDF, original), (Scheduler.PLAIN_RM, bubble_sort original),
           (Scheduler.STATIC_EDF, original), (Scheduler.CCEDF, t3), (Scheduler.LAEDF, t4),
           (Scheduler.STATIC_RM, bubble_sort original), (Scheduler.CCRM, t6)] ∧
        reset_heads t3 = reset_heads original ∧ reset_heads t4 = reset_heads original ∧
        reset_heads t6 = reset_heads (bubble_sort original) ∧
        simulate fuel steps Scheduler.CCEDF t3 H
          = simulate fuel steps Scheduler.CCEDF original H ∧
        simulate fuel steps Scheduler.LAEDF t4 H
          = simulate fuel steps Scheduler.LAEDF original H ∧
        simulate fuel steps Scheduler.CCRM t6 H
          = simulate fuel steps Scheduler.CCRM (bubble_sort original) H) := by
  refine ⟨bubble_sort_loop_perm _ _, bubble_sort_sorted _,
    fun p => bubble_sort_loop_filter _ _ p, ?_⟩
  intro fuel steps H r h
  obtain ⟨t3, t4, t6, e, e3, e4, e6⟩ := run_simulation_set_inputs fuel steps original H r h
  exact ⟨t3, t4, t6, e, e3, e4, e6, simulate_congr _ _ _ _ _ _ e3,
    simulate_congr _ _ _ _ _ _ e4, simulate_congr _ _ _ _ _ _ e6⟩

/-- C17 on three tasks with periods 6, 4, 4 (ids 0, 1, 2): the sorted array is
ids 1, 2, 0, the two tasks of period 4 in their original order. -/
theorem C17_task_order_witness :
    (bubble_sort [mkTask 0 6 1, mkTask 1 4 1, mkTask 2 4 1]).map (fun t => t.id) = [1, 2, 0] ∧
    (bubble_sort [mkTask 0 6 1, mkTask 1 4 1, mkTask 2 4 1]).filter
        (fun t => decide (t.period = 4))
      = [mkTask 1 4 1, mkTask 2 4 1] ∧
    ((run_simulation_set 6 40 [mkTask 0 6 1, mkTask 1 4 1, mkTask 2 4 1] 12).map
        (fun r => r.inputs.map (fun x => x.2.map (fun t => t.id))))
      = some [[0, 1, 2], [1, 2, 0], [0, 1, 2], [0, 1, 2], [0, 1, 2], [1, 2, 0], [1, 2, 0]] := by
  have h := C17_task_order [mkTask 0 6 1, mkTask 1 4 1, mkTask 2 4 1]
  refine ⟨by decide, ?_, ?_⟩
  · rw [h.2.2.1 4]; decide
  · cases hr : run_simulation_set 6 40 [mkTask 0 6 1, mkTask 1 4 1, mkTask 2 4 1] 12 with
    | none =>
      have hsome : (run_simulation_set 6 40 [mkTask 0 6 1, mkTask 1 4 1, mkTask 2 4 1]
          12).isSome = true := by decide!
      rw [hr] at hsome
      exact absurd hsome (by simp)
    | some r =>
      obtain ⟨t3, t4, t6, e, e3, e4, e6, _⟩ := h.2.2.2 6 40 12 r hr
      have l3 : t3.map (fun t => t.id) = [0, 1, 2] := by
        have := congrArg (fun l => l.map (fun t : Task => t.id)) e3
        simpa [reset_heads, List.map_map, Function.comp_def] using this
      have l4 : t4.map (fun t => t.id) = [0, 1, 2] := by
        have := congrArg (fun l => l.map (fun t : Task => t.id)) e4
        simpa [reset_heads, List.map_map, Function.comp_def] using this
      have l6 : t6.map (fun t => t.id) = [1, 2, 0] := by
        have := congrArg (fun l => l.map (fun t : Task => t.id)) e6
        have hb : (bubble_sort [mkTask 0 6 1, mkTask 1 4 1, mkTask 2 4 1]).map (fun t => t.id)
            = [1, 2, 0] := by decide
        simpa [reset_heads, List.map_map, Function.comp_def, hb] using this
      have hb : (bubble_sort [mkTask 0 6 1, mkTask 1 4 1, mkTask 2 4 1]).map (fun t => t.id)
          = [1, 2, 0] := by decide
      simp only [Option.map_some', e, List.map_cons, List.map_nil, l3, l4, l6, hb]
      rfl

/-! ## C19: independence of the invocation cursors -/

/-- C19: `simulate` starts with job count `0` and every invocation cursor at
`0`; two task arrays that differ only in the invocation cursors give the same
result (final state, hence energy and all counters) for every policy,
hyperperiod and amount of fuel; in particular a second run on the task array
left by a first run returns the same result. -/
theorem C19_cursor_independence (fuel steps : Nat) (policy : Scheduler)
    (tasks tasks1 : List Task) (H : ℚ) :
    ((sim_init policy tasks).job_count = 0 ∧
      ∀ t, t ∈ (sim_init policy tasks).tasks → t.invocation_head = 0) ∧
    (reset_heads tasks = reset_heads tasks1 →
      simulate fuel steps policy tasks H = simulate fuel steps policy tasks1 H) ∧
    (∀ s, simulate fuel steps policy tasks H = some s →
      simulate fuel steps policy s.tasks H = some s) := by
  refine ⟨⟨(sim_init_fields policy tasks).2.2.1, ?_⟩, simulate_congr _ _ _ _ _ _, ?_⟩
  · intro t ht
    rw [(sim_init_fields policy tasks).1] at ht
    simp only [reset_heads, List.mem_map] at ht
    obtain ⟨t0, _, rfl⟩ := ht
    rfl
  · intro s hs
    rw [simulate_congr fuel steps policy s.tasks tasks H
      (simulate_tasks_static fuel steps policy tasks H s hs)]
    exact hs

/-- C19 on the CCEDF run of `ccedf_demo_task` with hyperperiod 20: the run
returns, leaves the cursor of the task changed or not, and the second run on
the array it leaves returns the same state; starting with the cursor at 7
gives the same result as starting with it at 0. -/
theorem C19_cursor_independence_witness :
    (simulate 0 10 Scheduler.CCEDF [ccedf_demo_task] 20).isSome = true ∧
    (∀ s, simulate 0 10 Scheduler.CCEDF [ccedf_demo_task] 20 = some s →
      simulate 0 10 Scheduler.CCEDF s.tasks 20 = some s) ∧
    simulate 0 10 Scheduler.CCEDF [{ ccedf_demo_task with invocation_head := 7 }] 20
      = simulate 0 10 Scheduler.CCEDF [ccedf_demo_task] 20 := by
  have h := C19_cursor_independence 0 10 Scheduler.CCEDF
    [{ ccedf_demo_task with invocation_head := 7 }] [ccedf_demo_task] 20
  have h2 := C19_cursor_independence 0 10 Scheduler.CCEDF
    [ccedf_demo_task] [ccedf_demo_task] 20
  exact ⟨by decide!, h2.2.2, h.2.1 (by decide)⟩

/-! ## C14: invocation cursor -/

/-- The state after a due release, written out. -/
theorem release_task_due_eq (policy : Scheduler) (s : SimState) (i : Nat)
    (h : release_due (taskAt s.tasks i) s.current_time = true) :
    release_task policy s i =
      { s with
        tasks :=
          if (taskAt s.tasks i).num_invocations > 0 then
            s.tasks.set i
              { taskAt s.tasks i with
                invocation_head :=
                  Int.tmod ((taskAt s.tasks i).invocation_head + 1)
                    (taskAt s.tasks i).num_invocations }
          else s.tasks,
        job_pool := s.job_pool ++
          [{ id := s.job_count, task := i,
             release_time := truncToInt s.current_time,
             absolute_deadline := truncToInt s.current_time + (taskAt s.tasks i).deadline,
             remaining_work :=
               (((if (taskAt s.tasks i).num_invocations > 0 then
                  (taskAt s.tasks i).invocation_times.getD
                    (taskAt s.tasks i).invocation_head.toNat 0
                else (taskAt s.tasks i).wcet : Int)) : ℚ),
             actual_exec_time :=
               if (taskAt s.tasks i).num_invocations > 0 then
                 (taskAt s.tasks i).invocation_times.getD
                   (taskAt s.tasks i).invocation_head.toNat 0
               else (taskAt s.tasks i).wcet }],
        job_count := s.job_count + 1,
        ready_queue := s.ready_queue ++ [s.job_count],
        decision_points := s.decision_points + 1,
        ccedf_utils :=
          if policy = Scheduler.CCEDF then
            s.ccedf_utils.set (taskAt s.tasks i).id.toNat
              (((taskAt s.tasks i).wcet : ℚ) / ((taskAt s.tasks i).period : ℚ))
          else s.ccedf_utils } := by
  simp only [release_task, h, if_true]

/-- The job created by a due release: it belongs to the releasing task, its
actual execution time is the recorded time under the cursor (the WCET when
there is no recorded sequence), its remaining work equals its actual execution
time, and its deadline is the release time plus the relative deadline. -/
theorem release_task_due_job (policy : Scheduler) (s : SimState) (i : Nat)
    (h : release_due (taskAt s.tasks i) s.current_time = true) :
    ∃ j, (release_task policy s i).job_pool = s.job_pool ++ [j] ∧ j.task = i ∧
      j.id = s.job_count ∧
      j.actual_exec_time
        = (if (taskAt s.tasks i).num_invocations > 0 then
            (taskAt s.tasks i).invocation_times.getD (taskAt s.tasks i).invocation_head.toNat 0
          else (taskAt s.tasks i).wcet) ∧
      j.remaining_work = (j.actual_exec_time : ℚ) ∧
      j.release_time = truncToInt s.current_time ∧
      j.absolute_deadline = truncToInt s.current_time + (taskAt s.tasks i).deadline := by
  rw [release_task_due_eq policy s i h]
  exact ⟨_, rfl, rfl, rfl, rfl, rfl, rfl, rfl⟩

theorem release_task_due_tasks (policy : Scheduler) (s : SimState) (i : Nat)
    (h : release_due (taskAt s.tasks i) s.current_time = true) :
    (release_task policy s i).tasks =
      (if (taskAt s.tasks i).num_invocations > 0 then
        s.tasks.set i
          { taskAt s.tasks i with
            invocation_head :=
              Int.tmod ((taskAt s.tasks i).invocation_head + 1)
                (taskAt s.tasks i).num_invocations }
      else s.tasks) := by
  rw [release_task_due_eq policy s i h]

theorem taskAt_set (ts : List Task) (i k : Nat) (t : Task) (hi : i < ts.length) :
    taskAt (ts.set i t) k = if k = i then t else taskAt ts k := by
  unfold taskAt
  simp only [List.getD_eq_getElem?_getD, List.getElem?_set]
  by_cases hik : i = k
  · subst hik; simp [hi]
  · have : ¬ k = i := fun h => hik h.symm
    simp [hik, this]

theorem actuals_of_append (s s1 : SimState) (i k : Nat) (a : Int)
    (h : job_keys s1 = job_keys s ++ [(i, a)]) :
    actuals_of s1 k = if k = i then actuals_of s k ++ [a] else actuals_of s k := by
  unfold actuals_of
  rw [h, List.filter_append, List.map_append]
  by_cases hk : k = i
  · subst hk; simp
  · have : ¬ i = k := fun hc => hk hc.symm
    simp [hk, this]

theorem emod_toNat_natCast (len : Nat) (m : Int) (hm : 0 < m) :
    ((len : Int) % m).toNat = len % m.toNat := by
  obtain ⟨M, rfl⟩ := Int.eq_ofNat_of_zero_le (le_of_lt hm)
  have e : ((len : Int) % (M : Int)) = ((len % M : Nat) : Int) := by norm_cast
  rw [e, Int.toNat_ofNat, Int.toNat_ofNat]

theorem tmod_succ_emod (len : Nat) (m : Int) (hm : 0 < m) :
    Int.tmod ((len : Int) % m + 1) m = ((len + 1 : Nat) : Int) % m := by
  have h0 : 0 ≤ (len : Int) % m := Int.emod_nonneg _ (ne_of_gt hm)
  rw [Int.tmod_eq_emod (by omega) (le_of_lt hm), Int.emod_add_emod]
  push_cast
  rfl

theorem getD_append_int (l : List Int) (a : Int) (k : Nat) :
    (l ++ [a]).getD k 0 = if k < l.length then l.getD k 0 else if k = l.length then a else 0 := by
  simp only [List.getD_eq_getElem?_getD, List.getElem?_append]
  by_cases h : k < l.length
  · simp [h]
  · simp only [h, if_false]
    by_cases h2 : k = l.length
    · simp [h2]
    · have : k - l.length ≠ 0 := by omega
      obtain ⟨n, hn⟩ := Nat.exists_eq_succ_of_ne_zero this
      simp [h2, hn]

/-- A release keeps the cursor invariant. -/
theorem release_task_cursor (policy : Scheduler) (tasks0 : List Task) (s : SimState) (i : Nat)
    (hinv : RunInv tasks0 s) (hc : CursorInv tasks0 s) (hi : i < tasks0.length) :
    CursorInv tasks0 (release_task policy s i) := by
  cases hdue : release_due (taskAt s.tasks i) s.current_time with
  | false => rw [release_task_not_due policy s i hdue]; exact hc
  | true =>
    obtain ⟨_, _, _, f4, _, f6, f7⟩ := static_fields_eq s.tasks tasks0 hinv.tasks_static i
    obtain ⟨j, e1, e2, _, e4, _⟩ := release_task_due_job policy s i hdue
    have et := release_task_due_tasks policy s i hdue
    have hlen : i < s.tasks.length := by
      rw [static_length_eq _ _ hinv.tasks_static]; exact hi
    have hkeys : job_keys (release_task policy s i)
        = job_keys s ++ [(i, j.actual_exec_time)] := by
      simp only [job_keys, e1, List.map_append, List.map_cons, List.map_nil, e2]
    intro k hk
    have hact := actuals_of_append s (release_task policy s i) i k j.actual_exec_time hkeys
    obtain ⟨c1, c2⟩ := hc k hk
    by_cases hki : k = i
    · subst hki
      rw [hact, if_pos rfl]
      constructor
      · intro hm
        obtain ⟨d1, d2⟩ := c1 hm
        have hm' : (taskAt s.tasks k).num_invocations > 0 := by rw [f7]; exact hm
        rw [et, if_pos hm', taskAt_set _ _ _ _ hlen, if_pos rfl]
        constructor
        · simp only [List.length_append, List.length_singleton]
          rw [d1, f7]
          exact tmod_succ_emod _ _ hm
        · intro n hn
          rw [getD_append_int]
          by_cases hn2 : n < (actuals_of s k).length
          · rw [if_pos hn2]; exact d2 n hn2
          · have hn3 : n = (actuals_of s k).length := by
              simp only [List.length_append, List.length_singleton] at hn; omega
            rw [if_neg hn2, if_pos hn3, e4, if_pos hm', d1, f6, emod_toNat_natCast _ _ hm, hn3]
      · intro hm
        have hm' : ¬ (taskAt s.tasks k).num_invocations > 0 := by rw [f7]; omega
        intro a ha
        rcases List.mem_append.mp ha with ha | ha
        · exact c2 hm a ha
        · simp only [List.mem_singleton] at ha
          rw [ha, e4, if_neg hm', f4]
    · rw [hact, if_neg hki]
      have htk : taskAt (release_task policy s i).tasks k = taskAt s.tasks k := by
        rw [et]
        split_ifs
        · rw [taskAt_set _ _ _ _ hlen, if_neg hki]
        · rfl
      rw [htk]
      exact ⟨c1, c2⟩

theorem release_fold_cursor (policy : Scheduler) (tasks0 : List Task) (l : List Nat)
    (hl : ∀ i, i ∈ l → i < tasks0.length) (s : SimState) (hinv : RunInv tasks0 s)
    (hc : CursorInv tasks0 s) : CursorInv tasks0 (l.foldl (release_task policy) s) := by
  induction l generalizing s with
  | nil => exact hc
  | cons i rest ih =>
    have hi := hl i (List.mem_cons_self _ _)
    exact ih (fun x hx => hl x (List.mem_cons_of_mem _ hx)) _
      (release_task_inv policy tasks0 s i hinv hi)
      (release_task_cursor policy tasks0 s i hinv hc hi)

theorem release_phase_cursor (policy : Scheduler) (tasks0 : List Task) (s : SimState)
    (hinv : RunInv tasks0 s) (hc : CursorInv tasks0 s) :
    CursorInv tasks0 (release_phase policy s) := by
  apply release_fold_cursor policy tasks0 _ _ s hinv hc
  intro i hi
  rw [List.mem_range, static_length_eq _ _ hinv.tasks_static] at hi
  exact hi

theorem cursorInv_congr {tasks0 : List Task} {s s1 : SimState} (h : CursorInv tasks0 s)
    (h1 : s1.tasks = s.tasks) (h2 : job_keys s1 = job_keys s) : CursorInv tasks0 s1 := by
  intro i hi
  have ha : actuals_of s1 i = actuals_of s i := by unfold actuals_of; rw [h2]
  rw [h1, ha]
  exact h i hi

theorem advance_job_keys (s : SimState) (cj : Option Nat) (d : ℚ) :
    job_keys (advance s cj d) = job_keys s := by
  unfold advance job_keys
  cases cj with
  | none => rfl
  | some c => exact map_set_getD_any _ s.job_pool c dummyJob _ rfl

theorem job_keys_congr (s s1 : SimState) (h : s1.job_pool = s.job_pool) :
    job_keys s1 = job_keys s := by
  unfold job_keys; rw [h]

theorem sim_iteration_cursor (fuel : Nat) (policy : Scheduler) (H : ℚ) (tasks0 : List Task)
    (s s1 : SimState) (b : Bool) (hinv : RunInv tasks0 s) (hc : CursorInv tasks0 s)
    (h : sim_iteration fuel policy H s = some (s1, b)) : CursorInv tasks0 s1 := by
  obtain ⟨s2, hsu, hcases⟩ := sim_iteration_cases fuel policy H s s1 b h
  obtain ⟨_, _, u1, u2, _⟩ := speed_update_fields fuel policy _ s2 hsu
  have c2 : CursorInv tasks0 s2 :=
    cursorInv_congr (release_phase_cursor policy tasks0 s hinv hc) u1 (job_keys_congr _ _ u2)
  generalize current_job_of policy s2 = cj at hcases
  obtain ⟨_, _, _, _, a1, a2, _⟩ := account_switch_fields s2 cj
  have c3 : CursorInv tasks0 (account_switch s2 cj) :=
    cursorInv_congr c2 a2 (job_keys_congr _ _ a1)
  rcases hcases with ⟨_, hs | hs⟩ | ⟨_, _, hs⟩
  · rw [hs]; exact c3
  · rw [hs]; exact cursorInv_congr c3 rfl rfl
  · rw [hs]
    exact cursorInv_congr c3
      ((completion_fields _ _ _ _).1.trans (advance_fields _ _ _).1)
      ((job_keys_congr _ _ (completion_fields _ _ _ _).2.1).trans (advance_job_keys _ _ _))

theorem sim_init_cursor (policy : Scheduler) (tasks : List Task) :
    CursorInv tasks (sim_init policy tasks) := by
  obtain ⟨e1, e2, _⟩ := sim_init_fields policy tasks
  intro i _
  have ha : actuals_of (sim_init policy tasks) i = [] := by
    simp [actuals_of, job_keys, e2]
  rw [ha, e1, taskAt_reset_heads]
  refine ⟨fun _ => ⟨by simp, fun k hk => absurd hk (by simp)⟩, fun _ a ha => absurd ha (by simp)⟩

theorem reach_cursor (policy : Scheduler) (tasks : List Task) (H : ℚ) (s : SimState)
    (h : Reach policy tasks H s) : CursorInv tasks s := by
  induction h with
  | init => exact sim_init_cursor policy tasks
  | step fuel s s1 b hr _ hit ih =>
    exact sim_iteration_cursor fuel policy H tasks s s1 b (reach_inv _ tasks H s hr) ih hit

/-- C14: at every state of a run of `simulate` and for every task `i`: when
the task has a recorded invocation sequence (`num_invocations = m > 0`) the
`k`-th job released for it (`k = 0, 1, ...`) has actual execution time
`invocation_times[k mod m]`, and the cursor is the number of released jobs
modulo `m`; when it has none (`m ≤ 0`) every job has the task's WCET; and every
released job starts with remaining work equal to its actual execution time. -/
theorem C14_invocation_cursor (policy : Scheduler) (tasks : List Task) (H : ℚ) (s : SimState)
    (hs : Reach policy tasks H s) (i : Nat) (hi : i < tasks.length) :
    (0 < (taskAt tasks i).num_invocations →
      (taskAt s.tasks i).invocation_head
          = ((actuals_of s i).length : Int) % (taskAt tasks i).num_invocations ∧
      ∀ k, k < (actuals_of s i).length →
        (actuals_of s i).getD k 0
          = (taskAt tasks i).invocation_times.getD
              (k % (taskAt tasks i).num_invocations.toNat) 0) ∧
    ((taskAt tasks i).num_invocations ≤ 0 →
      ∀ a, a ∈ actuals_of s i → a = (taskAt tasks i).wcet) ∧
    (release_due (taskAt s.tasks i) s.current_time = true →
      ∃ j, (release_task policy s i).job_pool = s.job_pool ++ [j] ∧ j.task = i ∧
        j.remaining_work = (j.actual_exec_time : ℚ) ∧
        actuals_of (release_task policy s i) i = actuals_of s i ++ [j.actual_exec_time]) := by
  obtain ⟨c1, c2⟩ := reach_cursor policy tasks H s hs i hi
  refine ⟨c1, c2, fun hdue => ?_⟩
  obtain ⟨j, e1, e2, _, _, e5, _⟩ := release_task_due_job policy s i hdue
  refine ⟨j, e1, e2, e5, ?_⟩
  have hkeys : job_keys (release_task policy s i)
      = job_keys s ++ [(i, j.actual_exec_time)] := by
    simp only [job_keys, e1, List.map_append, List.map_cons, List.map_nil, e2]
  rw [actuals_of_append s _ i i _ hkeys, if_pos rfl]

/-- C14 on the PLAIN_EDF run of `cursor_demo_task` with hyperperiod 20: the
four released jobs have the actual execution times 2, 3, 2, 3, the `k`-th
being entry `k mod 2` of the recorded sequence; a task without recorded
sequence (period 5, WCET 3) has jobs of actual execution time 3. -/
theorem C14_invocation_cursor_witness :
    (simulate 0 20 Scheduler.PLAIN_EDF [cursor_demo_task] 20).map (fun s => actuals_of s 0)
      = some [2, 3, 2, 3] ∧
    (∀ s, simulate 0 20 Scheduler.PLAIN_EDF [cursor_demo_task] 20 = some s →
      ∀ k, k < (actuals_of s 0).length →
        (actuals_of s 0).getD k 0 = ([2, 3] : List Int).getD (k % 2) 0) ∧
    (simulate 0 20 Scheduler.PLAIN_EDF [mkTask 0 5 3] 20).map (fun s => actuals_of s 0)
      = some [3, 3, 3, 3] := by
  refine ⟨by decide!, ?_, by decide!⟩
  intro s hs
  have h := (C14_invocation_cursor Scheduler.PLAIN_EDF [cursor_demo_task] 20 s
    (simulate_reach 0 20 _ _ _ s hs) 0 (by decide)).1 (by decide)
  exact h.2

/-! ## C15: tie-break of the dispatch -/

/-- Invariant of the selection loop for the position found: every earlier
position holds a strictly greater key. -/
theorem key_scan_first (key : Job → Int) (l pre : List Job) (e : Int) (best : Option Nat)
    (h2 : ∀ b, best = some b →
      (∃ x, (pre ++ l)[b]? = some x ∧ key x = e) ∧
      ∀ b1 x1, b1 < b → (pre ++ l)[b1]? = some x1 → e < key x1)
    (h3 : ∀ j, j ∈ pre → e ≤ key j) :
    ∀ b, key_scan key l pre.length e best = some b →
      ∃ x, (pre ++ l)[b]? = some x ∧
        ∀ b1 x1, b1 < b → (pre ++ l)[b1]? = some x1 → key x < key x1 := by
  induction l generalizing pre e best with
  | nil =>
    intro b hb
    simp only [key_scan] at hb
    obtain ⟨⟨x, hx, hk⟩, hlt⟩ := h2 b hb
    exact ⟨x, hx, fun b1 x1 h1 h2' => hk ▸ hlt b1 x1 h1 h2'⟩
  | cons j rest ih =>
    have hlen : pre.length + 1 = (pre ++ [j]).length := by simp
    have happ : pre ++ j :: rest = (pre ++ [j]) ++ rest := by simp
    intro b hb
    by_cases hj : key j < e
    · simp only [key_scan, hj, if_true] at hb
      rw [hlen] at hb
      rw [happ]
      apply ih (pre ++ [j]) (key j) (some pre.length) _ _ b hb
      · intro b0 hb0
        simp only [Option.some.injEq] at hb0
        subst hb0
        refine ⟨⟨j, ?_, rfl⟩, ?_⟩
        · rw [List.getElem?_append_left (by simp), List.getElem?_append_right (le_refl _)]
          simp
        · intro b1 x1 hb1 hx1
          rw [List.getElem?_append_left (by simp; omega),
            List.getElem?_append_left hb1] at hx1
          exact lt_of_lt_of_le hj (h3 x1 (List.getElem?_mem hx1))
      · intro x hx
        rcases List.mem_append.mp hx with hx | hx
        · exact le_of_lt (lt_of_lt_of_le hj (h3 x hx))
        · simp only [List.mem_singleton] at hx
          subst hx
          exact le_refl _
    · simp only [key_scan, hj, if_false] at hb
      rw [hlen] at hb
      rw [happ]
      apply ih (pre ++ [j]) e best _ _ b hb
      · intro b0 hb0
        rw [← happ]
        exact h2 b0 hb0
      · intro x hx
        rcases List.mem_append.mp hx with hx | hx
        · exact h3 x hx
        · simp only [List.mem_singleton] at hx
          subst hx
          exact not_lt.mp hj

/-- The dispatched job sits at the first position of the ready array that
holds the minimal key. -/
theorem dispatch_first (policy : Scheduler) (s : SimState) (b : Nat)
    (h : dispatch policy s.tasks (deref s.job_pool s.ready_queue) = some b) :
    ∃ p, s.ready_queue[b]? = some p ∧ current_job_of policy s = some p ∧
      ∀ b1 r, b1 < b → s.ready_queue[b1]? = some r →
        priority_key policy s p < priority_key policy s r := by
  have hcur : ∀ p, s.ready_queue[b]? = some p → current_job_of policy s = some p := by
    intro p hp
    simp [current_job_of, h, List.getD_eq_getElem?_getD, hp]
  unfold dispatch at h
  split_ifs at h with h1 h2
  · rw [edf_scan_eq] at h
    obtain ⟨x, hx, hlt⟩ := key_scan_first (fun j => j.absolute_deadline) _ [] INT_MAX none
      (fun b hb => absurd hb (by simp)) (fun j hj => absurd hj (by simp)) b h
    simp only [List.nil_append, deref, List.getElem?_map, Option.map_eq_some'] at hx hlt
    obtain ⟨p, hp, hpx⟩ := hx
    refine ⟨p, hp, hcur p hp, fun b1 r hb1 hr => ?_⟩
    have := hlt b1 (jobAt s.job_pool r) hb1 ⟨r, hr, rfl⟩
    simp only [priority_key, h2, if_true]
    rw [hpx]; exact this
  · rw [rm_scan_eq] at h
    obtain ⟨x, hx, hlt⟩ := key_scan_first (fun j => (taskAt s.tasks j.task).period) _ []
      INT_MAX none (fun b hb => absurd hb (by simp)) (fun j hj => absurd hj (by simp)) b h
    simp only [List.nil_append, deref, List.getElem?_map, Option.map_eq_some'] at hx hlt
    obtain ⟨p, hp, hpx⟩ := hx
    refine ⟨p, hp, hcur p hp, fun b1 r hb1 hr => ?_⟩
    have := hlt b1 (jobAt s.job_pool r) hb1 ⟨r, hr, rfl⟩
    simp only [priority_key, h2, if_false]
    rw [hpx]; exact this

/-! ### Phase invariants -/

theorem phase_release_fold (policy : Scheduler) (tasks0 : List Task) (P : SimState → Prop)
    (hP : PhaseInv policy tasks0 P) (l : List Nat) (hl : ∀ i, i ∈ l → i < tasks0.length)
    (s : SimState) (hinv : RunInv tasks0 s) (h : P s) :
    P (l.foldl (release_task policy) s) := by
  induction l generalizing s with
  | nil => exact h
  | cons i rest ih =>
    have hi := hl i (List.mem_cons_self _ _)
    exact ih (fun x hx => hl x (List.mem_cons_of_mem _ hx)) _
      (release_task_inv policy tasks0 s i hinv hi) (hP.release s i hinv hi h)

theorem phase_release_phase (policy : Scheduler) (tasks0 : List Task) (P : SimState → Prop)
    (hP : PhaseInv policy tasks0 P) (s : SimState) (hinv : RunInv tasks0 s) (h : P s) :
    P (release_phase policy s) := by
  apply phase_release_fold policy tasks0 P hP _ _ s hinv h
  intro i hi
  rw [List.mem_range, static_length_eq _ _ hinv.tasks_static] at hi
  exact hi

/-- The structural invariant at the dispatch state of an iteration. -/
theorem dispatch_state_inv (fuel : Nat) (policy : Scheduler) (tasks0 : List Task)
    (s s2 : SimState) (hinv : RunInv tasks0 s)
    (hsu : speed_update fuel policy (release_phase policy s) = some s2) : RunInv tasks0 s2 := by
  obtain ⟨_, _, u1, u2, u3, u4, u5⟩ := speed_update_fields fuel policy _ s2 hsu
  exact runInv_congr (release_phase_inv policy tasks0 s hinv) u1 u4 u2 u5 u3

theorem phase_dispatch_state (fuel : Nat) (policy : Scheduler) (tasks0 : List Task)
    (P : SimState → Prop) (hP : PhaseInv policy tasks0 P) (s s2 : SimState)
    (hinv : RunInv tasks0 s) (h : P s)
    (hsu : speed_update fuel policy (release_phase policy s) = some s2) : P s2 :=
  hP.speed fuel _ s2 (release_phase_inv policy tasks0 s hinv) hsu
    (phase_release_phase policy tasks0 P hP s hinv h)

/-- The dispatched pointer is the entry of the ready array at the selected
position. -/
theorem current_job_at (policy : Scheduler) (s : SimState) (p : Nat)
    (h : current_job_of policy s = some p) :
    s.ready_queue[(dispatch policy s.tasks (deref s.job_pool s.ready_queue)).getD 0]? = some p := by
  unfold current_job_of at h
  cases hd : dispatch policy s.tasks (deref s.job_pool s.ready_queue) with
  | none => rw [hd] at h; exact absurd h (by simp)
  | some b =>
    rw [hd] at h
    have hb := dispatch_lt policy _ _ b hd
    simp only [deref, List.length_map] at hb
    simp only [Option.map_some', Option.some.injEq] at h
    rw [List.getD_eq_getElem?_getD, List.getElem?_eq_getElem hb] at h
    simp only [Option.getD_some] at h ⊢
    rw [List.getElem?_eq_getElem hb, h]

theorem phase_iteration (fuel : Nat) (policy : Scheduler) (H : ℚ) (tasks0 : List Task)
    (P : SimState → Prop) (hP : PhaseInv policy tasks0 P) (s s1 : SimState) (b : Bool)
    (hinv : RunInv tasks0 s) (hp : P s)
    (h : sim_iteration fuel policy H s = some (s1, b)) : P s1 := by
  obtain ⟨s2, hsu, hcases⟩ := sim_iteration_cases fuel policy H s s1 b h
  have h2 : RunInv tasks0 s2 := dispatch_state_inv fuel policy tasks0 s s2 hinv hsu
  have p2 : P s2 := phase_dispatch_state fuel policy tasks0 P hP s s2 hinv hp hsu
  obtain ⟨_, _, _, _, a1, a2, a3, a4, a5⟩ :=
    account_switch_fields s2 (current_job_of policy s2)
  have h3 : RunInv tasks0 (account_switch s2 (current_job_of policy s2)) :=
    runInv_congr h2 a2 a4 a1 a5 a3
  have p3 := hP.switch s2 (current_job_of policy s2) h2 p2
  rcases hcases with ⟨_, hs | hs⟩ | ⟨_, _, hs⟩
  · rw [hs]; exact p3
  · rw [hs]; exact hP.nudge _ h3 p3
  · rw [hs]
    have hq : ∀ p, current_job_of policy s2 = some p →
        p ∈ (account_switch s2 (current_job_of policy s2)).ready_queue := by
      intro p hp; rw [a3]; exact current_job_mem policy s2 p hp
    have h4 := advance_inv tasks0 _ (current_job_of policy s2)
      (exec_duration H (account_switch s2 (current_job_of policy s2))
        (current_job_of policy s2)) h3
    have p4 := hP.advance _ (current_job_of policy s2)
      (exec_duration H (account_switch s2 (current_job_of policy s2))
        (current_job_of policy s2)) h3 hq p3
    cases hcj : current_job_of policy s2 with
    | none =>
      rw [hcj] at p4
      simpa [completion] using p4
    | some p =>
      rw [hcj] at p4 h4
      apply hP.completion _ p _ h4 _ p4
      rw [(advance_fields _ _ _).2.2.2.1, (account_switch_fields s2 (some p)).2.2.2.2.2.2.1]
      exact current_job_at policy s2 p hcj

/-- A phase invariant holds at every state of a run. -/
theorem phase_reach (policy : Scheduler) (tasks : List Task) (H : ℚ) (P : SimState → Prop)
    (hP : PhaseInv policy tasks P) (s : SimState) (h : Reach policy tasks H s) : P s := by
  induction h with
  | init => exact hP.init
  | step fuel s s1 b hr _ hit ih =>
    exact phase_iteration fuel policy H tasks P hP s s1 b (reach_inv policy tasks H s hr) ih hit

/-! ### The ready array -/

theorem remove_at_idx (rq : List Nat) (b x : Nat) (hb : b < rq.length)
    (h : x ∈ remove_at rq b) : ∃ k, k ≠ b ∧ rq[k]? = some x := by
  unfold remove_at at h
  simp only at h
  split_ifs at h with hlt
  · obtain ⟨i, hi⟩ := List.mem_iff_getElem?.mp h
    rw [List.getElem?_set] at hi
    by_cases hbi : b = i
    · rw [if_pos hbi] at hi
      split_ifs at hi with hlen
      · simp only [Option.some.injEq] at hi
        refine ⟨rq.length - 1, by omega, ?_⟩
        rw [← hi, List.getD_eq_getElem?_getD, List.getElem?_eq_getElem (by omega)]
        rfl
    · rw [if_neg hbi, List.getElem?_take] at hi
      split_ifs at hi with hlen
      · exact ⟨i, fun e => hbi e.symm, hi⟩
  · obtain ⟨i, hi⟩ := List.mem_iff_getElem?.mp h
    rw [List.getElem?_take] at hi
    split_ifs at hi with hlen
    · exact ⟨i, by omega, hi⟩

theorem remove_at_nodup (rq : List Nat) (b : Nat) (h : rq.Nodup) : (remove_at rq b).Nodup := by
  have ht : (rq.take (rq.length - 1)).Nodup := List.Nodup.sublist (List.take_sublist _ _) h
  unfold remove_at
  simp only
  split_ifs with hlt
  · apply List.Nodup.set ht
    intro hm
    obtain ⟨i, hi⟩ := List.mem_iff_getElem?.mp hm
    rw [List.getElem?_take] at hi
    split_ifs at hi with hlen
    · rw [List.getD_eq_getElem?_getD, List.getElem?_eq_getElem (by omega : rq.length - 1 < rq.length)]
        at hi
      simp only [Option.getD_some] at hi
      exact (List.nodup_iff_getElem?_ne_getElem?.mp h i (rq.length - 1) hlen (by omega))
        (by rw [hi, List.getElem?_eq_getElem (by omega : rq.length - 1 < rq.length)])
  · exact ht

/-- The removed pointer is no longer in the ready array. -/
theorem remove_at_not_mem (rq : List Nat) (b p : Nat) (h : rq.Nodup)
    (hp : rq[b]? = some p) : p ∉ remove_at rq b := by
  intro hm
  have hb : b < rq.length := by
    by_contra hc
    rw [List.getElem?_eq_none (by omega)] at hp
    exact absurd hp (by simp)
  obtain ⟨k, hk, hkp⟩ := remove_at_idx rq b p hb hm
  have hkl : k < rq.length := by
    by_contra hc
    rw [List.getElem?_eq_none (by omega)] at hkp
    exact absurd hkp (by simp)
  rcases Nat.lt_or_gt_of_ne hk with hlt | hlt
  · exact List.nodup_iff_getElem?_ne_getElem?.mp h k b hlt hb (by rw [hkp, hp])
  · exact List.nodup_iff_getElem?_ne_getElem?.mp h b k hlt hkl (by rw [hkp, hp])

theorem jobAt_append_left (pool : List Job) (j : Job) (p : Nat) (h : p < pool.length) :
    jobAt (pool ++ [j]) p = jobAt pool p := by
  unfold jobAt
  rw [List.getD_eq_getElem?_getD, List.getD_eq_getElem?_getD, List.getElem?_append_left h]

theorem jobAt_append_right (pool : List Job) (j : Job) :
    jobAt (pool ++ [j]) pool.length = j := by
  unfold jobAt
  rw [List.getD_eq_getElem?_getD, List.getElem?_append_right (le_refl _)]
  simp

theorem completion_queue (policy : Scheduler) (s : SimState) (p b : Nat) :
    (completion policy s (some p) b).ready_queue = s.ready_queue ∨
    (completion policy s (some p) b).ready_queue = remove_at s.ready_queue b := by
  unfold completion
  simp only
  by_cases h : (jobAt s.job_pool p).remaining_work ≤ EPS
  · right; rw [if_pos h]
  · left; rw [if_neg h]

theorem queueInv_congr {s s1 : SimState} (h : QueueInv s) (h1 : s1.job_pool = s.job_pool)
    (h2 : s1.ready_queue = s.ready_queue) : QueueInv s1 := by
  unfold QueueInv
  rw [h1, h2]
  exact h

/-- The pool entry behind pointer `p` after the advance phase. -/
theorem advance_jobAt (s : SimState) (c : Nat) (d : ℚ) (p : Nat) :
    jobAt (advance s (some c) d).job_pool p =
      if c = p ∧ c < s.job_pool.length then
        { jobAt s.job_pool p with
          remaining_work := (jobAt s.job_pool p).remaining_work - d * s.alpha }
      else jobAt s.job_pool p := by
  unfold advance
  simp only [jobAt, List.getD_eq_getElem?_getD, List.getElem?_set]
  by_cases hcp : c = p
  · subst hcp
    by_cases hlen : c < s.job_pool.length
    · simp [hlen]
    · simp [hlen, List.getElem?_eq_none (not_lt.mp hlen)]
  · simp [hcp]

theorem advance_job_id (s : SimState) (cj : Option Nat) (d : ℚ) (p : Nat) :
    (jobAt (advance s cj d).job_pool p).id = (jobAt s.job_pool p).id := by
  cases cj with
  | none => rfl
  | some c =>
    rw [advance_jobAt]
    split_ifs <;> rfl

theorem queueInv_phase (policy : Scheduler) (tasks0 : List Task) :
    PhaseInv policy tasks0 QueueInv where
  init := by
    obtain ⟨_, e2, _, e4, _⟩ := sim_init_fields policy tasks0
    unfold QueueInv
    rw [e2, e4]
    exact ⟨fun p hp => absurd hp (by simp), List.nodup_nil⟩
  release := by
    intro s i hinv _ h
    cases hd : release_due (taskAt s.tasks i) s.current_time with
    | false => rw [release_task_not_due policy s i hd]; exact h
    | true =>
      obtain ⟨_, ⟨j, hj, _, hid⟩, _, hq, _⟩ := release_task_due policy s i hd
      unfold QueueInv
      rw [hj, hq]
      constructor
      · intro p hp
        rw [List.length_append, List.length_singleton] at hp
        by_cases hlt : p < s.job_pool.length
        · rw [jobAt_append_left _ _ _ hlt]; exact h.1 p hlt
        · have : p = s.job_pool.length := by omega
          rw [this, jobAt_append_right, hid, hinv.pool_len]
      · rw [List.nodup_append]
        refine ⟨h.2, List.nodup_singleton _, ?_⟩
        intro a ha hb
        rw [List.mem_singleton] at hb
        have := hinv.queue_valid a ha
        rw [hinv.pool_len] at this
        omega
  speed := by
    intro fuel s s2 _ hsu h
    obtain ⟨_, _, _, u2, u3, _⟩ := speed_update_fields fuel policy s s2 hsu
    exact queueInv_congr h u2 u3
  switch := by
    intro s cj _ h
    obtain ⟨_, _, _, _, a1, _, a3, _⟩ := account_switch_fields s cj
    exact queueInv_congr h a1 a3
  nudge := fun s _ h => queueInv_congr h rfl rfl
  advance := by
    intro s cj d _ _ h
    obtain ⟨_, _, _, a4, a5, _⟩ := advance_fields s cj d
    unfold QueueInv
    rw [a4, a5]
    exact ⟨fun p hp => by rw [advance_job_id]; exact h.1 p hp, h.2⟩
  completion := by
    intro s p b _ _ h
    obtain ⟨_, c2, _⟩ := completion_fields policy s (some p) b
    unfold QueueInv
    rw [c2]
    refine ⟨h.1, ?_⟩
    rcases completion_queue policy s p b with e | e
    · rw [e]; exact h.2
    · rw [e]; exact remove_at_nodup _ _ h.2

/-! ### Tie-break of the dispatch -/

theorem release_fold_sorted (policy : Scheduler) (tasks0 : List Task) (l : List Nat)
    (hl : ∀ i, i ∈ l → i < tasks0.length) (s : SimState) (hinv : RunInv tasks0 s)
    (h : s.ready_queue.Pairwise (fun a b => a < b)) :
    (l.foldl (release_task policy) s).ready_queue.Pairwise (fun a b => a < b) := by
  induction l generalizing s with
  | nil => exact h
  | cons i rest ih =>
    have hi := hl i (List.mem_cons_self _ _)
    apply ih (fun x hx => hl x (List.mem_cons_of_mem _ hx)) _
      (release_task_inv policy tasks0 s i hinv hi)
    cases hd : release_due (taskAt s.tasks i) s.current_time with
    | false => rw [release_task_not_due policy s i hd]; exact h
    | true =>
      obtain ⟨_, _, _, hq, _⟩ := release_task_due policy s i hd
      rw [hq, List.pairwise_append]
      refine ⟨h, List.pairwise_singleton _ _, ?_⟩
      intro a ha b hb
      rw [List.mem_singleton] at hb
      have := hinv.queue_valid a ha
      rw [hinv.pool_len] at this
      omega

theorem release_phase_sorted (policy : Scheduler) (tasks0 : List Task) (s : SimState)
    (hinv : RunInv tasks0 s) (h : s.ready_queue.Pairwise (fun a b => a < b)) :
    (release_phase policy s).ready_queue.Pairwise (fun a b => a < b) := by
  apply release_fold_sorted policy tasks0 _ _ s hinv h
  intro i hi
  rw [List.mem_range, static_length_eq _ _ hinv.tasks_static] at hi
  exact hi

/-- C15 (amended): at the dispatch of every iteration of every run, the
dispatched job is the entry at the lowest position of the ready array among
the jobs tied on the minimal priority key: every entry at an earlier position
has a strictly greater key.  Job ids are pool positions, so insertion order is
id order; when the ready array at the start of the iteration is in insertion
order (strictly increasing pointers), which releases preserve, the dispatched
job has the smallest id among the tied jobs. -/
theorem C15_tie_break_lowest_position (fuel : Nat) (policy : Scheduler) (tasks : List Task)
    (H : ℚ) (s s2 : SimState) (b : Nat) (hs : Reach policy tasks H s)
    (hsu : speed_update fuel policy (release_phase policy s) = some s2)
    (hd : dispatch policy s2.tasks (deref s2.job_pool s2.ready_queue) = some b) :
    ∃ p, s2.ready_queue[b]? = some p ∧ current_job_of policy s2 = some p ∧
      (∀ r, r ∈ s2.ready_queue → (jobAt s2.job_pool r).id = r) ∧
      (∀ b1 r, b1 < b → s2.ready_queue[b1]? = some r →
        priority_key policy s2 p < priority_key policy s2 r) ∧
      (s.ready_queue.Pairwise (fun a c => a < c) →
        s2.ready_queue.Pairwise (fun a c => a < c) ∧
        ∀ r, r ∈ s2.ready_queue → priority_key policy s2 r = priority_key policy s2 p →
          (jobAt s2.job_pool p).id ≤ (jobAt s2.job_pool r).id) := by
  have hinv := reach_inv policy tasks H s hs
  have hq := phase_reach policy tasks H QueueInv (queueInv_phase policy tasks) s hs
  have hinv2 := dispatch_state_inv fuel policy tasks s s2 hinv hsu
  have hq2 := phase_dispatch_state fuel policy tasks QueueInv (queueInv_phase policy tasks)
    s s2 hinv hq hsu
  obtain ⟨p, hp, hcur, hfirst⟩ := dispatch_first policy s2 b hd
  have hids : ∀ r, r ∈ s2.ready_queue → (jobAt s2.job_pool r).id = r :=
    fun r hr => hq2.1 r (hinv2.queue_valid r hr)
  refine ⟨p, hp, hcur, hids, hfirst, ?_⟩
  intro hsorted
  have hs2 : s2.ready_queue.Pairwise (fun a c => a < c) := by
    rw [(speed_update_fields fuel policy _ s2 hsu).2.2.2.2.1]
    exact release_phase_sorted policy tasks s hinv hsorted
  refine ⟨hs2, ?_⟩
  intro r hr hkey
  rw [hids r hr, hids p (List.getElem?_mem hp)]
  by_contra hlt
  obtain ⟨b1, hb1⟩ := List.mem_iff_getElem?.mp hr
  have hb : b < s2.ready_queue.length := by
    by_contra hc
    rw [List.getElem?_eq_none (by omega)] at hp
    exact absurd hp (by simp)
  have hb1l : b1 < s2.ready_queue.length := by
    by_contra hc
    rw [List.getElem?_eq_none (by omega)] at hb1
    exact absurd hb1 (by simp)
  have e1 : s2.ready_queue[b1] = r := by
    rw [List.getElem?_eq_getElem hb1l] at hb1; exact Option.some.inj hb1
  have e2 : s2.ready_queue[b] = p := by
    rw [List.getElem?_eq_getElem hb] at hp; exact Option.some.inj hp
  have hlt1 : b1 < b := by
    by_contra hc
    rcases Nat.lt_or_eq_of_le (not_lt.mp hc) with h1 | h1
    · have := List.pairwise_iff_getElem.mp hs2 b b1 hb hb1l h1
      rw [e1, e2] at this
      omega
    · subst h1
      rw [e1] at e2
      omega
  have := hfirst b1 r hlt1 hb1
  rw [hkey] at this
  exact lt_irrefl _ this

/-- C15 on the first iteration of the PLAIN_RM run of `tie_demo_tasks` (periods
2, 5, 5): the ready array is `[0, 1, 2]` and job 0 is dispatched; in the loop
state with ready array `[0, 1]` of `two_jobs_state` job 0 is dispatched. -/
theorem C15_tie_break_lowest_position_witness :
    ∃ p, (release_phase Scheduler.PLAIN_RM
          (sim_init Scheduler.PLAIN_RM tie_demo_tasks)).ready_queue[0]? = some p ∧
      current_job_of Scheduler.PLAIN_RM
        (release_phase Scheduler.PLAIN_RM (sim_init Scheduler.PLAIN_RM tie_demo_tasks))
        = some p ∧
      ∀ r, r ∈ (release_phase Scheduler.PLAIN_RM
          (sim_init Scheduler.PLAIN_RM tie_demo_tasks)).ready_queue →
        priority_key Scheduler.PLAIN_RM (release_phase Scheduler.PLAIN_RM
          (sim_init Scheduler.PLAIN_RM tie_demo_tasks)) r
          = priority_key Scheduler.PLAIN_RM (release_phase Scheduler.PLAIN_RM
            (sim_init Scheduler.PLAIN_RM tie_demo_tasks)) p →
        (jobAt (release_phase Scheduler.PLAIN_RM
          (sim_init Scheduler.PLAIN_RM tie_demo_tasks)).job_pool p).id
          ≤ (jobAt (release_phase Scheduler.PLAIN_RM
            (sim_init Scheduler.PLAIN_RM tie_demo_tasks)).job_pool r).id := by
  obtain ⟨p, h1, h2, _, _, h5⟩ := C15_tie_break_lowest_position 0 Scheduler.PLAIN_RM
    tie_demo_tasks 10 (sim_init Scheduler.PLAIN_RM tie_demo_tasks)
    (release_phase Scheduler.PLAIN_RM (sim_init Scheduler.PLAIN_RM tie_demo_tasks)) 0
    Reach.init (by decide!) (by decide!)
  exact ⟨p, h1, h2, (h5 (by decide!)).2⟩

/-- C15 as stated fails after a completion.  In the run of `tie_demo_tasks`
(periods and deadlines 2, 5, 5, WCET 1, hyperperiod 10) jobs 0, 1, 2 are released
at time 0 and job 0 runs first; its completion at time 1 moves the last pointer
into the freed slot, so the ready array is `[2, 1]`.  At the next dispatch jobs 1
and 2 are tied (deadline 5 under PLAIN_EDF, period 5 under PLAIN_RM) and job 2 is
dispatched, although job 1 was inserted earlier and has the smaller id. -/
theorem C15_tie_break_counterexample :
    (tie_demo_state Scheduler.PLAIN_EDF).map (fun s =>
        (s.current_time, s.ready_queue, current_job_of Scheduler.PLAIN_EDF s))
      = some (1, [2, 1], some 2) ∧
    (tie_demo_state Scheduler.PLAIN_EDF).map (fun s =>
        (priority_key Scheduler.PLAIN_EDF s 1, priority_key Scheduler.PLAIN_EDF s 2,
          (jobAt s.job_pool 1).id, (jobAt s.job_pool 2).id))
      = some (5, 5, 1, 2) ∧
    (tie_demo_state Scheduler.PLAIN_RM).map (fun s =>
        (s.current_time, s.ready_queue, current_job_of Scheduler.PLAIN_RM s))
      = some (1, [2, 1], some 2) ∧
    (tie_demo_state Scheduler.PLAIN_RM).map (fun s =>
        (priority_key Scheduler.PLAIN_RM s 1, priority_key Scheduler.PLAIN_RM s 2,
          (jobAt s.job_pool 1).id, (jobAt s.job_pool 2).id))
      = some (5, 5, 1, 2) ∧
    (release_phase Scheduler.PLAIN_EDF
      (sim_init Scheduler.PLAIN_EDF tie_demo_tasks)).ready_queue = [0, 1, 2] ∧
    current_job_of Scheduler.PLAIN_EDF (release_phase Scheduler.PLAIN_EDF
      (sim_init Scheduler.PLAIN_EDF tie_demo_tasks)) = some 0 := by
  refine ⟨by decide!, by decide!, by decide!, by decide!, by decide!, by decide!⟩

/-! ## C20: jobs released with no work -/

/-- An iteration that takes the degenerate branch (advance duration below
`1e-9`) skips the completion phase: the ready array, the job pool and the
decision-point counter are those of the dispatch state. -/
theorem nudge_branch_skips_completion (fuel : Nat) (policy : Scheduler) (H : ℚ)
    (s s1 s2 : SimState) (b : Bool) (h : sim_iteration fuel policy H s = some (s1, b))
    (hsu : speed_update fuel policy (release_phase policy s) = some s2)
    (hd : exec_duration H (account_switch s2 (current_job_of policy s2))
      (current_job_of policy s2) < EPS) :
    s1.ready_queue = s2.ready_queue ∧ s1.job_pool = s2.job_pool ∧
    s1.decision_points = s2.decision_points ∧ s1.deadline_misses = s2.deadline_misses := by
  unfold sim_iteration at h
  rw [hsu] at h
  simp only [hd, if_true] at h
  have hacc : (account_switch s2 (current_job_of policy s2)).ready_queue = s2.ready_queue ∧
      (account_switch s2 (current_job_of policy s2)).job_pool = s2.job_pool ∧
      (account_switch s2 (current_job_of policy s2)).decision_points = s2.decision_points ∧
      (account_switch s2 (current_job_of policy s2)).deadline_misses = s2.deadline_misses := by
    unfold account_switch
    simp only
    split_ifs <;> exact ⟨rfl, rfl, rfl, rfl⟩
  split_ifs at h
  · simp only [Option.some.injEq, Prod.mk.injEq] at h
    rw [← h.1]; exact hacc
  · simp only [Option.some.injEq, Prod.mk.injEq] at h
    rw [← h.1]; exact hacc

/-- C20 fails for a job released with actual execution time 0.  In the
PLAIN_EDF run of `zero_work_task` with hyperperiod 10, the first iteration
releases job 0 with remaining work 0 (decision point 1) and dispatches it; the
advance duration is 0, the degenerate branch adds `1e-9` to the time and
continues, and the completion phase is not reached: when the iteration ends the
job has remaining work `0 <= 1e-9`, is still in the ready array, and the
decision-point counter is still 1.  The same holds after 2, 3 and 50
iterations: the time is `n * 1e-9` and job 0 is still queued. -/
theorem C20_zero_work_job_not_removed :
    current_job_of Scheduler.PLAIN_EDF (release_phase Scheduler.PLAIN_EDF
      (sim_init Scheduler.PLAIN_EDF [zero_work_task])) = some 0 ∧
    (release_phase Scheduler.PLAIN_EDF
      (sim_init Scheduler.PLAIN_EDF [zero_work_task])).decision_points = 1 ∧
    exec_duration 10 (release_phase Scheduler.PLAIN_EDF
      (sim_init Scheduler.PLAIN_EDF [zero_work_task])) (some 0) = 0 ∧
    (sim_iteration 0 Scheduler.PLAIN_EDF 10
        (sim_init Scheduler.PLAIN_EDF [zero_work_task])).map
        (fun r => (r.1.ready_queue, (jobAt r.1.job_pool 0).remaining_work,
          r.1.decision_points, r.1.current_time, r.2))
      = some ([0], 0, 1, EPS, false) ∧
    (run_iterations 0 Scheduler.PLAIN_EDF 10 2
        (sim_init Scheduler.PLAIN_EDF [zero_work_task])).map
        (fun s => (s.ready_queue, (jobAt s.job_pool 0).remaining_work,
          s.decision_points, s.current_time))
      = some ([0], 0, 1, 2 * EPS) ∧
    (run_iterations 0 Scheduler.PLAIN_EDF 10 3
        (sim_init Scheduler.PLAIN_EDF [zero_work_task])).map
        (fun s => (s.ready_queue, (jobAt s.job_pool 0).remaining_work,
          s.decision_points, s.current_time))
      = some ([0], 0, 1, 3 * EPS) ∧
    (run_iterations 0 Scheduler.PLAIN_EDF 10 50
        (sim_init Scheduler.PLAIN_EDF [zero_work_task])).map
        (fun s => (s.ready_queue, (jobAt s.job_pool 0).remaining_work,
          s.decision_points, s.current_time))
      = some ([0], 0, 1, 50 * EPS) := by
  refine ⟨by decide!, by decide!, by decide!, by decide!, by decide!, by decide!, by decide!⟩

/-! ## C12: the deadline-miss counter -/

theorem runHist_reach (policy : Scheduler) (tasks : List Task) (H : ℚ)
    (hist : List (SimState × Option Nat)) (s : SimState)
    (h : RunHist policy tasks H hist s) : Reach policy tasks H s := by
  induction h with
  | init => exact Reach.init
  | step fuel s s2 s1 b hist _ hlt _ hit ih => exact Reach.step fuel s s1 b ih hlt hit

theorem sim_iteration_dispatch_state (fuel : Nat) (policy : Scheduler) (H : ℚ)
    (s s1 : SimState) (b : Bool) (h : sim_iteration fuel policy H s = some (s1, b)) :
    ∃ s2, speed_update fuel policy (release_phase policy s) = some s2 := by
  obtain ⟨s2, hsu, _⟩ := sim_iteration_cases fuel policy H s s1 b h
  exact ⟨s2, hsu⟩

theorem simulate_loop_runHist (fuel : Nat) (policy : Scheduler) (tasks : List Task) (H : ℚ)
    (steps : Nat) (s s1 : SimState) (hist : List (SimState × Option Nat))
    (hs : RunHist policy tasks H hist s)
    (h : simulate_loop fuel policy H steps s = some s1) :
    ∃ hist1, RunHist policy tasks H hist1 s1 := by
  induction steps generalizing s hist with
  | zero => simp [simulate_loop] at h
  | succ n ih =>
    rw [simulate_loop] at h
    split_ifs at h with hlt
    · cases hit : sim_iteration fuel policy H s with
      | none => rw [hit] at h; exact absurd h (by simp)
      | some r =>
        obtain ⟨s2, b⟩ := r
        rw [hit] at h
        obtain ⟨sd, hsd⟩ := sim_iteration_dispatch_state fuel policy H s s2 b hit
        have hr := RunHist.step fuel s sd s2 b hist hs hlt hsd hit
        cases b with
        | true =>
          simp only [Option.some.injEq] at h
          rw [← h]; exact ⟨_, hr⟩
        | false => exact ih s2 _ hr h
    · simp only [Option.some.injEq] at h
      rw [← h]; exact ⟨hist, hs⟩

/-- Every result of `simulate` is the end of a run with a history. -/
theorem simulate_runHist (fuel steps : Nat) (policy : Scheduler) (tasks : List Task) (H : ℚ)
    (s : SimState) (h : simulate fuel steps policy tasks H = some s) :
    ∃ hist, RunHist policy tasks H hist s :=
  simulate_loop_runHist fuel policy tasks H steps _ s [] RunHist.init h

/-! ### The deadline-miss counter through the phases -/

theorem release_task_misses (policy : Scheduler) (s : SimState) (i : Nat) :
    (release_task policy s i).deadline_misses = s.deadline_misses := by
  cases hd : release_due (taskAt s.tasks i) s.current_time with
  | false => rw [release_task_not_due policy s i hd]
  | true => rw [release_task_due_eq policy s i hd]

theorem release_phase_misses (policy : Scheduler) (s : SimState) :
    (release_phase policy s).deadline_misses = s.deadline_misses := by
  unfold release_phase
  generalize List.range s.tasks.length = l
  induction l generalizing s with
  | nil => rfl
  | cons i rest ih =>
    rw [List.foldl_cons, ih, release_task_misses]

theorem speed_update_misses (fuel : Nat) (policy : Scheduler) (s s2 : SimState)
    (h : speed_update fuel policy s = some s2) : s2.deadline_misses = s.deadline_misses := by
  unfold speed_update at h
  split_ifs at h with hp
  · simp only at h
    split at h
    · exact absurd h (by simp)
    · simp only [Option.some.injEq] at h
      subst h
      rfl
  · simp only [Option.some.injEq] at h
    subst h
    rfl

theorem account_switch_misses (s : SimState) (cj : Option Nat) :
    (account_switch s cj).deadline_misses = s.deadline_misses := by
  unfold account_switch
  simp only
  split_ifs <;> rfl

theorem advance_misses (s : SimState) (cj : Option Nat) (d : ℚ) :
    (advance s cj d).deadline_misses = s.deadline_misses := by
  unfold advance
  cases cj <;> rfl

/-- The deadline-miss counter after the completion phase. -/
theorem completion_misses (policy : Scheduler) (s : SimState) (p b : Nat) :
    (completion policy s (some p) b).deadline_misses =
      if (jobAt s.job_pool p).remaining_work ≤ EPS ∧
          s.current_time > ((jobAt s.job_pool p).absolute_deadline : ℚ) + EPS
        then s.deadline_misses + 1 else s.deadline_misses := by
  unfold completion
  simp only
  by_cases h1 : (jobAt s.job_pool p).remaining_work ≤ EPS
  · by_cases h2 : s.current_time > ((jobAt s.job_pool p).absolute_deadline : ℚ) + EPS
    · simp [h1, h2]
    · simp [h1, h2]
  · simp [h1]

/-- One iteration adds one to the deadline-miss counter when it processes a
late completion, and nothing otherwise. -/
theorem sim_iteration_misses (fuel : Nat) (policy : Scheduler) (H : ℚ) (s s1 s2 : SimState)
    (b : Bool) (h : sim_iteration fuel policy H s = some (s1, b))
    (hsu : speed_update fuel policy (release_phase policy s) = some s2) :
    s1.deadline_misses = s.deadline_misses +
      (if (late_completion H (account_switch s2 (current_job_of policy s2),
          current_job_of policy s2)).isSome then 1 else 0) := by
  have h2 : s2.deadline_misses = s.deadline_misses := by
    rw [speed_update_misses fuel policy _ s2 hsu, release_phase_misses]
  have h3 : (account_switch s2 (current_job_of policy s2)).deadline_misses
      = s.deadline_misses := by rw [account_switch_misses, h2]
  obtain ⟨s2a, hsua, hcases⟩ := sim_iteration_cases fuel policy H s s1 b h
  rw [hsu] at hsua
  simp only [Option.some.injEq] at hsua
  subst hsua
  generalize hcj : current_job_of policy s2 = cj at hcases h3 ⊢
  generalize hs3 : account_switch s2 cj = s3 at hcases h3 ⊢
  rcases hcases with ⟨hd, hs | hs⟩ | ⟨hd, _, hs⟩
  · have hl : late_completion H (s3, cj) = none := by
      unfold late_completion completed_job
      cases cj with
      | none => rfl
      | some p => simp only [hd, if_true]; rfl
    rw [hl, hs, h3]; rfl
  · have hl : late_completion H (s3, cj) = none := by
      unfold late_completion completed_job
      cases cj with
      | none => rfl
      | some p => simp only [hd, if_true]; rfl
    rw [hl, hs]
    simp only [Option.isSome_none, Bool.false_eq_true, if_false, add_zero]
    exact h3
  · cases cj with
    | none =>
      have hl : late_completion H (s3, none) = none := rfl
      rw [hl, hs]
      simp only [completion, Option.isSome_none, Bool.false_eq_true, if_false, add_zero]
      rw [advance_misses, h3]
    | some p =>
      rw [hs, completion_misses, advance_misses, h3]
      unfold late_completion completed_job completes_late
      simp only [not_lt.mpr hd, if_false]
      by_cases h1 : (jobAt (advance s3 (some p) (exec_duration H s3 (some p))).job_pool
          p).remaining_work ≤ EPS
      · by_cases h2 : (advance s3 (some p) (exec_duration H s3 (some p))).current_time >
            ((jobAt (advance s3 (some p) (exec_duration H s3 (some p))).job_pool
              p).absolute_deadline : ℚ) + EPS
        · simp [h1, h2, Option.filter]
        · simp [h1, h2, Option.filter]
      · simp [h1, Option.filter]

/-! ### Completed jobs leave the ready array for good -/

theorem release_fold_queue (policy : Scheduler) (l : List Nat) (s : SimState) :
    s.job_count ≤ (l.foldl (release_task policy) s).job_count ∧
    ∀ x, x ∈ (l.foldl (release_task policy) s).ready_queue →
      x ∈ s.ready_queue ∨ s.job_count ≤ x := by
  induction l generalizing s with
  | nil => exact ⟨le_refl _, fun x hx => Or.inl hx⟩
  | cons i rest ih =>
    rw [List.foldl_cons]
    obtain ⟨h1, h2⟩ := ih (release_task policy s i)
    cases hd : release_due (taskAt s.tasks i) s.current_time with
    | false =>
      have e := release_task_not_due policy s i hd
      rw [e] at h1 h2 ⊢
      exact ⟨h1, h2⟩
    | true =>
      obtain ⟨_, _, hc, hq, _⟩ := release_task_due policy s i hd
      rw [hc] at h1 h2
      rw [hq] at h2
      refine ⟨by omega, fun x hx => ?_⟩
      rcases h2 x hx with h | h
      · rcases List.mem_append.mp h with h | h
        · exact Or.inl h
        · rw [List.mem_singleton] at h
          exact Or.inr (by omega)
      · exact Or.inr (by omega)

theorem release_phase_queue (policy : Scheduler) (s : SimState) :
    s.job_count ≤ (release_phase policy s).job_count ∧
    ∀ x, x ∈ (release_phase policy s).ready_queue → x ∈ s.ready_queue ∨ s.job_count ≤ x :=
  release_fold_queue policy _ s

theorem completed_job_eq (H : ℚ) (e : SimState × Option Nat) (p : Nat)
    (h : completed_job H e = some p) :
    e.2 = some p ∧ ¬ exec_duration H e.1 (some p) < EPS ∧
    (jobAt (advance e.1 (some p) (exec_duration H e.1 (some p))).job_pool p).remaining_work
      ≤ EPS := by
  unfold completed_job at h
  cases h2 : e.2 with
  | none => rw [h2] at h; exact absurd h (by simp)
  | some q =>
    rw [h2] at h
    simp only at h
    split_ifs at h with h3 h4
    simp only [Option.some.injEq] at h
    subst h
    exact ⟨rfl, h3, h4⟩

/-- The effect of one iteration on the ready array: its entries were queued
at the start or released in the iteration, and a job whose completion is
processed is no longer in it. -/
theorem sim_iteration_queue (fuel : Nat) (policy : Scheduler) (H : ℚ) (tasks0 : List Task)
    (s s1 s2 : SimState) (b : Bool) (hinv : RunInv tasks0 s) (hq : QueueInv s)
    (hP : PhaseInv policy tasks0 QueueInv)
    (h : sim_iteration fuel policy H s = some (s1, b))
    (hsu : speed_update fuel policy (release_phase policy s) = some s2) :
    s.job_count ≤ s1.job_count ∧
    (∀ x, x ∈ s2.ready_queue → x ∈ s.ready_queue ∨ s.job_count ≤ x) ∧
    (∀ x, x ∈ s1.ready_queue → x ∈ s2.ready_queue) ∧
    (∀ p, completed_job H (account_switch s2 (current_job_of policy s2),
        current_job_of policy s2) = some p →
      p ∈ s2.ready_queue ∧ p < s1.job_count ∧ p ∉ s1.ready_queue) := by
  obtain ⟨_, _, _, u2, u3, _, u5⟩ := speed_update_fields fuel policy _ s2 hsu
  obtain ⟨r1, r2⟩ := release_phase_queue policy s
  have hinv2 := dispatch_state_inv fuel policy tasks0 s s2 hinv hsu
  have hq2 := phase_dispatch_state fuel policy tasks0 QueueInv hP s s2 hinv hq hsu
  have hinv1 := sim_iteration_inv fuel policy H tasks0 s s1 b hinv h
  obtain ⟨s2a, hsua, hcases⟩ := sim_iteration_cases fuel policy H s s1 b h
  rw [hsu] at hsua
  simp only [Option.some.injEq] at hsua
  subst hsua
  have hmem : ∀ p, current_job_of policy s2 = some p → p ∈ s2.ready_queue :=
    fun p hp => current_job_mem policy s2 p hp
  have hat : ∀ p, current_job_of policy s2 = some p →
      s2.ready_queue[(dispatch policy s2.tasks (deref s2.job_pool s2.ready_queue)).getD 0]?
        = some p := fun p hp => current_job_at policy s2 p hp
  generalize hcj : current_job_of policy s2 = cj at hcases hmem hat ⊢
  obtain ⟨_, _, _, _, a1, _, a3, _, a5⟩ := account_switch_fields s2 cj
  generalize hs3 : account_switch s2 cj = s3 at hcases a1 a3 a5 ⊢
  have hcount : s.job_count ≤ s2.job_count := by rw [u5]; exact r1
  have hrel : ∀ x, x ∈ s2.ready_queue → x ∈ s.ready_queue ∨ s.job_count ≤ x := by
    intro x hx; rw [u3] at hx; exact r2 x hx
  rcases hcases with ⟨hd, hs | hs⟩ | ⟨hd, _, hs⟩
  · refine ⟨by rw [hs, a5]; exact hcount, hrel, fun x hx => by rw [hs, a3] at hx; exact hx, ?_⟩
    intro p hp
    obtain ⟨e1, e2, _⟩ := completed_job_eq H _ p hp
    simp only at e1 e2
    rw [← e1] at e2
    exact absurd hd e2
  · refine ⟨by rw [hs]; simp only; rw [a5]; exact hcount, hrel,
      fun x hx => by rw [hs] at hx; simp only at hx; rw [a3] at hx; exact hx, ?_⟩
    intro p hp
    obtain ⟨e1, e2, _⟩ := completed_job_eq H _ p hp
    simp only at e1 e2
    rw [← e1] at e2
    exact absurd hd e2
  · obtain ⟨_, c2, c3, _, c5⟩ := completion_fields policy
      (advance s3 cj (exec_duration H s3 cj)) cj
      ((dispatch policy s2.tasks (deref s2.job_pool s2.ready_queue)).getD 0)
    obtain ⟨_, _, d3, d4, _⟩ := advance_fields s3 cj (exec_duration H s3 cj)
    refine ⟨by rw [hs, c3, d3, a5]; exact hcount, hrel, ?_, ?_⟩
    · intro x hx
      rw [hs] at hx
      have := c5 x hx
      rw [d4, a3] at this
      exact this
    · intro p hp
      obtain ⟨e1, e2, e3⟩ := completed_job_eq H _ p hp
      simp only at e1 e2 e3
      subst e1
      have hpm := hmem p rfl
      refine ⟨hpm, ?_, ?_⟩
      · rw [← hinv1.pool_len, hs, c2, (advance_fields _ _ _).2.2.2.2.1, a1]
        exact hinv2.queue_valid p hpm
      · rw [hs]
        unfold completion
        simp only [e3, if_true]
        rw [d4, a3]
        exact remove_at_not_mem _ _ p hq2.2 (hat p rfl)

theorem sim_init_misses (policy : Scheduler) (tasks : List Task) :
    (sim_init policy tasks).deadline_misses = 0 := by
  unfold sim_init
  simp only
  split_ifs <;> rfl

theorem filterMap_snoc {α β : Type} (f : α → Option β) (l : List α) (e : α) :
    (l ++ [e]).filterMap f = l.filterMap f ++ (match f e with | some x => [x] | none => []) := by
  rw [List.filterMap_append]
  congr 1
  simp only [List.filterMap_cons, List.filterMap_nil]
  cases f e <;> rfl

theorem filterMap_filter_sublist {α β : Type} (f : α → Option β) (q : α → β → Bool)
    (l : List α) :
    List.Sublist (l.filterMap (fun e => (f e).filter (q e))) (l.filterMap f) := by
  induction l with
  | nil => exact List.Sublist.refl _
  | cons e rest ih =>
    rw [List.filterMap_cons, List.filterMap_cons]
    cases hc : f e with
    | none => exact ih
    | some p =>
      cases hl : q e p with
      | true =>
        have e1 : (some p : Option β).filter (q e) = some p := by simp [Option.filter, hl]
        simp only [e1]
        exact List.Sublist.cons₂ p ih
      | false =>
        have e1 : (some p : Option β).filter (q e) = none := by simp [Option.filter, hl]
        simp only [e1]
        exact List.Sublist.cons p ih

theorem late_sublist_completed (H : ℚ) (l : List (SimState × Option Nat)) :
    List.Sublist (l.filterMap (late_completion H)) (l.filterMap (completed_job H)) :=
  filterMap_filter_sublist (completed_job H) (completes_late H) l

/-- The jobs completed so far are pairwise different, are in the pool, and are
not in the ready array. -/
theorem runHist_completed (policy : Scheduler) (tasks : List Task) (H : ℚ)
    (hist : List (SimState × Option Nat)) (s : SimState)
    (h : RunHist policy tasks H hist s) :
    (hist.filterMap (completed_job H)).Nodup ∧
    ∀ p, p ∈ hist.filterMap (completed_job H) → p < s.job_count ∧ p ∉ s.ready_queue := by
  induction h with
  | init => exact ⟨List.nodup_nil, fun p hp => absurd hp (by simp)⟩
  | step fuel s s2 s1 b hist hr _ hsu hit ih =>
    have hreach := runHist_reach policy tasks H hist s hr
    have hinv := reach_inv policy tasks H s hreach
    have hq := phase_reach policy tasks H QueueInv (queueInv_phase policy tasks) s hreach
    obtain ⟨q1, q2, q3, q4⟩ := sim_iteration_queue fuel policy H tasks s s1 s2 b hinv hq
      (queueInv_phase policy tasks) hit hsu
    have hold : ∀ p, p ∈ hist.filterMap (completed_job H) → p ∉ s2.ready_queue := by
      intro p hp hm
      rcases q2 p hm with h1 | h1
      · exact (ih.2 p hp).2 h1
      · have := (ih.2 p hp).1
        omega
    rw [filterMap_snoc]
    cases hc : completed_job H (account_switch s2 (current_job_of policy s2),
        current_job_of policy s2) with
    | none =>
      simp only [List.append_nil]
      refine ⟨ih.1, fun p hp => ⟨?_, ?_⟩⟩
      · have := (ih.2 p hp).1
        omega
      · exact fun hm => hold p hp (q3 p hm)
    | some p1 =>
      obtain ⟨c1, c2, c3⟩ := q4 p1 hc
      simp only
      constructor
      · rw [List.nodup_append]
        refine ⟨ih.1, List.nodup_singleton _, ?_⟩
        intro a ha hb
        rw [List.mem_singleton] at hb
        subst hb
        exact hold a ha c1
      · intro p hp
        rcases List.mem_append.mp hp with h1 | h1
        · refine ⟨?_, fun hm => hold p h1 (q3 p hm)⟩
          have := (ih.2 p h1).1
          omega
        · rw [List.mem_singleton] at h1
          subst h1
          exact ⟨c2, c3⟩

/-- C12 (amended): in every run of `simulate`, each iteration adds one to the
deadline-miss counter when it processes the completion of a job at a time
greater than the job's absolute deadline + 1e-9, and leaves the counter
unchanged otherwise; no job is completed twice, so the counter equals the
number of jobs whose completion was processed late. -/
theorem C12_deadline_miss_count (policy : Scheduler) (tasks : List Task) (H : ℚ)
    (hist : List (SimState × Option Nat)) (s : SimState)
    (h : RunHist policy tasks H hist s) :
    s.deadline_misses = (hist.filterMap (late_completion H)).length ∧
    (hist.filterMap (completed_job H)).Nodup ∧
    (hist.filterMap (late_completion H)).Nodup ∧
    (∀ fuel s2 s1 b, speed_update fuel policy (release_phase policy s) = some s2 →
      sim_iteration fuel policy H s = some (s1, b) →
      s1.deadline_misses = s.deadline_misses +
        (if (late_completion H (account_switch s2 (current_job_of policy s2),
            current_job_of policy s2)).isSome then 1 else 0)) := by
  have hc := runHist_completed policy tasks H hist s h
  refine ⟨?_, hc.1, List.Nodup.sublist (late_sublist_completed H hist) hc.1,
    fun fuel s2 s1 b hsu hit => sim_iteration_misses fuel policy H s s1 s2 b hit hsu⟩
  clear hc
  induction h with
  | init => simp [(sim_init_misses policy tasks)]
  | step fuel s s2 s1 b hist hr _ hsu hit ih =>
    rw [sim_iteration_misses fuel policy H s s1 s2 b hit hsu, ih, filterMap_snoc,
      List.length_append]
    cases late_completion H (account_switch s2 (current_job_of policy s2),
        current_job_of policy s2) <;> rfl

/-- C12 on the PLAIN_EDF run of `overrun_task_late` (period 10, deadline 5,
WCET 3, actual execution time 6) with hyperperiod 10: the job completes at time
6, later than its deadline 5, and the run ends with one deadline miss, the
number of late completions of its history. -/
theorem C12_deadline_miss_count_witness :
    (simulate 0 20 Scheduler.PLAIN_EDF [overrun_task_late] 10).map
        (fun s => (s.deadline_misses, s.job_count, (jobAt s.job_pool 0).actual_exec_time,
          (jobAt s.job_pool 0).absolute_deadline, s.ready_queue))
      = some (1, 1, 6, 5, []) ∧
    ∀ s, simulate 0 20 Scheduler.PLAIN_EDF [overrun_task_late] 10 = some s →
      ∃ hist, RunHist Scheduler.PLAIN_EDF [overrun_task_late] 10 hist s ∧
        s.deadline_misses = (hist.filterMap (late_completion 10)).length ∧
        (hist.filterMap (late_completion 10)).Nodup := by
  refine ⟨by decide!, ?_⟩
  intro s hs
  obtain ⟨hist, hh⟩ := simulate_runHist 0 20 Scheduler.PLAIN_EDF [overrun_task_late] 10 s hs
  have h := C12_deadline_miss_count Scheduler.PLAIN_EDF [overrun_task_late] 10 hist s hh
  exact ⟨hist, hh, h.1, h.2.2.1⟩

/-- C12 as stated fails in its last part: a job whose actual execution time is
twice its WCET is not always counted as a miss under PLAIN_EDF.  The job of
`overrun_task_on_time` (deadline 10, WCET 2, actual 4) completes at time 4,
before its deadline, and the run ends with no miss.  The job of
`overrun_task_cut` (deadline 10, WCET 6, actual 12) still has remaining work 2
when the hyperperiod 10 ends the run; its completion is never processed and the
run ends with no miss either. -/
theorem C12_twice_wcet_counterexample :
    (simulate 0 20 Scheduler.PLAIN_EDF [overrun_task_on_time] 10).map
        (fun s => (s.deadline_misses, s.job_count, (jobAt s.job_pool 0).actual_exec_time,
          (taskAt s.tasks 0).wcet))
      = some (0, 1, 4, 2) ∧
    (simulate 0 20 Scheduler.PLAIN_EDF [overrun_task_on_time] 10).map
        (fun s => ((jobAt s.job_pool 0).remaining_work, s.ready_queue, s.current_time))
      = some (0, [], 10) ∧
    (simulate 0 20 Scheduler.PLAIN_EDF [overrun_task_cut] 10).map
        (fun s => (s.deadline_misses, s.job_count, (jobAt s.job_pool 0).actual_exec_time,
          (taskAt s.tasks 0).wcet))
      = some (0, 1, 12, 6) ∧
    (simulate 0 20 Scheduler.PLAIN_EDF [overrun_task_cut] 10).map
        (fun s => ((jobAt s.job_pool 0).remaining_work, s.ready_queue, s.current_time))
      = some (2, [0], 10) := by
  refine ⟨by decide!, by decide!, by decide!, by decide!⟩

/-! ## C18: speed and work conservation -/

theorem speedInv_phase (policy : Scheduler) (tasks0 : List Task) :
    PhaseInv policy tasks0 SpeedInv where
  init := by
    unfold SpeedInv sim_init
    simp only
    split_ifs <;> rfl
  release := by
    intro s i _ _ h
    unfold SpeedInv
    rw [(release_task_speed policy s i).1, (release_task_speed policy s i).2.1]
    exact h
  speed := by
    intro fuel s s2 _ hsu h
    unfold speed_update at hsu
    split_ifs at hsu with hp
    · simp only at hsu
      split at hsu
      · exact absurd hsu (by simp)
      · simp only [Option.some.injEq] at hsu
        subst hsu
        rfl
    · simp only [Option.some.injEq] at hsu
      subst hsu
      exact h
  switch := by
    intro s cj _ h
    obtain ⟨a1, a2, _⟩ := account_switch_fields s cj
    unfold SpeedInv
    rw [a1, a2]; exact h
  nudge := fun s _ h => h
  advance := by
    intro s cj d _ _ h
    unfold SpeedInv advance
    cases cj <;> exact h
  completion := by
    intro s p b _ _ h
    unfold SpeedInv completion
    simp only
    split_ifs <;> exact h

/-! ### Work conservation -/

theorem sum_map_set (f : Job → ℚ) (l : List Job) (i : Nat) (x : Job) (hi : i < l.length) :
    ((l.set i x).map f).sum = (l.map f).sum - f (l.getD i dummyJob) + f x := by
  induction l generalizing i with
  | nil => exact absurd hi (by simp)
  | cons a rest ih =>
    cases i with
    | zero =>
      simp only [List.set_cons_zero, List.map_cons, List.sum_cons, List.getD_cons_zero]
      ring
    | succ i =>
      simp only [List.set_cons_succ, List.map_cons, List.sum_cons, List.getD_cons_succ]
      rw [ih i (by simpa using hi)]
      ring

theorem work_done_congr (s s1 : SimState) (h : s1.job_pool = s.job_pool) :
    work_done s1 = work_done s := by
  unfold work_done; rw [h]

theorem release_task_work (policy : Scheduler) (s : SimState) (i : Nat) :
    work_done (release_task policy s i) = work_done s := by
  cases hd : release_due (taskAt s.tasks i) s.current_time with
  | false => rw [release_task_not_due policy s i hd]
  | true =>
    rw [release_task_due_eq policy s i hd]
    unfold work_done
    simp only [List.map_append, List.sum_append, List.map_cons, List.map_nil, List.sum_cons,
      List.sum_nil, sub_self, add_zero]

theorem release_phase_work (policy : Scheduler) (s : SimState) :
    work_done (release_phase policy s) = work_done s := by
  unfold release_phase
  generalize List.range s.tasks.length = l
  induction l generalizing s with
  | nil => rfl
  | cons i rest ih => rw [List.foldl_cons, ih, release_task_work]

/-- The advance phase with a queued job adds `duration * alpha` to the work
completed. -/
theorem advance_work (s : SimState) (p : Nat) (d : ℚ) (hp : p < s.job_pool.length) :
    work_done (advance s (some p) d) = work_done s + d * s.alpha := by
  unfold advance work_done
  simp only
  rw [sum_map_set _ _ _ _ hp]
  simp only [jobAt]
  ring

theorem advance_work_idle (s : SimState) (d : ℚ) :
    work_done (advance s none d) = work_done s := rfl

theorem sim_iteration_work (fuel : Nat) (policy : Scheduler) (H : ℚ) (tasks0 : List Task)
    (s s1 s2 : SimState) (b : Bool) (hinv : RunInv tasks0 s) (hsp : SpeedInv s)
    (h : sim_iteration fuel policy H s = some (s1, b))
    (hsu : speed_update fuel policy (release_phase policy s) = some s2) :
    work_done s1 = work_done s +
      ran_work H (account_switch s2 (current_job_of policy s2), current_job_of policy s2) := by
  obtain ⟨_, _, _, u2, _⟩ := speed_update_fields fuel policy _ s2 hsu
  have hinv2 := dispatch_state_inv fuel policy tasks0 s s2 hinv hsu
  have hsp2 := phase_dispatch_state fuel policy tasks0 SpeedInv (speedInv_phase policy tasks0)
    s s2 hinv hsp hsu
  have hw2 : work_done s2 = work_done s := by
    rw [work_done_congr _ _ u2, release_phase_work]
  obtain ⟨s2a, hsua, hcases⟩ := sim_iteration_cases fuel policy H s s1 b h
  rw [hsu] at hsua
  simp only [Option.some.injEq] at hsua
  subst hsua
  have hmem : ∀ p, current_job_of policy s2 = some p → p < s2.job_pool.length :=
    fun p hp => hinv2.queue_valid p (current_job_mem policy s2 p hp)
  generalize hcj : current_job_of policy s2 = cj at hcases hmem ⊢
  obtain ⟨a0, a00, _, _, a1, _⟩ := account_switch_fields s2 cj
  have hw3 : work_done (account_switch s2 cj) = work_done s := by
    rw [work_done_congr _ _ a1, hw2]
  have hsp3 : (account_switch s2 cj).alpha = freq (account_switch s2 cj).freq_idx := by
    rw [a0, a00]; exact hsp2
  generalize hs3 : account_switch s2 cj = s3 at hcases a1 hw3 hsp3 ⊢
  rcases hcases with ⟨hd, hs | hs⟩ | ⟨hd, _, hs⟩
  · have hr : ran_work H (s3, cj) = 0 := by
      unfold ran_work
      cases cj with
      | none => rfl
      | some p => simp only [hd, if_true]
    rw [hr, hs, hw3, add_zero]
  · have hr : ran_work H (s3, cj) = 0 := by
      unfold ran_work
      cases cj with
      | none => rfl
      | some p => simp only [hd, if_true]
    rw [hr, hs, add_zero]
    exact hw3
  · rw [hs, work_done_congr _ _ (completion_fields policy _ _ _).2.1]
    cases cj with
    | none =>
      rw [advance_work_idle, hw3]
      simp [ran_work]
    | some p =>
      rw [advance_work _ _ _ (by rw [a1]; exact hmem p rfl), hw3, hsp3]
      unfold ran_work
      simp only [not_lt.mpr hd, if_false]

/-- C18: at every state of every run of `simulate`, and at the dispatch state
of every iteration, `alpha` equals `FREQ_LEVELS[freq_idx]`; and the sum, over
the iterations that advanced time with a job running, of
`duration * FREQ_LEVELS[freq_idx]` equals the total work completed so far, the
sum over the released jobs of actual execution time minus remaining work. -/
theorem C18_work_conservation (policy : Scheduler) (tasks : List Task) (H : ℚ)
    (hist : List (SimState × Option Nat)) (s : SimState)
    (h : RunHist policy tasks H hist s) :
    s.alpha = freq s.freq_idx ∧
    (∀ e, e ∈ hist → e.1.alpha = freq e.1.freq_idx) ∧
    s.job_pool.length = s.job_count ∧
    (hist.map (ran_work H)).sum = work_done s := by
  have hreach := runHist_reach policy tasks H hist s h
  refine ⟨phase_reach policy tasks H SpeedInv (speedInv_phase policy tasks) s hreach, ?_,
    (reach_inv policy tasks H s hreach).pool_len, ?_⟩
  · clear hreach
    induction h with
    | init => intro e he; exact absurd he (by simp)
    | step fuel s s2 s1 b hist hr _ hsu hit ih =>
      intro e he
      rcases List.mem_append.mp he with h1 | h1
      · exact ih e h1
      · rw [List.mem_singleton] at h1
        subst h1
        have hreach := runHist_reach policy tasks H hist s hr
        have hinv := reach_inv policy tasks H s hreach
        have hsp := phase_reach policy tasks H SpeedInv (speedInv_phase policy tasks) s hreach
        exact (speedInv_phase policy tasks).switch s2 _
          (dispatch_state_inv fuel policy tasks s s2 hinv hsu)
          (phase_dispatch_state fuel policy tasks SpeedInv (speedInv_phase policy tasks)
            s s2 hinv hsp hsu)
  · clear hreach
    induction h with
    | init =>
      simp [work_done, (sim_init_fields policy tasks).2.1]
    | step fuel s s2 s1 b hist hr _ hsu hit ih =>
      have hreach := runHist_reach policy tasks H hist s hr
      have hinv := reach_inv policy tasks H s hreach
      have hsp := phase_reach policy tasks H SpeedInv (speedInv_phase policy tasks) s hreach
      rw [List.map_append, List.sum_append, ih,
        sim_iteration_work fuel policy H tasks s s1 s2 b hinv hsp hit hsu]
      simp

/-- C18 on the CCEDF run of `ccedf_demo_task` (period 10, WCET 5, actual
execution time 2) with hyperperiod 10: the run ends at level 6 with speed
`FREQ_LEVELS[6] = 0.4`, the work completed is 2, and it is the sum of
`duration * FREQ_LEVELS[freq_idx]` over the history of the run. -/
theorem C18_work_conservation_witness :
    (simulate 0 20 Scheduler.CCEDF [ccedf_demo_task] 10).map
        (fun s => (work_done s, s.alpha, s.freq_idx, s.job_count)) = some (2, 2 / 5, 6, 1) ∧
    ∀ s, simulate 0 20 Scheduler.CCEDF [ccedf_demo_task] 10 = some s →
      ∃ hist, RunHist Scheduler.CCEDF [ccedf_demo_task] 10 hist s ∧
        s.alpha = freq s.freq_idx ∧ (hist.map (ran_work 10)).sum = work_done s := by
  refine ⟨by decide!, ?_⟩
  intro s hs
  obtain ⟨hist, hh⟩ := simulate_runHist 0 20 Scheduler.CCEDF [ccedf_demo_task] 10 s hs
  have h := C18_work_conservation Scheduler.CCEDF [ccedf_demo_task] 10 hist s hh
  exact ⟨hist, hh, h.1, h.2.2.2⟩

/-! ## Independence of `required_util` and of the policy within a family -/

theorem is_ccrm_schedulable_from_mono (alpha : ℚ) (tasks : List Task) (q : List Job)
    (F G : Nat) (hFG : F ≤ G) (l : List Nat) (b : Bool)
    (h : is_ccrm_schedulable_from F alpha tasks q l = some b) :
    is_ccrm_schedulable_from G alpha tasks q l = some b := by
  induction l with
  | nil => exact h
  | cons i rest ih =>
    rw [is_ccrm_schedulable_from] at h ⊢
    cases h1 : response_time_loop alpha tasks q i F ((taskAt tasks i).wcet : ℚ) with
    | none => rw [h1] at h; exact absurd h (by simp)
    | some b1 =>
      rw [h1] at h
      rw [response_time_loop_mono_le alpha tasks q i F G hFG _ b1 h1]
      cases b1 with
      | false => exact h
      | true => exact ih h

theorem get_ccrm_alpha_loop_mono (tasks : List Task) (q : List Job) (F G : Nat)
    (hFG : F ≤ G) (k : Nat) (a : ℚ) (h : get_ccrm_alpha_loop F tasks q k = some a) :
    get_ccrm_alpha_loop G tasks q k = some a := by
  induction k with
  | zero => exact h
  | succ k ih =>
    rw [get_ccrm_alpha_loop] at h ⊢
    cases h1 : is_ccrm_schedulable F (freq k) tasks q with
    | none => rw [h1] at h; exact absurd h (by simp)
    | some b1 =>
      rw [h1] at h
      have h2 : is_ccrm_schedulable G (freq k) tasks q = some b1 :=
        is_ccrm_schedulable_from_mono (freq k) tasks q F G hFG _ b1 h1
      rw [h2]
      cases b1 with
      | false => exact ih h
      | true => exact h

/-- C21: for every task set with positive periods and non-negative WCETs,
every ready set whose jobs have non-negative remaining work and every
`alpha > 0`, the response-time iteration of every task, started at the task's
WCET, returns after finitely many evaluations; so `is_ccrm_schedulable` returns
a verdict, and `get_ccrm_alpha` a speed, that no longer depends on the fuel once
the fuel is large enough. -/
theorem C21_rta_terminates (tasks : List Task) (q : List Job) (hwf : tasks_wf tasks)
    (hq : ∀ j, j ∈ q → 0 ≤ j.remaining_work) :
    (∀ alpha : ℚ, 0 < alpha → ∀ i, ∃ F b, ∀ fuel, F ≤ fuel →
      response_time_loop alpha tasks q i fuel ((taskAt tasks i).wcet : ℚ) = some b) ∧
    (∀ alpha : ℚ, 0 < alpha → ∃ F b, ∀ fuel, F ≤ fuel →
      is_ccrm_schedulable fuel alpha tasks q = some b) ∧
    (∃ F a, ∀ fuel, F ≤ fuel → get_ccrm_alpha fuel tasks q = some a) := by
  refine ⟨?_, ?_, ?_⟩
  · intro alpha ha i
    obtain ⟨F, b, h⟩ := response_time_loop_terminates alpha ha tasks hwf q hq i
      ((taskAt tasks i).wcet : ℚ) (by exact_mod_cast taskAt_wcet_nonneg tasks hwf i)
    exact ⟨F, b, fun fuel hf => response_time_loop_mono_le alpha tasks q i F fuel hf _ b h⟩
  · intro alpha ha
    obtain ⟨F, hF⟩ := is_ccrm_schedulable_from_total alpha ha tasks hwf q hq
      (List.range tasks.length)
    obtain ⟨b, hb⟩ := hF F (le_refl _)
    exact ⟨F, b, fun fuel hf => is_ccrm_schedulable_from_mono alpha tasks q F fuel hf _ b hb⟩
  · obtain ⟨F, hF⟩ := is_ccrm_schedulable_total tasks hwf q hq NUM_FREQ_LEVELS (le_refl _)
    obtain ⟨a, h1, _⟩ := get_ccrm_alpha_loop_spec F tasks q NUM_FREQ_LEVELS (hF F (le_refl _))
    exact ⟨F, a, fun fuel hf => get_ccrm_alpha_loop_mono tasks q F fuel hf _ a h1⟩

/-- C21 on the task set (period 4, WCET 1), (period 6, WCET 2) with both first
jobs ready: at speed 0.7 the iteration of task 1 goes `2, 30/7, 40/7, 40/7` and
breaks at the third evaluation, at speed 0.6 it goes `2, 5, 20/3` and returns
false at the second; two evaluations are not enough at speed 0.7. -/
theorem C21_rta_terminates_witness :
    (∃ F b, ∀ fuel, F ≤ fuel →
      response_time_loop (7 / 10) [mkTask 0 4 1, mkTask 1 6 2]
        [{ mkJob 0 4 1 with task := 0 }, { mkJob 1 6 2 with task := 1 }] 1 fuel
        (((taskAt [mkTask 0 4 1, mkTask 1 6 2] 1).wcet : Int) : ℚ) = some b) ∧
    response_time_loop (7 / 10) [mkTask 0 4 1, mkTask 1 6 2]
      [{ mkJob 0 4 1 with task := 0 }, { mkJob 1 6 2 with task := 1 }] 1 2 2 = none ∧
    response_time_loop (7 / 10) [mkTask 0 4 1, mkTask 1 6 2]
      [{ mkJob 0 4 1 with task := 0 }, { mkJob 1 6 2 with task := 1 }] 1 3 2 = some true ∧
    response_time_loop (6 / 10) [mkTask 0 4 1, mkTask 1 6 2]
      [{ mkJob 0 4 1 with task := 0 }, { mkJob 1 6 2 with task := 1 }] 1 2 2 = some false ∧
    new_response_time (7 / 10) [mkTask 0 4 1, mkTask 1 6 2]
      [{ mkJob 0 4 1 with task := 0 }, { mkJob 1 6 2 with task := 1 }] 1 2 = 30 / 7 ∧
    new_response_time (7 / 10) [mkTask 0 4 1, mkTask 1 6 2]
      [{ mkJob 0 4 1 with task := 0 }, { mkJob 1 6 2 with task := 1 }] 1 (30 / 7) = 40 / 7 := by
  refine ⟨?_, by decide!, by decide!, by decide!, by decide!, by decide!⟩
  exact (C21_rta_terminates [mkTask 0 4 1, mkTask 1 6 2]
      [{ mkJob 0 4 1 with task := 0 }, { mkJob 1 6 2 with task := 1 }]
    (by
      intro t ht
      simp only [List.mem_cons, List.mem_singleton, List.not_mem_nil, or_false] at ht
      rcases ht with rfl | rfl <;> decide)
    (by
      intro j hj
      simp only [List.mem_cons, List.mem_singleton, List.not_mem_nil, or_false] at hj
      rcases hj with rfl | rfl <;> decide!)).1 (7 / 10) (by norm_num) 1

/-! ## Binary64 rounding -/

theorem pow2_eq_zpow (e : Int) : F64.pow2 e = (2 : ℚ) ^ e := by
  unfold F64.pow2
  split_ifs with h
  · lift e to ℕ using h
    simp
  · push_neg at h
    have e1 : e = -(((-e).toNat : Nat) : Int) := by
      rw [Int.toNat_of_nonneg (by omega)]; ring
    rw [e1]
    simp only [neg_neg, Int.toNat_ofNat, zpow_neg, zpow_natCast]
    simp

theorem pow2_pos (e : Int) : 0 < F64.pow2 e := by
  rw [pow2_eq_zpow]; positivity

theorem log2_loop_spec (fuel n : Nat) (h0 : 0 < n) (hf : n ≤ fuel) :
    2 ^ F64.log2_loop fuel n ≤ n ∧ n < 2 ^ (F64.log2_loop fuel n + 1) := by
  induction fuel generalizing n with
  | zero => omega
  | succ f ih =>
    rw [F64.log2_loop]
    split_ifs with h2
    · obtain ⟨a, b⟩ := ih (n / 2) (by omega) (by omega)
      constructor
      · rw [pow_succ]; omega
      · rw [pow_succ]; omega
    · have e : n = 1 := by omega
      subst e
      simp

/-- The invariant of the binary search: the quotient `acc.1` and the count
`acc.2` bracket `n`, and the quotient has at most `k` bits after a step with
`k` when it had at most `2 * k` before. -/
theorem log2_step_spec (n k : Nat) (acc : Nat × Nat) (h1 : 1 ≤ acc.1)
    (hlt : acc.1 < 2 ^ k * 2 ^ k) (hle : acc.1 * 2 ^ acc.2 ≤ n)
    (hgt : n < (acc.1 + 1) * 2 ^ acc.2) :
    1 ≤ (F64.log2_step acc k).1 ∧ (F64.log2_step acc k).1 < 2 ^ k ∧
    (F64.log2_step acc k).1 * 2 ^ (F64.log2_step acc k).2 ≤ n ∧
    n < ((F64.log2_step acc k).1 + 1) * 2 ^ (F64.log2_step acc k).2 := by
  have hk : 0 < 2 ^ k := by positivity
  unfold F64.log2_step
  split_ifs with h
  · have d1 : acc.1 / 2 ^ k * 2 ^ k ≤ acc.1 := Nat.div_mul_le_self _ _
    have d2 : acc.1 + 1 ≤ (acc.1 / 2 ^ k + 1) * 2 ^ k := by
      have := Nat.lt_mul_div_succ acc.1 hk
      rw [Nat.mul_comm] at this
      exact this
    refine ⟨Nat.div_pos h hk, Nat.div_lt_of_lt_mul hlt, ?_, ?_⟩
    · show acc.1 / 2 ^ k * 2 ^ (acc.2 + k) ≤ n
      rw [pow_add]
      calc acc.1 / 2 ^ k * (2 ^ acc.2 * 2 ^ k) = (acc.1 / 2 ^ k * 2 ^ k) * 2 ^ acc.2 := by ring
        _ ≤ acc.1 * 2 ^ acc.2 := Nat.mul_le_mul_right _ d1
        _ ≤ n := hle
    · show n < (acc.1 / 2 ^ k + 1) * 2 ^ (acc.2 + k)
      rw [pow_add]
      calc n < (acc.1 + 1) * 2 ^ acc.2 := hgt
        _ ≤ ((acc.1 / 2 ^ k + 1) * 2 ^ k) * 2 ^ acc.2 := Nat.mul_le_mul_right _ d2
        _ = (acc.1 / 2 ^ k + 1) * (2 ^ acc.2 * 2 ^ k) := by ring
  · push_neg at h
    exact ⟨h1, h, hle, hgt⟩

theorem log2_search_end (n : Nat) (p : Nat × Nat) (a : 1 ≤ p.1) (b : p.1 < 2 ^ 1)
    (c : p.1 * 2 ^ p.2 ≤ n) (d : n < (p.1 + 1) * 2 ^ p.2) :
    2 ^ p.2 ≤ n ∧ n < 2 ^ (p.2 + 1) := by
  have e1 : p.1 = 1 := by
    rw [pow_one] at b
    omega
  rw [e1] at c d
  constructor
  · rw [one_mul] at c; exact c
  · rw [pow_succ]; omega

theorem nat_log2_spec (n : Nat) (h0 : 0 < n) :
    2 ^ F64.nat_log2 n ≤ n ∧ n < 2 ^ (F64.nat_log2 n + 1) := by
  unfold F64.nat_log2
  split_ifs with hn
  · simp only [List.foldl_cons, List.foldl_nil]
    have s1 := log2_step_spec n 128 (n, 0) h0 (by rw [← pow_add]; exact hn)
      (by show n * 2 ^ 0 ≤ n; rw [pow_zero, mul_one])
      (by show n < (n + 1) * 2 ^ 0; rw [pow_zero, mul_one]; exact Nat.lt_succ_self n)
    have s2 := log2_step_spec n 64 _ s1.1 (by rw [← pow_add]; exact s1.2.1) s1.2.2.1 s1.2.2.2
    have s3 := log2_step_spec n 32 _ s2.1 (by rw [← pow_add]; exact s2.2.1) s2.2.2.1 s2.2.2.2
    have s4 := log2_step_spec n 16 _ s3.1 (by rw [← pow_add]; exact s3.2.1) s3.2.2.1 s3.2.2.2
    have s5 := log2_step_spec n 8 _ s4.1 (by rw [← pow_add]; exact s4.2.1) s4.2.2.1 s4.2.2.2
    have s6 := log2_step_spec n 4 _ s5.1 (by rw [← pow_add]; exact s5.2.1) s5.2.2.1 s5.2.2.2
    have s7 := log2_step_spec n 2 _ s6.1 (by rw [← pow_add]; exact s6.2.1) s6.2.2.1 s6.2.2.2
    have s8 := log2_step_spec n 1 _ s7.1 (by rw [← pow_add]; exact s7.2.1) s7.2.2.1 s7.2.2.2
    exact log2_search_end n _ s8.1 s8.2.1 s8.2.2.1 s8.2.2.2
  · exact log2_loop_spec n n h0 le_rfl

/-- The exponent computed by `ilog2` brackets the magnitude of its argument. -/
theorem ilog2_spec (x : ℚ) (hx : x ≠ 0) :
    (2 : ℚ) ^ F64.ilog2 x ≤ |x| ∧ |x| < (2 : ℚ) ^ (F64.ilog2 x + 1) := by
  have hN : 0 < x.num.natAbs := Int.natAbs_pos.mpr (Rat.num_ne_zero.mpr hx)
  have hD : 0 < x.den := x.den_pos
  obtain ⟨a1, a2⟩ := nat_log2_spec _ hN
  obtain ⟨b1, b2⟩ := nat_log2_spec _ hD
  have hx' : |x| = (x.num.natAbs : ℚ) / (x.den : ℚ) := by
    conv_lhs => rw [← Rat.num_div_den x]
    rw [abs_div, Nat.cast_natAbs, Int.cast_abs]
    simp
  have hDq : (0 : ℚ) < (x.den : ℚ) := by exact_mod_cast hD
  have a1q : (2 : ℚ) ^ (F64.nat_log2 x.num.natAbs) ≤ (x.num.natAbs : ℚ) := by exact_mod_cast a1
  have a2q : (x.num.natAbs : ℚ) < (2 : ℚ) ^ (F64.nat_log2 x.num.natAbs + 1) := by
    exact_mod_cast a2
  have b1q : (2 : ℚ) ^ (F64.nat_log2 x.den) ≤ (x.den : ℚ) := by exact_mod_cast b1
  have b2q : (x.den : ℚ) < (2 : ℚ) ^ (F64.nat_log2 x.den + 1) := by exact_mod_cast b2
  have hp : ∀ n : Nat, (0 : ℚ) < 2 ^ n := fun n => by positivity
  -- the first guess `e0` is off by at most one
  have lo : (2 : ℚ) ^ ((F64.nat_log2 x.num.natAbs : Int) - (F64.nat_log2 x.den : Int) - 1)
      ≤ |x| := by
    rw [hx', sub_sub, zpow_sub₀ (by norm_num : (2 : ℚ) ≠ 0)]
    have e2 : (2 : ℚ) ^ ((F64.nat_log2 x.den : Int) + 1) = 2 ^ (F64.nat_log2 x.den + 1) := by
      rw [← zpow_natCast]; push_cast; rfl
    rw [e2, zpow_natCast]
    rw [div_le_div_iff₀ (hp _) hDq]
    calc (2 : ℚ) ^ F64.nat_log2 x.num.natAbs * (x.den : ℚ)
        ≤ (x.num.natAbs : ℚ) * (x.den : ℚ) := by
          exact mul_le_mul_of_nonneg_right a1q hDq.le
      _ ≤ (x.num.natAbs : ℚ) * 2 ^ (F64.nat_log2 x.den + 1) := by
          exact mul_le_mul_of_nonneg_left b2q.le (by positivity)
  have hi : |x| < (2 : ℚ) ^ ((F64.nat_log2 x.num.natAbs : Int) - (F64.nat_log2 x.den : Int) + 1)
      := by
    rw [hx', sub_add_eq_add_sub, zpow_sub₀ (by norm_num : (2 : ℚ) ≠ 0)]
    have e2 : (2 : ℚ) ^ ((F64.nat_log2 x.num.natAbs : Int) + 1)
        = 2 ^ (F64.nat_log2 x.num.natAbs + 1) := by
      rw [← zpow_natCast]; push_cast; rfl
    rw [e2, zpow_natCast]
    rw [div_lt_div_iff₀ hDq (hp _)]
    calc (x.num.natAbs : ℚ) * 2 ^ F64.nat_log2 x.den
        < 2 ^ (F64.nat_log2 x.num.natAbs + 1) * 2 ^ F64.nat_log2 x.den := by
          exact mul_lt_mul_of_pos_right a2q (hp _)
      _ ≤ 2 ^ (F64.nat_log2 x.num.natAbs + 1) * (x.den : ℚ) := by
          exact mul_le_mul_of_nonneg_left b1q (by positivity)
  have test : 2 ^ F64.nat_log2 x.num.natAbs * x.den ≤ x.num.natAbs * 2 ^ F64.nat_log2 x.den ↔
      (2 : ℚ) ^ ((F64.nat_log2 x.num.natAbs : Int) - (F64.nat_log2 x.den : Int)) ≤ |x| := by
    rw [hx', zpow_sub₀ (by norm_num : (2 : ℚ) ≠ 0), zpow_natCast, zpow_natCast,
      div_le_div_iff₀ (hp _) hDq]
    exact_mod_cast Iff.rfl
  unfold F64.ilog2
  simp only
  split_ifs with h
  · exact ⟨test.mp h, hi⟩
  · refine ⟨lo, ?_⟩
    rw [sub_add_cancel]
    exact not_le.mp (fun c => h (test.mpr c))

/-- The exponent is determined by the bracket. -/
theorem ilog2_unique (x : ℚ) (e : Int) (h1 : (2 : ℚ) ^ e ≤ |x|) (h2 : |x| < (2 : ℚ) ^ (e + 1)) :
    F64.ilog2 x = e := by
  have hx : x ≠ 0 := by
    intro h0
    rw [h0, abs_zero] at h1
    exact absurd h1 (not_le.mpr (by positivity))
  obtain ⟨a, b⟩ := ilog2_spec x hx
  have c1 : (2 : ℚ) ^ e < (2 : ℚ) ^ (F64.ilog2 x + 1) := lt_of_le_of_lt h1 b
  have c2 : (2 : ℚ) ^ F64.ilog2 x < (2 : ℚ) ^ (e + 1) := lt_of_le_of_lt a h2
  have d1 := (zpow_lt_zpow_iff_right₀ (by norm_num : (1 : ℚ) < 2)).mp c1
  have d2 := (zpow_lt_zpow_iff_right₀ (by norm_num : (1 : ℚ) < 2)).mp c2
  omega

theorem round_half_even_err (q : ℚ) : |(F64.round_half_even q : ℚ) - q| ≤ 1 / 2 := by
  have h1 := Int.floor_le q
  have h2 := Int.lt_floor_add_one q
  unfold F64.round_half_even
  split_ifs with a b c
  · rw [abs_le]; constructor <;> linarith
  · push_cast; rw [abs_le]; constructor <;> linarith
  · rw [abs_le]; constructor <;> linarith
  · push_cast; rw [abs_le]; constructor <;> linarith

theorem round_half_even_int (n : Int) : F64.round_half_even (n : ℚ) = n := by
  unfold F64.round_half_even
  simp

theorem round_half_even_ge (q : ℚ) (n : Int) (h : (n : ℚ) ≤ q) : n ≤ F64.round_half_even q := by
  have h1 : n ≤ ⌊q⌋ := Int.le_floor.mpr h
  unfold F64.round_half_even
  split_ifs <;> omega

theorem round_half_even_le (q : ℚ) (n : Int) (h : q ≤ (n : ℚ)) : F64.round_half_even q ≤ n := by
  rcases eq_or_lt_of_le h with e | hlt
  · rw [e, round_half_even_int]
  · have h1 : ⌊q⌋ < n := Int.floor_lt.mpr hlt
    unfold F64.round_half_even
    split_ifs <;> omega

/-- The integer computation `round_div` is the rounding of the quotient. -/
theorem round_div_eq (n d : Int) (hd : 0 < d) :
    F64.round_div n d = F64.round_half_even ((n : ℚ) / (d : ℚ)) := by
  have hdq : (0 : ℚ) < (d : ℚ) := by exact_mod_cast hd
  have hf : ⌊(n : ℚ) / (d : ℚ)⌋ = n / d := by
    rw [Int.floor_eq_iff]
    constructor
    · rw [le_div_iff₀ hdq]
      exact_mod_cast Int.ediv_mul_le n (ne_of_gt hd)
    · rw [div_lt_iff₀ hdq]
      have := Int.lt_ediv_add_one_mul_self n hd
      exact_mod_cast this
  have hr : (n : ℚ) / (d : ℚ) - ((n / d : Int) : ℚ)
      = ((n - n / d * d : Int) : ℚ) / (d : ℚ) := by
    push_cast
    field_simp
    ring
  have c1 : (n : ℚ) / (d : ℚ) - ((n / d : Int) : ℚ) < 1 / 2 ↔ 2 * (n - n / d * d) < d := by
    rw [hr, div_lt_iff₀ hdq]
    constructor
    · intro h
      have h2 : ((2 * (n - n / d * d) : Int) : ℚ) < (d : ℚ) := by push_cast at h ⊢; linarith
      exact_mod_cast h2
    · intro h
      have h2 : ((2 * (n - n / d * d) : Int) : ℚ) < (d : ℚ) := by exact_mod_cast h
      push_cast at h2 ⊢; linarith
  have c2 : (n : ℚ) / (d : ℚ) - ((n / d : Int) : ℚ) > 1 / 2 ↔ 2 * (n - n / d * d) > d := by
    rw [hr, gt_iff_lt, lt_div_iff₀ hdq]
    constructor
    · intro h
      have h2 : (d : ℚ) < ((2 * (n - n / d * d) : Int) : ℚ) := by push_cast at h ⊢; linarith
      exact_mod_cast h2
    · intro h
      have h2 : (d : ℚ) < ((2 * (n - n / d * d) : Int) : ℚ) := by exact_mod_cast h
      push_cast at h2 ⊢; linarith
  unfold F64.round_div F64.round_half_even
  rw [hf]
  simp only [c1, c2]

/-- The value of `fl` at a non-zero `x`: the quotient of `x` by the unit in the
last place, rounded to the nearest integer with ties to even, times that
unit. -/
theorem fl_def (x : ℚ) (hx : x ≠ 0) :
    F64.fl x = (F64.round_half_even (x / (2 : ℚ) ^ (max (F64.ilog2 x) (-1022) - 52)) : ℚ)
      * (2 : ℚ) ^ (max (F64.ilog2 x) (-1022) - 52) := by
  unfold F64.fl
  rw [if_neg hx]
  simp only [pow2_eq_zpow]
  set u : Int := max (F64.ilog2 x) (-1022) - 52 with hu
  have hden : (0 : Int) < (x.den : Int) := by exact_mod_cast x.den_pos
  split_ifs with h
  · obtain ⟨k, hk⟩ : ∃ k : Nat, u = (k : Int) := ⟨u.toNat, by omega⟩
    rw [hk, Int.toNat_ofNat, round_div_eq _ _ (by positivity)]
    congr 3
    push_cast
    rw [zpow_natCast, ← div_div]
    exact congrArg (fun y => y / (2 : ℚ) ^ k) (Rat.num_div_den x)
  · push_neg at h
    obtain ⟨k, hk⟩ : ∃ k : Nat, -u = (k : Int) := ⟨(-u).toNat, by omega⟩
    have hu2 : u = -(k : Int) := by omega
    rw [hk, Int.toNat_ofNat, round_div_eq _ _ hden]
    congr 3
    push_cast
    rw [hu2, zpow_neg, zpow_natCast, div_inv_eq_mul, mul_div_right_comm]
    exact congrArg (fun y => y * (2 : ℚ) ^ k) (Rat.num_div_den x)

theorem fl_zero : F64.fl 0 = 0 := by
  unfold F64.fl
  simp

/-- The rounding error is at most half a unit in the last place. -/
theorem fl_err (x : ℚ) :
    |F64.fl x - x| ≤ (2 : ℚ) ^ (max (F64.ilog2 x) (-1022) - 53) := by
  by_cases hx : x = 0
  · rw [hx, fl_zero]; simp; positivity
  rw [fl_def x hx]
  set u : Int := max (F64.ilog2 x) (-1022) - 52 with hu
  have hu0 : (0 : ℚ) < (2 : ℚ) ^ u := by positivity
  have e1 : (F64.round_half_even (x / (2 : ℚ) ^ u) : ℚ) * (2 : ℚ) ^ u - x
      = ((F64.round_half_even (x / (2 : ℚ) ^ u) : ℚ) - x / (2 : ℚ) ^ u) * (2 : ℚ) ^ u := by
    field_simp
  rw [e1, abs_mul, abs_of_pos hu0]
  have e2 : (2 : ℚ) ^ (max (F64.ilog2 x) (-1022) - 53) = 1 / 2 * (2 : ℚ) ^ u := by
    have : max (F64.ilog2 x) (-1022) - 53 = u - 1 := by omega
    rw [this, zpow_sub_one₀ (by norm_num : (2 : ℚ) ≠ 0)]
    ring
  rw [e2]
  exact mul_le_mul_of_nonneg_right (round_half_even_err _) hu0.le

/-- A number `m * 2^k` with a significand of at most 53 bits and an exponent in
the binary64 range is its own rounding. -/
theorem fl_exact (m k : Int) (hk : -1074 ≤ k) (hm : |m| < 2 ^ 53) :
    F64.fl ((m : ℚ) * (2 : ℚ) ^ k) = (m : ℚ) * (2 : ℚ) ^ k := by
  by_cases hm0 : m = 0
  · rw [hm0]; simp [fl_zero]
  have hk0 : (0 : ℚ) < (2 : ℚ) ^ k := by positivity
  have hx : (m : ℚ) * (2 : ℚ) ^ k ≠ 0 := by
    apply mul_ne_zero
    · exact_mod_cast hm0
    · exact hk0.ne.symm
  rw [fl_def _ hx]
  set u : Int := max (F64.ilog2 ((m : ℚ) * (2 : ℚ) ^ k)) (-1022) - 52 with hu
  obtain ⟨a, _⟩ := ilog2_spec _ hx
  -- the exponent is below `53 + k`
  have hlt : |(m : ℚ) * (2 : ℚ) ^ k| < (2 : ℚ) ^ (53 + k) := by
    rw [abs_mul, abs_of_pos hk0, zpow_add₀ (by norm_num : (2 : ℚ) ≠ 0)]
    apply mul_lt_mul_of_pos_right _ hk0
    have h3 : ((|m| : Int) : ℚ) < ((2 ^ 53 : Int) : ℚ) := by exact_mod_cast hm
    rw [Int.cast_abs] at h3
    have e53 : (2 : ℚ) ^ (53 : Int) = ((2 ^ 53 : Int) : ℚ) := by norm_num
    rw [e53]
    exact h3
  have he : F64.ilog2 ((m : ℚ) * (2 : ℚ) ^ k) < 53 + k :=
    (zpow_lt_zpow_iff_right₀ (by norm_num : (1 : ℚ) < 2)).mp (lt_of_le_of_lt a hlt)
  have huk : u ≤ k := by omega
  obtain ⟨n, hn⟩ : ∃ n : Nat, k - u = (n : Int) := ⟨(k - u).toNat, by omega⟩
  have e1 : (m : ℚ) * (2 : ℚ) ^ k / (2 : ℚ) ^ u = ((m * 2 ^ n : Int) : ℚ) := by
    rw [mul_div_assoc, ← zpow_sub₀ (by norm_num : (2 : ℚ) ≠ 0), hn, zpow_natCast]
    push_cast
    rfl
  rw [e1, round_half_even_int]
  push_cast
  rw [mul_assoc, ← zpow_natCast, ← zpow_add₀ (by norm_num : (2 : ℚ) ≠ 0), ← hn]
  congr 2
  omega

/-- An integer of magnitude at most `2^53` is its own rounding. -/
theorem fl_int_exact (n : Int) (h : |n| ≤ 2 ^ 53) : F64.fl (n : ℚ) = (n : ℚ) := by
  rcases lt_or_eq_of_le h with h1 | h1
  · have := fl_exact n 0 (by norm_num) h1
    simpa using this
  · have h2 : n = 2 ^ 53 ∨ n = -2 ^ 53 := by
      rcases abs_cases n with ⟨e, _⟩ | ⟨e, _⟩ <;> [left; right] <;> omega
    rcases h2 with e | e
    · have := fl_exact 1 53 (by norm_num) (by norm_num)
      rw [e]
      norm_num at this ⊢
      exact this
    · have := fl_exact (-1) 53 (by norm_num) (by norm_num)
      rw [e]
      norm_num at this ⊢
      exact this

/-! ## C13: hyperperiod -/

/-- The entries of the binary64 frequency table: `1.0` and `0.5` are the
decimal values, `0.9`, `0.8` and `0.4` lie above them, `0.7` and `0.6` below. -/
theorem f64_freq_values :
    F64.freq 0 = 1 ∧
    F64.freq 1 = 8106479329266893 / 9007199254740992 ∧
    F64.freq 2 = 3602879701896397 / 4503599627370496 ∧
    F64.freq 3 = 3152519739159347 / 4503599627370496 ∧
    F64.freq 4 = 5404319552844595 / 9007199254740992 ∧
    F64.freq 5 = 1 / 2 ∧
    F64.freq 6 = 3602879701896397 / 9007199254740992 := by
  refine ⟨by decide!, by decide!, by decide!, by decide!, by decide!, by decide!, by decide!⟩

theorem f64_freq_antitone (i j : Nat) (hij : i ≤ j) (hj : j < NUM_FREQ_LEVELS) :
    F64.freq j ≤ F64.freq i := by
  obtain ⟨h0, h1, h2, h3, h4, h5, h6⟩ := f64_freq_values
  unfold NUM_FREQ_LEVELS at hj
  interval_cases j <;> interval_cases i <;>
    simp only [h0, h1, h2, h3, h4, h5, h6] <;> norm_num

theorem f64_freq_pos (i : Nat) (hi : i < NUM_FREQ_LEVELS) : 0 < F64.freq i := by
  obtain ⟨h0, h1, h2, h3, h4, h5, h6⟩ := f64_freq_values
  unfold NUM_FREQ_LEVELS at hi
  interval_cases i <;> simp only [h0, h1, h2, h3, h4, h5, h6] <;> norm_num

/-- The downward scan returns `0` when no index below `k` qualifies. -/
theorem f64_get_freq_idx_loop_none (alpha : ℚ) (k : Nat)
    (h : ∀ i, i < k → ¬ alpha ≤ F64.freq i) : F64.get_freq_idx_loop alpha k = 0 := by
  induction k with
  | zero => rfl
  | succ k ih =>
    have hk : ¬ alpha ≤ F64.freq k := h k (Nat.lt_succ_self k)
    simp only [F64.get_freq_idx_loop, ge_iff_le, hk, if_false]
    exact ih (fun i hi => h i (Nat.lt_succ_of_lt hi))

/-- The downward scan returns the largest qualifying index below `k`. -/
theorem f64_get_freq_idx_loop_some (alpha : ℚ) (k : Nat)
    (h : ∃ i, i < k ∧ alpha ≤ F64.freq i) :
    F64.get_freq_idx_loop alpha k < k ∧ alpha ≤ F64.freq (F64.get_freq_idx_loop alpha k) ∧
      ∀ i, i < k → alpha ≤ F64.freq i → i ≤ F64.get_freq_idx_loop alpha k := by
  induction k with
  | zero => obtain ⟨i, hi, _⟩ := h; omega
  | succ k ih =>
    by_cases hk : alpha ≤ F64.freq k
    · rw [F64.get_freq_idx_loop, if_pos hk]
      exact ⟨Nat.lt_succ_self k, hk, fun i hi _ => Nat.lt_succ_iff.mp hi⟩
    · rw [F64.get_freq_idx_loop, if_neg hk]
      obtain ⟨i, hi, hia⟩ := h
      have hik : i < k := by
        rcases Nat.lt_succ_iff_lt_or_eq.mp hi with h1 | h1
        · exact h1
        · subst h1; exact absurd hia hk
      obtain ⟨h1, h2, h3⟩ := ih ⟨i, hik, hia⟩
      refine ⟨Nat.lt_succ_of_lt h1, h2, fun m hm hma => ?_⟩
      rcases Nat.lt_succ_iff_lt_or_eq.mp hm with h4 | h4
      · exact h3 m h4 hma
      · subst h4; exact absurd hma hk

theorem f64_get_freq_idx_lt (alpha : ℚ) :
    F64.get_freq_idx_for_alpha alpha < NUM_FREQ_LEVELS := by
  by_cases h : ∃ i, i < NUM_FREQ_LEVELS ∧ alpha ≤ F64.freq i
  · exact (f64_get_freq_idx_loop_some alpha NUM_FREQ_LEVELS h).1
  · have h0 : F64.get_freq_idx_for_alpha alpha = 0 :=
      f64_get_freq_idx_loop_none alpha NUM_FREQ_LEVELS (fun i hi hia => h ⟨i, hi, hia⟩)
    rw [h0]; unfold NUM_FREQ_LEVELS; omega

/-- When `alpha ≤ 1` the selected level meets `alpha` and is the lowest such
level of the table. -/
theorem f64_get_freq_idx_meets (alpha : ℚ) (h1 : alpha ≤ 1) :
    alpha ≤ F64.freq (F64.get_freq_idx_for_alpha alpha) ∧
      ∀ i, i < NUM_FREQ_LEVELS → alpha ≤ F64.freq i →
        i ≤ F64.get_freq_idx_for_alpha alpha ∧
        F64.freq (F64.get_freq_idx_for_alpha alpha) ≤ F64.freq i := by
  have hex : ∃ i, i < NUM_FREQ_LEVELS ∧ alpha ≤ F64.freq i :=
    ⟨0, by unfold NUM_FREQ_LEVELS; omega, by rw [f64_freq_values.1]; exact h1⟩
  obtain ⟨hlt, hge, hmax⟩ := f64_get_freq_idx_loop_some alpha NUM_FREQ_LEVELS hex
  exact ⟨hge, fun i hi hia => ⟨hmax i hi hia, f64_freq_antitone i _ (hmax i hi hia) hlt⟩⟩

/-! ## Fields kept by the phases of a binary64 iteration -/

theorem f64_release_task_fields (policy : Scheduler) (s : SimState) (i : Nat) :
    (F64.release_task policy s i).alpha = s.alpha ∧
    (F64.release_task policy s i).freq_idx = s.freq_idx ∧
    (F64.release_task policy s i).total_energy = s.total_energy ∧
    (F64.release_task policy s i).current_time = s.current_time := by
  by_cases h : F64.release_due (taskAt s.tasks i) s.current_time = true
  · simp [F64.release_task, h]
  · simp [F64.release_task, h]

theorem f64_release_fold_fields (policy : Scheduler) (l : List Nat) (s : SimState) :
    (l.foldl (F64.release_task policy) s).alpha = s.alpha ∧
    (l.foldl (F64.release_task policy) s).freq_idx = s.freq_idx ∧
    (l.foldl (F64.release_task policy) s).total_energy = s.total_energy ∧
    (l.foldl (F64.release_task policy) s).current_time = s.current_time := by
  induction l generalizing s with
  | nil => exact ⟨rfl, rfl, rfl, rfl⟩
  | cons i l ih =>
    obtain ⟨h1, h2, h3, h4⟩ := ih (F64.release_task policy s i)
    obtain ⟨g1, g2, g3, g4⟩ := f64_release_task_fields policy s i
    exact ⟨h1.trans g1, h2.trans g2, h3.trans g3, h4.trans g4⟩

theorem f64_release_phase_fields (policy : Scheduler) (s : SimState) :
    (F64.release_phase policy s).alpha = s.alpha ∧
    (F64.release_phase policy s).freq_idx = s.freq_idx ∧
    (F64.release_phase policy s).total_energy = s.total_energy ∧
    (F64.release_phase policy s).current_time = s.current_time :=
  f64_release_fold_fields policy _ s

theorem f64_advance_fields (s : SimState) (cj : Option Nat) (d nt : ℚ) :
    (F64.advance s cj d nt).alpha = s.alpha ∧ (F64.advance s cj d nt).freq_idx = s.freq_idx ∧
    (F64.advance s cj d nt).current_time = nt ∧
    (F64.advance s cj d nt).tasks = s.tasks ∧
    (F64.advance s cj d nt).ready_queue = s.ready_queue := by
  unfold F64.advance
  cases cj <;> exact ⟨rfl, rfl, rfl, rfl, rfl⟩

theorem f64_completion_fields (policy : Scheduler) (s : SimState) (cj : Option Nat) (b : Nat) :
    (F64.completion policy s cj b).alpha = s.alpha ∧
    (F64.completion policy s cj b).freq_idx = s.freq_idx ∧
    (F64.completion policy s cj b).total_energy = s.total_energy ∧
    (F64.completion policy s cj b).current_time = s.current_time := by
  unfold F64.completion
  cases cj with
  | none => exact ⟨rfl, rfl, rfl, rfl⟩
  | some p =>
    simp only
    split_ifs <;> exact ⟨rfl, rfl, rfl, rfl⟩

/-- A policy that is not dynamic leaves the state untouched in the speed
update. -/
theorem f64_speed_update_static (fuel : Nat) (policy : Scheduler) (s : SimState)
    (h : ¬ (policy = Scheduler.CCEDF ∨ policy = Scheduler.CCRM ∨ policy = Scheduler.LAEDF)) :
    F64.speed_update fuel policy s = some s := by
  unfold F64.speed_update
  rw [if_neg h]

/-- The three outcomes of a binary64 iteration. -/
theorem f64_sim_iteration_cases (fuel : Nat) (policy : Scheduler) (H : ℚ) (s s1 : SimState)
    (b : Bool) (hs : F64.sim_iteration fuel policy H s = some (s1, b)) :
    ∃ s2, F64.speed_update fuel policy (F64.release_phase policy s) = some s2 ∧
      (s1 = account_switch s2 (current_job_of policy s2) ∨
       s1 = { account_switch s2 (current_job_of policy s2) with
              current_time :=
                F64.fl ((account_switch s2 (current_job_of policy s2)).current_time + F64.EPS) } ∨
       s1 = F64.completion policy
          (F64.advance (account_switch s2 (current_job_of policy s2)) (current_job_of policy s2)
            (F64.exec_duration H (account_switch s2 (current_job_of policy s2))
              (current_job_of policy s2))
            (F64.next_event_time H (account_switch s2 (current_job_of policy s2))
              (current_job_of policy s2)))
          (current_job_of policy s2)
          ((dispatch policy s2.tasks (deref s2.job_pool s2.ready_queue)).getD 0)) := by
  unfold F64.sim_iteration at hs
  cases hsu : F64.speed_update fuel policy (F64.release_phase policy s) with
  | none => rw [hsu] at hs; exact absurd hs (by simp)
  | some s2 =>
    rw [hsu] at hs
    simp only at hs
    refine ⟨s2, rfl, ?_⟩
    split_ifs at hs with h1 h2
    · simp only [Option.some.injEq, Prod.mk.injEq] at hs
      exact Or.inl hs.1.symm
    · simp only [Option.some.injEq, Prod.mk.injEq] at hs
      exact Or.inr (Or.inl hs.1.symm)
    · simp only [Option.some.injEq, Prod.mk.injEq] at hs
      exact Or.inr (Or.inr hs.1.symm)

/-- Under a policy that is not dynamic an iteration keeps `alpha` and
`freq_idx`. -/
theorem f64_sim_iteration_static_speed (fuel : Nat) (policy : Scheduler) (H : ℚ)
    (s s1 : SimState) (b : Bool)
    (h : ¬ (policy = Scheduler.CCEDF ∨ policy = Scheduler.CCRM ∨ policy = Scheduler.LAEDF))
    (hs : F64.sim_iteration fuel policy H s = some (s1, b)) :
    s1.alpha = s.alpha ∧ s1.freq_idx = s.freq_idx := by
  obtain ⟨s2, hsu, hc⟩ := f64_sim_iteration_cases fuel policy H s s1 b hs
  rw [f64_speed_update_static fuel policy _ h] at hsu
  simp only [Option.some.injEq] at hsu
  subst hsu
  obtain ⟨r1, r2, _, _⟩ := f64_release_phase_fields policy s
  obtain ⟨a1, a2, _⟩ := account_switch_fields (F64.release_phase policy s)
    (current_job_of policy (F64.release_phase policy s))
  rcases hc with e | e | e
  · rw [e]; exact ⟨a1.trans r1, a2.trans r2⟩
  · rw [e]; exact ⟨a1.trans r1, a2.trans r2⟩
  · rw [e]
    obtain ⟨c1, c2, _⟩ := f64_completion_fields policy
      (F64.advance (account_switch (F64.release_phase policy s)
        (current_job_of policy (F64.release_phase policy s)))
        (current_job_of policy (F64.release_phase policy s))
        (F64.exec_duration H (account_switch (F64.release_phase policy s)
          (current_job_of policy (F64.release_phase policy s)))
          (current_job_of policy (F64.release_phase policy s)))
        (F64.next_event_time H (account_switch (F64.release_phase policy s)
          (current_job_of policy (F64.release_phase policy s)))
          (current_job_of policy (F64.release_phase policy s))))
      (current_job_of policy (F64.release_phase policy s))
      ((dispatch policy (F64.release_phase policy s).tasks
        (deref (F64.release_phase policy s).job_pool
          (F64.release_phase policy s).ready_queue)).getD 0)
    obtain ⟨d1, d2, _⟩ := f64_advance_fields (account_switch (F64.release_phase policy s)
        (current_job_of policy (F64.release_phase policy s)))
        (current_job_of policy (F64.release_phase policy s))
        (F64.exec_duration H (account_switch (F64.release_phase policy s)
          (current_job_of policy (F64.release_phase policy s)))
          (current_job_of policy (F64.release_phase policy s)))
        (F64.next_event_time H (account_switch (F64.release_phase policy s)
          (current_job_of policy (F64.release_phase policy s)))
          (current_job_of policy (F64.release_phase policy s)))
    exact ⟨c1.trans (d1.trans (a1.trans r1)), c2.trans (d2.trans (a2.trans r2))⟩

/-! ## C2: STATIC-EDF speed -/

theorem f64_get_static_edf_alpha_reset (tasks : List Task) :
    F64.get_static_edf_alpha (reset_heads tasks) = F64.get_static_edf_alpha tasks := by
  unfold F64.get_static_edf_alpha reset_heads
  rw [List.foldl_map]

/-- C2 (as amended): let `S` be the utilisation sum as `get_static_edf_alpha`
computes it in binary64 (each quotient `wcet / period` rounded, each partial
sum rounded).  For a task set with positive periods and `S ≤ 1`, a STATIC_EDF
run starts (at time `0`) with `required_util = S`, `freq_idx` the index selected
for `S` and `alpha = FREQ_LEVELS[freq_idx]`, which is at least `S` and is the
smallest table value that is at least `S`; every later state of the run has
the same `alpha` and `freq_idx`. -/
theorem C2_static_edf_speed (tasks : List Task) (H : ℚ)
    (_hpos : ∀ t, t ∈ tasks → 0 < t.period)
    (hS : F64.get_static_edf_alpha tasks ≤ 1) :
    (F64.sim_init Scheduler.STATIC_EDF tasks).current_time = 0 ∧
    (F64.sim_init Scheduler.STATIC_EDF tasks).required_util = F64.get_static_edf_alpha tasks ∧
    (F64.sim_init Scheduler.STATIC_EDF tasks).freq_idx
      = F64.get_freq_idx_for_alpha (F64.get_static_edf_alpha tasks) ∧
    (F64.sim_init Scheduler.STATIC_EDF tasks).freq_idx < NUM_FREQ_LEVELS ∧
    (F64.sim_init Scheduler.STATIC_EDF tasks).alpha
      = F64.freq (F64.sim_init Scheduler.STATIC_EDF tasks).freq_idx ∧
    F64.get_static_edf_alpha tasks ≤ (F64.sim_init Scheduler.STATIC_EDF tasks).alpha ∧
    (∀ i, i < NUM_FREQ_LEVELS → F64.get_static_edf_alpha tasks ≤ F64.freq i →
      (F64.sim_init Scheduler.STATIC_EDF tasks).alpha ≤ F64.freq i) ∧
    (∀ s, F64.Reach Scheduler.STATIC_EDF tasks H s →
      s.alpha = (F64.sim_init Scheduler.STATIC_EDF tasks).alpha ∧
      s.freq_idx = (F64.sim_init Scheduler.STATIC_EDF tasks).freq_idx) := by
  have hr : (F64.sim_init Scheduler.STATIC_EDF tasks).required_util
      = F64.get_static_edf_alpha tasks := by
    simp [F64.sim_init, f64_get_static_edf_alpha_reset]
  have hf : (F64.sim_init Scheduler.STATIC_EDF tasks).freq_idx
      = F64.get_freq_idx_for_alpha (F64.get_static_edf_alpha tasks) := by
    simp [F64.sim_init, f64_get_static_edf_alpha_reset]
  have ha : (F64.sim_init Scheduler.STATIC_EDF tasks).alpha
      = F64.freq (F64.sim_init Scheduler.STATIC_EDF tasks).freq_idx := by
    simp [F64.sim_init]
  obtain ⟨hge, hmin⟩ := f64_get_freq_idx_meets (F64.get_static_edf_alpha tasks) hS
  refine ⟨by simp [F64.sim_init], hr, hf, ?_, ha, ?_, ?_, ?_⟩
  · rw [hf]; exact f64_get_freq_idx_lt _
  · rw [ha, hf]; exact hge
  · intro i hi hia
    rw [ha, hf]; exact (hmin i hi hia).2
  · intro s hs
    induction hs with
    | init => exact ⟨rfl, rfl⟩
    | step fuel s s1 b _ _ hit ih =>
      obtain ⟨h1, h2⟩ := f64_sim_iteration_static_speed fuel Scheduler.STATIC_EDF H s s1 b
        (by decide) hit
      exact ⟨h1.trans ih.1, h2.trans ih.2⟩

/-- C2 on the two examples of the claim: for the tasks (period 4, wcet 1) and
(period 6, wcet 2), with utilisation `7/12`, the computed sum is
`0.5833333333333333` (one unit in the last place below the double nearest to
`7/12`) and the run has level 4, the double of `0.6`; the single task
(period 10, wcet 5) runs at speed `0.5` (index 5). -/
theorem C2_static_edf_speed_witness :
    total_wcet_utilisation [mkTask 0 4 1, mkTask 1 6 2] = 7 / 12 ∧
    F64.get_static_edf_alpha [mkTask 0 4 1, mkTask 1 6 2]
      = 2627099782632789 / 4503599627370496 ∧
    (F64.sim_init Scheduler.STATIC_EDF [mkTask 0 4 1, mkTask 1 6 2]).alpha = F64.fl (6 / 10) ∧
    (F64.sim_init Scheduler.STATIC_EDF [mkTask 0 4 1, mkTask 1 6 2]).freq_idx = 4 ∧
    (F64.sim_init Scheduler.STATIC_EDF [mkTask 0 10 5]).alpha = 5 / 10 ∧
    (F64.sim_init Scheduler.STATIC_EDF [mkTask 0 10 5]).freq_idx = 5 ∧
    F64.get_static_edf_alpha [mkTask 0 4 1, mkTask 1 6 2]
      ≤ (F64.sim_init Scheduler.STATIC_EDF [mkTask 0 4 1, mkTask 1 6 2]).alpha := by
  have h := C2_static_edf_speed [mkTask 0 4 1, mkTask 1 6 2] 12
    (by decide) (by decide!)
  exact ⟨by decide!, by decide!, by decide!, by decide!, by decide!, by decide!, h.2.2.2.2.2.1⟩

/-- C2 as stated, with the exact utilisation `U`, fails in both directions.
For three tasks of period 10 with WCETs 1, 2, 3 the utilisation is `U = 3/5` and
the level `0.6` (index 4) is the smallest table value at least `U`, but the
computed sum is `0.6000000000000001` and the run has level 3 (`0.7`).  For the
tasks (period 2, wcet 1) and (period 5, wcet 1) the utilisation is `U = 7/10`,
the computed sum is the double of `0.7`, and the run has level 3, whose
binary64 value lies below `U`. -/
theorem C2_rounded_sum_counterexample :
    (∀ t, t ∈ tenths_tasks → 0 < t.period) ∧
    total_wcet_utilisation tenths_tasks = 3 / 5 ∧
    get_freq_idx_for_alpha (3 / 5) = 4 ∧ freq 4 = 6 / 10 ∧
    F64.get_static_edf_alpha tenths_tasks = 5404319552844596 / 9007199254740992 ∧
    (3 / 5 : ℚ) < F64.get_static_edf_alpha tenths_tasks ∧
    F64.fl (6 / 10) < F64.get_static_edf_alpha tenths_tasks ∧
    (F64.sim_init Scheduler.STATIC_EDF tenths_tasks).freq_idx = 3 ∧
    (F64.sim_init Scheduler.STATIC_EDF tenths_tasks).alpha = F64.fl (7 / 10) ∧
    (∀ t, t ∈ seven_tenths_tasks → 0 < t.period) ∧
    total_wcet_utilisation seven_tenths_tasks = 7 / 10 ∧
    F64.get_static_edf_alpha seven_tenths_tasks = F64.fl (7 / 10) ∧
    (F64.sim_init Scheduler.STATIC_EDF seven_tenths_tasks).freq_idx = 3 ∧
    (F64.sim_init Scheduler.STATIC_EDF seven_tenths_tasks).alpha = F64.fl (7 / 10) ∧
    (F64.sim_init Scheduler.STATIC_EDF seven_tenths_tasks).alpha
      < total_wcet_utilisation seven_tenths_tasks := by
  refine ⟨by decide, by decide!, by decide!, by decide!, by decide!, by decide!, by decide!,
    by decide!, by decide!, by decide, by decide!, by decide!, by decide!, by decide!,
    by decide!⟩

/-! ## Monotonicity of the binary64 rounding -/

theorem round_half_even_mono (p q : ℚ) (h : p ≤ q) :
    F64.round_half_even p ≤ F64.round_half_even q := by
  have hf : ⌊p⌋ ≤ ⌊q⌋ := Int.floor_mono h
  rcases lt_or_eq_of_le hf with hlt | heq
  · -- different floors: the lower value rounds to at most `⌊p⌋ + 1 ≤ ⌊q⌋`
    have h1 : F64.round_half_even p ≤ ⌊p⌋ + 1 := by
      unfold F64.round_half_even
      split_ifs <;> omega
    have h2 : ⌊q⌋ ≤ F64.round_half_even q := by
      unfold F64.round_half_even
      split_ifs <;> omega
    omega
  · unfold F64.round_half_even
    rw [heq]
    have hq : p - (⌊q⌋ : ℚ) ≤ q - (⌊q⌋ : ℚ) := by linarith
    split_ifs <;> first | omega | (exfalso; linarith)

theorem fl_nonneg (x : ℚ) (hx : 0 ≤ x) : 0 ≤ F64.fl x := by
  by_cases h0 : x = 0
  · rw [h0, fl_zero]
  rw [fl_def x h0]
  apply mul_nonneg _ (by positivity)
  have : (0 : Int) ≤ F64.round_half_even (x / (2 : ℚ) ^ (max (F64.ilog2 x) (-1022) - 52)) :=
    round_half_even_ge _ 0 (by simp; positivity)
  exact_mod_cast this

/-- A positive number rounds to at most the next power of two above it. -/
theorem fl_le_pow (x : ℚ) (hx : 0 < x) :
    F64.fl x ≤ (2 : ℚ) ^ (max (F64.ilog2 x) (-1022) + 1) := by
  have h0 : x ≠ 0 := ne_of_gt hx
  obtain ⟨_, b⟩ := ilog2_spec x h0
  rw [abs_of_pos hx] at b
  rw [fl_def x h0]
  set E : Int := max (F64.ilog2 x) (-1022) with hE
  have hu0 : (0 : ℚ) < (2 : ℚ) ^ (E - 52) := by positivity
  have hxE : x ≤ (2 : ℚ) ^ (E + 1) :=
    le_trans b.le (zpow_le_zpow_right₀ (by norm_num) (by omega))
  have hq : x / (2 : ℚ) ^ (E - 52) ≤ (((2 : Int) ^ 53 : Int) : ℚ) := by
    rw [div_le_iff₀ hu0]
    have e : (((2 : Int) ^ 53 : Int) : ℚ) * (2 : ℚ) ^ (E - 52) = (2 : ℚ) ^ (E + 1) := by
      have e53 : (((2 : Int) ^ 53 : Int) : ℚ) = (2 : ℚ) ^ (53 : Int) := by norm_num
      rw [e53, ← zpow_add₀ (by norm_num : (2 : ℚ) ≠ 0)]
      congr 1
      omega
    rw [e]
    exact hxE
  have hr := round_half_even_le _ _ hq
  have hr' : (F64.round_half_even (x / (2 : ℚ) ^ (E - 52)) : ℚ) ≤ (((2 : Int) ^ 53 : Int) : ℚ) := by
    exact_mod_cast hr
  have e : (2 : ℚ) ^ (E + 1) = (((2 : Int) ^ 53 : Int) : ℚ) * (2 : ℚ) ^ (E - 52) := by
    have e53 : (((2 : Int) ^ 53 : Int) : ℚ) = (2 : ℚ) ^ (53 : Int) := by norm_num
    rw [e53, ← zpow_add₀ (by norm_num : (2 : ℚ) ≠ 0)]
    congr 1
    omega
  rw [e]
  exact mul_le_mul_of_nonneg_right hr' hu0.le

/-- A positive number in the normal range rounds to at least the power of two
below it. -/
theorem fl_ge_pow (x : ℚ) (hx : 0 < x) (he : -1022 ≤ F64.ilog2 x) :
    (2 : ℚ) ^ (F64.ilog2 x) ≤ F64.fl x := by
  have h0 : x ≠ 0 := ne_of_gt hx
  obtain ⟨a, _⟩ := ilog2_spec x h0
  rw [abs_of_pos hx] at a
  rw [fl_def x h0]
  have hE : max (F64.ilog2 x) (-1022) = F64.ilog2 x := max_eq_left he
  rw [hE]
  set e : Int := F64.ilog2 x with he'
  have hu0 : (0 : ℚ) < (2 : ℚ) ^ (e - 52) := by positivity
  have e1 : (2 : ℚ) ^ e = (((2 : Int) ^ 52 : Int) : ℚ) * (2 : ℚ) ^ (e - 52) := by
    have e52 : (((2 : Int) ^ 52 : Int) : ℚ) = (2 : ℚ) ^ (52 : Int) := by norm_num
    rw [e52, ← zpow_add₀ (by norm_num : (2 : ℚ) ≠ 0)]
    congr 1
    omega
  have hq : (((2 : Int) ^ 52 : Int) : ℚ) ≤ x / (2 : ℚ) ^ (e - 52) := by
    rw [le_div_iff₀ hu0, ← e1]
    exact a
  have hr := round_half_even_ge _ _ hq
  have hr' : (((2 : Int) ^ 52 : Int) : ℚ) ≤ (F64.round_half_even (x / (2 : ℚ) ^ (e - 52)) : ℚ) := by
    exact_mod_cast hr
  rw [e1]
  exact mul_le_mul_of_nonneg_right hr' hu0.le

/-- The binary64 rounding is monotone on the non-negative numbers. -/
theorem fl_mono (x y : ℚ) (hx : 0 ≤ x) (hxy : x ≤ y) : F64.fl x ≤ F64.fl y := by
  rcases eq_or_lt_of_le hx with h0 | hpos
  · rw [← h0, fl_zero]
    exact fl_nonneg y (le_trans hx hxy)
  have hy : 0 < y := lt_of_lt_of_le hpos hxy
  obtain ⟨ax, bx⟩ := ilog2_spec x (ne_of_gt hpos)
  obtain ⟨ay, bY⟩ := ilog2_spec y (ne_of_gt hy)
  rw [abs_of_pos hpos] at ax bx
  rw [abs_of_pos hy] at ay bY
  have hexy : F64.ilog2 x ≤ F64.ilog2 y := by
    have c : (2 : ℚ) ^ F64.ilog2 x < (2 : ℚ) ^ (F64.ilog2 y + 1) :=
      lt_of_le_of_lt ax (lt_of_le_of_lt hxy bY)
    have := (zpow_lt_zpow_iff_right₀ (by norm_num : (1 : ℚ) < 2)).mp c
    omega
  rcases eq_or_lt_of_le (max_le_max hexy (le_refl (-1022 : Int))) with hE | hE
  · -- same unit in the last place
    rw [fl_def x (ne_of_gt hpos), fl_def y (ne_of_gt hy), hE]
    have hu0 : (0 : ℚ) < (2 : ℚ) ^ (max (F64.ilog2 y) (-1022) - 52) := by positivity
    apply mul_le_mul_of_nonneg_right _ hu0.le
    have := round_half_even_mono (x / (2 : ℚ) ^ (max (F64.ilog2 y) (-1022) - 52))
      (y / (2 : ℚ) ^ (max (F64.ilog2 y) (-1022) - 52))
      (div_le_div_of_nonneg_right hxy hu0.le)
    exact_mod_cast this
  · -- `y` lies in a higher binade
    have hey : -1022 ≤ F64.ilog2 y := by omega
    have hEy : max (F64.ilog2 y) (-1022) = F64.ilog2 y := max_eq_left hey
    rw [hEy] at hE
    calc F64.fl x ≤ (2 : ℚ) ^ (max (F64.ilog2 x) (-1022) + 1) := fl_le_pow x hpos
      _ ≤ (2 : ℚ) ^ (F64.ilog2 y) := zpow_le_zpow_right₀ (by norm_num) (by omega)
      _ ≤ F64.fl y := fl_ge_pow y hy hey

/-- The rounding of an integer is an integer. -/
theorem fl_int (n : Int) : ∃ k : Int, F64.fl (n : ℚ) = (k : ℚ) := by
  by_cases h : |n| < 2 ^ 53
  · exact ⟨n, fl_int_exact n h.le⟩
  · push_neg at h
    have hn0 : (n : ℚ) ≠ 0 := by
      intro h0
      have : n = 0 := by exact_mod_cast h0
      rw [this] at h
      norm_num at h
    obtain ⟨_, b⟩ := ilog2_spec (n : ℚ) hn0
    have h53 : (2 : ℚ) ^ (53 : Int) ≤ |(n : ℚ)| := by
      have : (((2 : Int) ^ 53 : Int) : ℚ) ≤ ((|n| : Int) : ℚ) := by exact_mod_cast h
      rw [Int.cast_abs] at this
      have e53 : (((2 : Int) ^ 53 : Int) : ℚ) = (2 : ℚ) ^ (53 : Int) := by norm_num
      rw [← e53]
      exact this
    have he : 53 ≤ F64.ilog2 (n : ℚ) := by
      have c := lt_of_le_of_lt h53 b
      have := (zpow_lt_zpow_iff_right₀ (by norm_num : (1 : ℚ) < 2)).mp c
      omega
    rw [fl_def _ hn0]
    obtain ⟨m, hm⟩ : ∃ m : Nat, max (F64.ilog2 (n : ℚ)) (-1022) - 52 = (m : Int) :=
      ⟨(max (F64.ilog2 (n : ℚ)) (-1022) - 52).toNat, by omega⟩
    rw [hm, zpow_natCast]
    exact ⟨F64.round_half_even ((n : ℚ) / (2 : ℚ) ^ m) * 2 ^ m, by push_cast; rfl⟩

/-- A rounded value of at least `1/2` is a multiple of `2^-53`. -/
theorem fl_grid (y : ℚ) (h : 1 / 2 ≤ F64.fl y) : ∃ j : Int, F64.fl y = (j : ℚ) / 2 ^ 53 := by
  have hy0 : y ≠ 0 := by
    intro h0
    rw [h0, fl_zero] at h
    norm_num at h
  have hypos : 0 < y := by
    by_contra hneg
    push_neg at hneg
    have h1 : 0 ≤ -y := by linarith
    -- a non-positive number does not round to a positive one
    have h2 : F64.fl y ≤ 0 := by
      rw [fl_def y hy0]
      apply mul_nonpos_of_nonpos_of_nonneg _ (by positivity)
      have : F64.round_half_even (y / (2 : ℚ) ^ (max (F64.ilog2 y) (-1022) - 52)) ≤ 0 :=
        round_half_even_le _ 0 (by
          simp only [Int.cast_zero]
          exact div_nonpos_of_nonpos_of_nonneg hneg (by positivity))
      exact_mod_cast this
    linarith
  by_cases he : -1 ≤ F64.ilog2 y
  · rw [fl_def y hy0]
    obtain ⟨m, hm⟩ : ∃ m : Nat, max (F64.ilog2 y) (-1022) - 52 + 53 = (m : Int) :=
      ⟨(max (F64.ilog2 y) (-1022) - 52 + 53).toNat, by omega⟩
    refine ⟨F64.round_half_even (y / (2 : ℚ) ^ (max (F64.ilog2 y) (-1022) - 52)) * 2 ^ m, ?_⟩
    have e : (2 : ℚ) ^ (max (F64.ilog2 y) (-1022) - 52) = (2 : ℚ) ^ m / 2 ^ 53 := by
      rw [← zpow_natCast, ← hm, zpow_add₀ (by norm_num : (2 : ℚ) ≠ 0)]
      norm_num
    rw [e]
    push_cast
    ring
  · -- below `1/2` the rounding reaches at most `1/2`
    push_neg at he
    have hle := fl_le_pow y hypos
    have h2 : (2 : ℚ) ^ (max (F64.ilog2 y) (-1022) + 1) ≤ (2 : ℚ) ^ (-1 : Int) :=
      zpow_le_zpow_right₀ (by norm_num) (by omega)
    have h3 : F64.fl y = 1 / 2 := by
      apply le_antisymm _ h
      have : (2 : ℚ) ^ (-1 : Int) = 1 / 2 := by norm_num
      rw [← this]
      exact le_trans hle h2
    exact ⟨2 ^ 52, by rw [h3]; norm_num⟩

/-! ## C8: static RM speed -/

/-- The tabulated values of `pow(2.0, 1.0 / n)` are binary64 numbers and are the
doubles nearest to the `n`-th root of 2: the `n`-th powers of the two midpoints
to the neighbouring doubles enclose 2. -/
theorem pow_2_recip_nearest (n : Nat) (h1 : 2 ≤ n) (h2 : n ≤ MAX_TASKS) :
    F64.fl (F64.pow_2_recip n) = F64.pow_2_recip n ∧
    (F64.pow_2_recip n - 1 / 2 ^ 53) ^ n < 2 ∧ 2 < (F64.pow_2_recip n + 1 / 2 ^ 53) ^ n := by
  unfold MAX_TASKS at h2
  interval_cases n <;> refine ⟨by decide!, ?_, ?_⟩ <;> norm_num [F64.pow_2_recip]

/-- The computed Liu-Layland bounds for one and for two tasks: `1` and
`0.8284271247461903`. -/
theorem liu_layland_bound_values :
    F64.liu_layland_bound 1 = 1 ∧
    F64.liu_layland_bound 2 = 1865452045155277 / 2251799813685248 := by
  refine ⟨by decide!, by decide!⟩

theorem f64_get_static_rm_alpha_loop_none (tasks : List Task) (k : Nat)
    (h : ∀ i, i < k → F64.rm_schedulability_test (F64.freq i) tasks = false) :
    F64.get_static_rm_alpha_loop tasks k = 1 := by
  induction k with
  | zero => rfl
  | succ k ih =>
    rw [F64.get_static_rm_alpha_loop, h k (Nat.lt_succ_self k)]
    simp only [Bool.false_eq_true, if_false]
    exact ih (fun i hi => h i (Nat.lt_succ_of_lt hi))

theorem f64_get_static_rm_alpha_loop_some (tasks : List Task) (k : Nat)
    (h : ∃ i, i < k ∧ F64.rm_schedulability_test (F64.freq i) tasks = true) :
    ∃ i, i < k ∧ F64.get_static_rm_alpha_loop tasks k = F64.freq i ∧
      F64.rm_schedulability_test (F64.freq i) tasks = true ∧
      ∀ m, m < k → F64.rm_schedulability_test (F64.freq m) tasks = true → m ≤ i := by
  induction k with
  | zero => obtain ⟨i, hi, _⟩ := h; omega
  | succ k ih =>
    by_cases hk : F64.rm_schedulability_test (F64.freq k) tasks = true
    · refine ⟨k, Nat.lt_succ_self k, ?_, hk, fun m hm _ => Nat.lt_succ_iff.mp hm⟩
      rw [F64.get_static_rm_alpha_loop, if_pos hk]
    · obtain ⟨i, hi, hia⟩ := h
      have hik : i < k := by
        rcases Nat.lt_succ_iff_lt_or_eq.mp hi with h1 | h1
        · exact h1
        · subst h1; exact absurd hia hk
      obtain ⟨r, h1, h2, h3, h4⟩ := ih ⟨i, hik, hia⟩
      refine ⟨r, Nat.lt_succ_of_lt h1, ?_, h3, fun m hm hma => ?_⟩
      · rw [F64.get_static_rm_alpha_loop, if_neg hk]; exact h2
      · rcases Nat.lt_succ_iff_lt_or_eq.mp hm with h5 | h5
        · exact h4 m h5 hma
        · subst h5; exact absurd hma hk

/-- The test of `rm_schedulability_test` on a non-empty task set is the
comparison of the computed sum with the computed bound. -/
theorem f64_rm_schedulability_test_iff (alpha : ℚ) (tasks : List Task) (hne : tasks ≠ []) :
    F64.rm_schedulability_test alpha tasks = true
      ↔ F64.rm_util_sum alpha tasks ≤ F64.liu_layland_bound tasks.length := by
  unfold F64.rm_schedulability_test
  have hl : tasks.length ≠ 0 := fun h => hne (List.length_eq_zero.mp h)
  rw [if_neg hl]
  simp

/-- The computed quotient `wcet / (alpha * period)` at a table level is at
least the double of the utilisation `wcet / period`. -/
theorem f64_scaled_util_ge (t : Task) (i : Nat) (hi : i < NUM_FREQ_LEVELS)
    (hp : 0 < t.period) (hp53 : t.period ≤ 2 ^ 53) (hw : 0 ≤ t.wcet) :
    F64.fl ((t.wcet : ℚ) / (t.period : ℚ))
      ≤ F64.fl ((t.wcet : ℚ) / F64.fl (F64.freq i * (t.period : ℚ))) := by
  have hq : (0 : ℚ) < (t.period : ℚ) := by exact_mod_cast hp
  have hq1 : (1 : ℚ) ≤ (t.period : ℚ) := by exact_mod_cast hp
  have hwq : (0 : ℚ) ≤ (t.wcet : ℚ) := by exact_mod_cast hw
  have hf := f64_freq_pos i hi
  have hf1 : F64.freq i ≤ 1 := by
    have := f64_freq_antitone 0 i (Nat.zero_le i) hi
    rwa [f64_freq_values.1] at this
  have hf6 : F64.freq 6 ≤ F64.freq i :=
    f64_freq_antitone i 6 (by unfold NUM_FREQ_LEVELS at hi; omega)
      (by unfold NUM_FREQ_LEVELS; omega)
  have h6 : (0 : ℚ) < F64.freq 6 := f64_freq_pos 6 (by unfold NUM_FREQ_LEVELS; omega)
  have hx0 : F64.freq 6 ≤ F64.freq i * (t.period : ℚ) := by nlinarith
  have hxp : F64.freq i * (t.period : ℚ) ≤ (t.period : ℚ) := by nlinarith
  have hfl_le : F64.fl (F64.freq i * (t.period : ℚ)) ≤ (t.period : ℚ) := by
    have := fl_mono _ _ (le_trans h6.le hx0) hxp
    rwa [fl_int_exact t.period (by rw [abs_of_pos hp]; exact hp53)] at this
  have hfl_pos : 0 < F64.fl (F64.freq i * (t.period : ℚ)) := by
    have h1 := fl_mono _ _ h6.le hx0
    have h2 : (0 : ℚ) < F64.fl (F64.freq 6) := by decide!
    exact lt_of_lt_of_le h2 h1
  apply fl_mono _ _ (div_nonneg hwq hq.le)
  exact div_le_div_of_nonneg_left hwq hfl_pos hfl_le

/-- Two tasks with utilisations `0.6` and `0.3` fail the computed test at every
level. -/
theorem f64_rm_test_fails_06_03 (t1 t2 : Task) (i : Nat)
    (hp1 : 0 < t1.period) (hp2 : 0 < t2.period)
    (hb1 : t1.period ≤ 2 ^ 53) (hb2 : t2.period ≤ 2 ^ 53)
    (h1 : (t1.wcet : ℚ) / (t1.period : ℚ) = 6 / 10)
    (h2 : (t2.wcet : ℚ) / (t2.period : ℚ) = 3 / 10) (hi : i < NUM_FREQ_LEVELS) :
    F64.rm_schedulability_test (F64.freq i) [t1, t2] = false := by
  have hq1 : (0 : ℚ) < (t1.period : ℚ) := by exact_mod_cast hp1
  have hq2 : (0 : ℚ) < (t2.period : ℚ) := by exact_mod_cast hp2
  have hw1 : 0 ≤ t1.wcet := by
    by_contra hneg
    push_neg at hneg
    have : (t1.wcet : ℚ) < 0 := by exact_mod_cast hneg
    have := div_neg_of_neg_of_pos this hq1
    rw [h1] at this
    norm_num at this
  have hw2 : 0 ≤ t2.wcet := by
    by_contra hneg
    push_neg at hneg
    have : (t2.wcet : ℚ) < 0 := by exact_mod_cast hneg
    have := div_neg_of_neg_of_pos this hq2
    rw [h2] at this
    norm_num at this
  have g1 := f64_scaled_util_ge t1 i hi hp1 hb1 hw1
  have g2 := f64_scaled_util_ge t2 i hi hp2 hb2 hw2
  rw [h1] at g1
  rw [h2] at g2
  have c1 : (0 : ℚ) ≤ F64.fl (6 / 10) := by decide!
  have c2 : (0 : ℚ) ≤ F64.fl (F64.fl (6 / 10)) + F64.fl (3 / 10) := by decide!
  have s1 : F64.fl (F64.fl (6 / 10))
      ≤ F64.fl (F64.fl ((t1.wcet : ℚ) / F64.fl (F64.freq i * (t1.period : ℚ)))) :=
    fl_mono _ _ c1 g1
  have s2 : F64.fl (F64.fl (F64.fl (6 / 10)) + F64.fl (3 / 10))
      ≤ F64.fl (F64.fl (F64.fl ((t1.wcet : ℚ) / F64.fl (F64.freq i * (t1.period : ℚ))))
          + F64.fl ((t2.wcet : ℚ) / F64.fl (F64.freq i * (t2.period : ℚ)))) :=
    fl_mono _ _ c2 (add_le_add s1 g2)
  have c3 : F64.liu_layland_bound 2
      < F64.fl (F64.fl (F64.fl (6 / 10)) + F64.fl (3 / 10)) := by decide!
  have hsum : F64.rm_util_sum (F64.freq i) [t1, t2]
      = F64.fl (F64.fl (F64.fl ((t1.wcet : ℚ) / F64.fl (F64.freq i * (t1.period : ℚ))))
          + F64.fl ((t2.wcet : ℚ) / F64.fl (F64.freq i * (t2.period : ℚ)))) := by
    simp [F64.rm_util_sum]
  cases ht : F64.rm_schedulability_test (F64.freq i) [t1, t2] with
  | false => rfl
  | true =>
    have := (f64_rm_schedulability_test_iff _ [t1, t2] (by simp)).mp ht
    rw [hsum] at this
    simp only [List.length_cons, List.length_nil] at this
    exact absurd (lt_of_lt_of_le c3 (le_trans s2 this)) (lt_irrefl _)

/-- C8 (as amended): for a non-empty task set of at most `MAX_TASKS` tasks
with positive periods, `get_static_rm_alpha` returns the lowest table level
`gamma` at which the test as computed in binary64 holds, that is, at which the
computed sum of the quotients `wcet / (gamma * period)` is at most the computed
bound `n * (pow(2.0, 1.0 / n) - 1.0)`; when no level passes, it returns `1`; and
for two tasks with utilisations `0.6` and `0.3` the result is `1`, so not below
`0.9`. -/
theorem C8_static_rm_alpha (tasks : List Task) (hne : tasks ≠ [])
    (_hlen : tasks.length ≤ MAX_TASKS)
    (hpos : ∀ t, t ∈ tasks → 0 < t.period ∧ t.period ≤ INT_MAX) :
    ((∃ i, i < NUM_FREQ_LEVELS ∧
        F64.rm_util_sum (F64.freq i) tasks ≤ F64.liu_layland_bound tasks.length) →
      ∃ i, i < NUM_FREQ_LEVELS ∧ F64.get_static_rm_alpha tasks = F64.freq i ∧
        F64.rm_util_sum (F64.freq i) tasks ≤ F64.liu_layland_bound tasks.length ∧
        ∀ k, k < NUM_FREQ_LEVELS →
          F64.rm_util_sum (F64.freq k) tasks ≤ F64.liu_layland_bound tasks.length →
          F64.get_static_rm_alpha tasks ≤ F64.freq k) ∧
    ((∀ i, i < NUM_FREQ_LEVELS →
        ¬ F64.rm_util_sum (F64.freq i) tasks ≤ F64.liu_layland_bound tasks.length) →
      F64.get_static_rm_alpha tasks = 1) ∧
    (∀ t1 t2, tasks = [t1, t2] → (t1.wcet : ℚ) / (t1.period : ℚ) = 6 / 10 →
      (t2.wcet : ℚ) / (t2.period : ℚ) = 3 / 10 →
      F64.get_static_rm_alpha tasks = 1 ∧ F64.freq 1 ≤ F64.get_static_rm_alpha tasks) := by
  refine ⟨?_, ?_, ?_⟩
  · rintro ⟨i, hi, hll⟩
    obtain ⟨r, h1, h2, h3, h4⟩ := f64_get_static_rm_alpha_loop_some tasks NUM_FREQ_LEVELS
      ⟨i, hi, (f64_rm_schedulability_test_iff _ tasks hne).mpr hll⟩
    refine ⟨r, h1, h2, (f64_rm_schedulability_test_iff _ tasks hne).mp h3, fun k hk hkl => ?_⟩
    rw [show F64.get_static_rm_alpha tasks = F64.freq r from h2]
    exact f64_freq_antitone k r
      (h4 k hk ((f64_rm_schedulability_test_iff _ tasks hne).mpr hkl)) h1
  · intro h
    apply f64_get_static_rm_alpha_loop_none
    intro i hi
    cases ht : F64.rm_schedulability_test (F64.freq i) tasks with
    | false => rfl
    | true => exact absurd ((f64_rm_schedulability_test_iff _ tasks hne).mp ht) (h i hi)
  · intro t1 t2 htasks h1 h2
    subst htasks
    have b1 := hpos t1 (by simp)
    have b2 := hpos t2 (by simp)
    have hI : INT_MAX ≤ 2 ^ 53 := by unfold INT_MAX; norm_num
    have h : F64.get_static_rm_alpha [t1, t2] = 1 := by
      apply f64_get_static_rm_alpha_loop_none
      intro i hi
      exact f64_rm_test_fails_06_03 t1 t2 i b1.1 b2.1 (le_trans b1.2 hI) (le_trans b2.2 hI)
        h1 h2 hi
    rw [h]
    refine ⟨rfl, ?_⟩
    have := f64_freq_antitone 0 1 (by omega) (by unfold NUM_FREQ_LEVELS; omega)
    rwa [f64_freq_values.1] at this

/-- C8 on two tasks with utilisations `6/10` and `3/10` (periods 10): the
result is `1`; and on one task with utilisation `1/5` the level `0.4` is
returned. -/
theorem C8_static_rm_alpha_witness :
    F64.get_static_rm_alpha [mkTask 0 10 6, mkTask 1 10 3] = 1 ∧
    F64.freq 1 ≤ F64.get_static_rm_alpha [mkTask 0 10 6, mkTask 1 10 3] ∧
    F64.get_static_rm_alpha [mkTask 0 10 2] = F64.fl (4 / 10) := by
  have h := (C8_static_rm_alpha [mkTask 0 10 6, mkTask 1 10 3] (by simp) (by decide)
    (by decide)).2.2
    (mkTask 0 10 6) (mkTask 1 10 3) rfl (by decide!) (by decide!)
  exact ⟨h.1, h.2, by decide!⟩

/-- C8 as stated, with the test over the reals, fails in both directions.  For
one task (period 90, wcet 63) the level `0.7` satisfies
`wcet / (0.7 * period) = 1 ≤ 1 * (2^1 - 1)`, but the product `0.7 * 90` is computed
as `62.99999999999999`, the quotient as `1.0000000000000002`, the computed test
fails at level 3 and the function returns the double of `0.8`.  For one task
(period 10, wcet 7) the function returns the double of `0.7`, which lies below
`0.7`, so that the real test `7 / (gamma * 10) ≤ 1` does not hold at the returned
level: there the product is rounded up to `7` and the computed quotient is
`1`. -/
theorem C8_rounded_test_counterexample :
    liu_layland_holds (7 / 10) [mkTask 0 90 63] ∧
    get_static_rm_alpha [mkTask 0 90 63] = 7 / 10 ∧
    F64.fl (F64.freq 3 * 90) = 8866461766385663 / 140737488355328 ∧
    F64.rm_util_sum (F64.freq 3) [mkTask 0 90 63] = 1 + 1 / 2 ^ 52 ∧
    F64.liu_layland_bound 1 = 1 ∧
    F64.rm_schedulability_test (F64.freq 3) [mkTask 0 90 63] = false ∧
    F64.get_static_rm_alpha [mkTask 0 90 63] = F64.fl (8 / 10) ∧
    F64.get_static_rm_alpha [mkTask 0 10 7] = F64.fl (7 / 10) ∧
    F64.fl (7 / 10) < 7 / 10 ∧
    F64.rm_util_sum (F64.fl (7 / 10)) [mkTask 0 10 7] = 1 ∧
    ¬ liu_layland_holds (F64.fl (7 / 10)) [mkTask 0 10 7] := by
  refine ⟨?_, by decide!, by decide!, by decide!, by decide!, by decide!, by decide!,
    by decide!, by decide!, by decide!, ?_⟩
  · rw [← rm_schedulability_test_iff _ _ (by simp)]
    decide!
  · rw [← rm_schedulability_test_iff _ _ (by simp)]
    decide!

/-! ## C11: schedulability preservation -/

/-! ### The static policies at full speed in binary64 -/

theorem fl_nonpos (x : ℚ) (hx : x ≤ 0) : F64.fl x ≤ 0 := by
  by_cases h0 : x = 0
  · rw [h0, fl_zero]
  rw [fl_def x h0]
  apply mul_nonpos_of_nonpos_of_nonneg _ (by positivity)
  have : F64.round_half_even (x / (2 : ℚ) ^ (max (F64.ilog2 x) (-1022) - 52)) ≤ 0 :=
    round_half_even_le _ 0 (by
      simp only [Int.cast_zero]
      exact div_nonpos_of_nonpos_of_nonneg hx (by positivity))
  exact_mod_cast this

/-- The double of the literal `1e-9`: an odd multiple of `2^-82`. -/
theorem f64_eps_value : F64.EPS = 4835703278458517 / 2 ^ 82 := by decide!

/-- The relative rounding error of a number in the normal range is at most
`2^-53`. -/
theorem fl_rel_err (x : ℚ) (hx : (2 : ℚ) ^ (-1022 : Int) ≤ |x|) :
    |F64.fl x - x| ≤ |x| / 2 ^ 53 := by
  have h0 : x ≠ 0 := by
    intro h
    rw [h, abs_zero] at hx
    exact absurd hx (not_le.mpr (by positivity))
  obtain ⟨a, b⟩ := ilog2_spec x h0
  have he : -1022 ≤ F64.ilog2 x := by
    have c := lt_of_le_of_lt hx b
    have := (zpow_lt_zpow_iff_right₀ (by norm_num : (1 : ℚ) < 2)).mp c
    omega
  have h1 := fl_err x
  rw [max_eq_left he] at h1
  refine le_trans h1 ?_
  rw [zpow_sub₀ (by norm_num : (2 : ℚ) ≠ 0)]
  have e53 : (2 : ℚ) ^ (53 : Int) = 2 ^ 53 := by norm_num
  rw [e53]
  exact div_le_div_of_nonneg_right a (by positivity)

/-- A number that rounds to the double of `1e-9` lies within `2^-83` of it. -/
theorem fl_eq_eps_near (x : ℚ) (h : F64.fl x = F64.EPS) :
    0 < x ∧ |F64.EPS - x| ≤ 1 / 2 ^ 83 := by
  have hE0 : (0 : ℚ) < F64.EPS := by rw [f64_eps_value]; norm_num
  have hx : 0 < x := by
    by_contra hneg
    push_neg at hneg
    have := fl_nonpos x hneg
    rw [h] at this
    linarith
  refine ⟨hx, ?_⟩
  have he : max (F64.ilog2 x) (-1022) ≤ -30 := by
    by_cases hn : -1022 ≤ F64.ilog2 x
    · have h1 := fl_ge_pow x hx hn
      rw [h, f64_eps_value] at h1
      have h2 : (4835703278458517 / 2 ^ 82 : ℚ) < (2 : ℚ) ^ (-29 : Int) := by norm_num
      have := (zpow_lt_zpow_iff_right₀ (by norm_num : (1 : ℚ) < 2)).mp (lt_of_le_of_lt h1 h2)
      rw [max_eq_left hn]
      omega
    · push_neg at hn
      rw [max_eq_right hn.le]
      norm_num
  have h1 := fl_err x
  rw [h] at h1
  refine le_trans h1 ?_
  have : (1 : ℚ) / 2 ^ 83 = (2 : ℚ) ^ (-83 : Int) := by norm_num
  rw [this]
  exact zpow_le_zpow_right₀ (by norm_num) (by omega)

/-- Two multiples of `2^-53` do not differ by a number that rounds to the
double of `1e-9`. -/
theorem grid_difference_ne_eps (j1 j2 : Int) :
    F64.fl ((j1 : ℚ) / 2 ^ 53 - (j2 : ℚ) / 2 ^ 53) ≠ F64.EPS := by
  intro h
  obtain ⟨_, h2⟩ := fl_eq_eps_near _ h
  rw [f64_eps_value] at h2
  have e : (4835703278458517 / 2 ^ 82 : ℚ) - ((j1 : ℚ) / 2 ^ 53 - (j2 : ℚ) / 2 ^ 53)
      = (((4835703278458517 - (j1 - j2) * 2 ^ 29 : Int) : ℚ)) / 2 ^ 82 := by
    push_cast
    ring
  rw [e, abs_div, abs_of_pos (by positivity : (0 : ℚ) < 2 ^ 82),
    div_le_iff₀ (by positivity : (0 : ℚ) < 2 ^ 82)] at h2
  have h3 : |((4835703278458517 - (j1 - j2) * 2 ^ 29 : Int) : ℚ)| < 1 := by
    refine lt_of_le_of_lt h2 ?_
    norm_num
  rw [← Int.cast_abs] at h3
  have h4 : |4835703278458517 - (j1 - j2) * 2 ^ 29| < (1 : Int) := by exact_mod_cast h3
  rw [abs_lt] at h4
  omega

/-- Every candidate of the next-release scan is an integer. -/
theorem f64_next_release_step_cases (t acc : ℚ) (x : Task) :
    F64.next_release_step t acc x = acc ∨
      ∃ k : Int, F64.next_release_step t acc x = (k : ℚ) := by
  unfold F64.next_release_step
  split_ifs with h
  · rcases min_choice acc (x.phase : ℚ) with e | e
    · exact Or.inl e
    · exact Or.inr ⟨x.phase, e⟩
  · simp only
    obtain ⟨k1, hk1⟩ := fl_int
      (⌊F64.fl (F64.fl (F64.fl (t - (x.phase : ℚ)) + F64.EPS) / (x.period : ℚ))⌋ + 1)
    obtain ⟨k2, hk2⟩ := fl_int (k1 * x.period)
    obtain ⟨k3, hk3⟩ := fl_int (x.phase + k2)
    have e : F64.fl ((x.phase : ℚ) + F64.fl (F64.fl
        ((⌊F64.fl (F64.fl (F64.fl (t - (x.phase : ℚ)) + F64.EPS) / (x.period : ℚ))⌋ : ℚ) + 1)
          * (x.period : ℚ))) = (k3 : ℚ) := by
      push_cast at hk1 hk2 hk3
      rw [hk1, hk2, hk3]
    rw [e]
    rcases min_choice acc (k3 : ℚ) with e1 | e1
    · exact Or.inl e1
    · exact Or.inr ⟨k3, e1⟩

/-- The next release time is the hyperperiod or an integer. -/
theorem f64_next_release_time_cases (H t : ℚ) (tasks : List Task) :
    F64.next_release_time H tasks t = H ∨
      ∃ k : Int, F64.next_release_time H tasks t = (k : ℚ) := by
  unfold F64.next_release_time
  have key : ∀ (l : List Task) (acc : ℚ), (acc = H ∨ ∃ k : Int, acc = (k : ℚ)) →
      (l.foldl (F64.next_release_step t) acc = H ∨
        ∃ k : Int, l.foldl (F64.next_release_step t) acc = (k : ℚ)) := by
    intro l
    induction l with
    | nil => intro acc h; exact h
    | cons x rest ih =>
      intro acc h
      rw [List.foldl_cons]
      apply ih
      rcases f64_next_release_step_cases t acc x with e | ⟨k, e⟩
      · rw [e]; exact h
      · exact Or.inr ⟨k, e⟩
  exact key tasks H (Or.inl rfl)

/-- A double of at least `1/2` is a multiple of `2^-53`. -/
theorem f64_grid_of_fixed (x : ℚ) (hx : F64.fl x = x) (h : 1 / 2 ≤ x) :
    ∃ j : Int, x = (j : ℚ) / 2 ^ 53 := by
  obtain ⟨j, hj⟩ := fl_grid x (by rw [hx]; exact h)
  exact ⟨j, by rw [← hx]; exact hj⟩

/-- An idle advance never lasts exactly `1e-9`: the clock and the hyperperiod
are doubles, the hyperperiod is at least 1, and every release instant is an
integer. -/
theorem f64_idle_duration_ne_eps (H t : ℚ) (tasks : List Task)
    (hH : F64.fl H = H) (hH1 : 1 ≤ H) (ht : F64.fl t = t) (ht0 : 0 ≤ t) :
    F64.fl (min (F64.next_release_time H tasks t) H - t) ≠ F64.EPS := by
  intro h
  obtain ⟨hpos, hnear⟩ := fl_eq_eps_near _ h
  have hE : F64.EPS < 1 / 2 ^ 29 := by rw [f64_eps_value]; norm_num
  rw [abs_le] at hnear
  -- the next event is the hyperperiod or an integer
  have hcases : min (F64.next_release_time H tasks t) H = H ∨
      ∃ k : Int, min (F64.next_release_time H tasks t) H = (k : ℚ) := by
    rcases min_choice (F64.next_release_time H tasks t) H with e | e
    · rw [e]; exact f64_next_release_time_cases H t tasks
    · exact Or.inl e
  set a : ℚ := min (F64.next_release_time H tasks t) H with ha
  have ha1 : 1 ≤ a := by
    rcases hcases with e | ⟨k, e⟩
    · rw [e]; exact hH1
    · rw [e] at hpos ⊢
      have hk : (0 : ℚ) < (k : ℚ) := by linarith
      have hk' : 0 < k := by exact_mod_cast hk
      have : 1 ≤ k := hk'
      exact_mod_cast this
  have hagrid : ∃ j : Int, a = (j : ℚ) / 2 ^ 53 := by
    rcases hcases with e | ⟨k, e⟩
    · rw [e]; exact f64_grid_of_fixed H hH (by linarith)
    · refine ⟨k * 2 ^ 53, ?_⟩
      rw [e]
      push_cast
      exact (mul_div_cancel_right₀ _ (by positivity)).symm
  have hthalf : 1 / 2 ≤ t := by
    have : (1 : ℚ) / 2 ^ 83 + 1 / 2 ^ 29 ≤ 1 / 2 := by norm_num
    linarith [hnear.1]
  obtain ⟨j2, hj2⟩ := f64_grid_of_fixed t ht hthalf
  obtain ⟨j1, hj1⟩ := hagrid
  rw [hj1, hj2] at h
  exact grid_difference_ne_eps j1 j2 h

theorem f64_speed_update_fields (fuel : Nat) (policy : Scheduler) (s s2 : SimState)
    (h : F64.speed_update fuel policy s = some s2) :
    s2.total_energy = s.total_energy ∧ s2.current_time = s.current_time ∧
    s2.tasks = s.tasks ∧ s2.job_pool = s.job_pool ∧ s2.ready_queue = s.ready_queue ∧
    s2.ccedf_utils = s.ccedf_utils ∧ s2.job_count = s.job_count := by
  unfold F64.speed_update at h
  split_ifs at h with hp
  · simp only at h
    split at h
    · exact absurd h (by simp)
    · simp only [Option.some.injEq] at h
      subst h
      exact ⟨rfl, rfl, rfl, rfl, rfl, rfl, rfl⟩
  · simp only [Option.some.injEq] at h
    subst h
    exact ⟨rfl, rfl, rfl, rfl, rfl, rfl, rfl⟩

theorem f64_advance_energy (s : SimState) (cj : Option Nat) (d nt : ℚ) :
    (cj ≠ none → (F64.advance s cj d nt).total_energy
      = F64.fl (s.total_energy + F64.calculate_energy d s.freq_idx)) ∧
    (cj = none → (F64.advance s cj d nt).total_energy
      = F64.fl (s.total_energy + F64.calculate_energy d (NUM_FREQ_LEVELS - 1))) := by
  unfold F64.advance
  cases cj with
  | none => exact ⟨fun h => absurd rfl h, fun _ => rfl⟩
  | some p => exact ⟨fun _ => rfl, fun h => absurd h (by simp)⟩

/-- The binary64 iteration in the branch that is taken when `exec_duration` is
not below `1e-9`. -/
theorem f64_sim_iteration_advance (fuel : Nat) (policy : Scheduler) (H : ℚ) (s s2 : SimState)
    (hsu : F64.speed_update fuel policy (F64.release_phase policy s) = some s2)
    (hd : F64.EPS ≤ F64.exec_duration H (account_switch s2 (current_job_of policy s2))
      (current_job_of policy s2)) :
    F64.sim_iteration fuel policy H s
      = some (F64.completion policy
          (F64.advance (account_switch s2 (current_job_of policy s2)) (current_job_of policy s2)
            (F64.exec_duration H (account_switch s2 (current_job_of policy s2))
              (current_job_of policy s2))
            (F64.next_event_time H (account_switch s2 (current_job_of policy s2))
              (current_job_of policy s2)))
          (current_job_of policy s2)
          ((dispatch policy s2.tasks (deref s2.job_pool s2.ready_queue)).getD 0), false) := by
  unfold F64.sim_iteration
  rw [hsu]
  simp only
  rw [if_neg (not_lt.mpr hd)]

/-- The energy of one time unit at the lowest level, `0.4 * 3.2 * 3.2` computed
in binary64, is `4.096000000000001`. -/
theorem f64_idle_power :
    F64.freq 6 = F64.fl (4 / 10) ∧ F64.volt 6 = F64.fl (32 / 10) ∧
    F64.fl (F64.fl (F64.freq 6 * F64.volt 6) * F64.volt 6)
      = 4611686018427389 / 1125899906842624 := by
  refine ⟨by decide!, by decide!, by decide!⟩

/-- The idle energy of a duration above `1e-9` is `0.4 * 3.2^2 * d` up to a
relative error of `2^-50`. -/
theorem f64_idle_energy_near (d : ℚ) (hd : F64.EPS < d) :
    F64.calculate_energy d 6
      = F64.fl (F64.fl (F64.fl (F64.freq 6 * F64.volt 6) * F64.volt 6) * d) ∧
    |F64.calculate_energy d 6 - 4 / 10 * (32 / 10) ^ 2 * d|
      ≤ 4 / 10 * (32 / 10) ^ 2 * d / 2 ^ 50 := by
  have hE0 : (0 : ℚ) < F64.EPS := by rw [f64_eps_value]; norm_num
  have hd0 : 0 < d := lt_trans hE0 hd
  have e : F64.calculate_energy d 6
      = F64.fl (F64.fl (F64.fl (F64.freq 6 * F64.volt 6) * F64.volt 6) * d) := by
    unfold F64.calculate_energy
    rw [if_neg (not_le.mpr hd)]
  refine ⟨e, ?_⟩
  rw [e, f64_idle_power.2.2]
  set c : ℚ := 4611686018427389 / 1125899906842624 with hc
  have hcd : 0 < c * d := by rw [hc]; positivity
  have hnorm : (2 : ℚ) ^ (-1022 : Int) ≤ |c * d| := by
    rw [abs_of_pos hcd]
    have h1 : (2 : ℚ) ^ (-1022 : Int) ≤ (2 : ℚ) ^ (-30 : Int) :=
      zpow_le_zpow_right₀ (by norm_num) (by norm_num)
    have h2 : (2 : ℚ) ^ (-30 : Int) ≤ c * F64.EPS := by
      rw [hc, f64_eps_value]; norm_num
    have h3 : c * F64.EPS ≤ c * d := by
      apply mul_le_mul_of_nonneg_left hd.le
      rw [hc]; positivity
    linarith
  have h1 := fl_rel_err (c * d) hnorm
  rw [abs_of_pos hcd] at h1
  have h2 : |c * d - 4 / 10 * (32 / 10) ^ 2 * d| ≤ 4 / 10 * (32 / 10) ^ 2 * d / 2 ^ 51 := by
    have : c * d - 4 / 10 * (32 / 10) ^ 2 * d = (c - 4 / 10 * (32 / 10) ^ 2) * d := by ring
    rw [this, abs_mul, abs_of_pos hd0]
    have h3 : |c - 4 / 10 * (32 / 10) ^ 2| ≤ 4 / 10 * (32 / 10) ^ 2 / 2 ^ 51 := by
      rw [hc, abs_le]; constructor <;> norm_num
    calc |c - 4 / 10 * (32 / 10) ^ 2| * d ≤ 4 / 10 * (32 / 10) ^ 2 / 2 ^ 51 * d :=
          mul_le_mul_of_nonneg_right h3 hd0.le
      _ = 4 / 10 * (32 / 10) ^ 2 * d / 2 ^ 51 := by ring
  have h4 : c * d / 2 ^ 53 ≤ 4 / 10 * (32 / 10) ^ 2 * d / 2 ^ 51 := by
    rw [hc]
    have : (4611686018427389 / 1125899906842624 : ℚ) * d / 2 ^ 53
        = (4611686018427389 / 1125899906842624 / 2 ^ 53) * d := by ring
    rw [this]
    have : (4 / 10 * (32 / 10) ^ 2 * d / 2 ^ 51 : ℚ) = (4 / 10 * (32 / 10) ^ 2 / 2 ^ 51) * d := by
      ring
    rw [this]
    apply mul_le_mul_of_nonneg_right _ hd0.le
    norm_num
  have h5 : |F64.fl (c * d) - 4 / 10 * (32 / 10) ^ 2 * d|
      ≤ |F64.fl (c * d) - c * d| + |c * d - 4 / 10 * (32 / 10) ^ 2 * d| := by
    have : F64.fl (c * d) - 4 / 10 * (32 / 10) ^ 2 * d
        = (F64.fl (c * d) - c * d) + (c * d - 4 / 10 * (32 / 10) ^ 2 * d) := by ring
    rw [this]
    exact abs_add _ _
  have h6 : (4 / 10 * (32 / 10) ^ 2 * d / 2 ^ 51 : ℚ) + 4 / 10 * (32 / 10) ^ 2 * d / 2 ^ 51
      = 4 / 10 * (32 / 10) ^ 2 * d / 2 ^ 50 := by ring
  linarith

/-- C4: in every iteration whose computed advance duration `d` is at least
`1e-9` (`s2` being the state after the release phase and the speed update, `cj`
the dispatched job), for positive periods, in a state whose clock is a
non-negative double and with a hyperperiod that is a double of at least 1 (the
hyperperiod of the source is `1.0` or a least common multiple), the iteration
does not leave the loop, time advances to the next event, and `total_energy`
becomes the rounded sum `total_energy + calculate_energy d freq_idx` when a job
was dispatched and `total_energy + calculate_energy d 6` when none was, which is
the case whenever the ready set is empty, whatever the policy and `freq_idx`.
In the idle case `d` exceeds `1e-9`, so that `calculate_energy d 6` is the
product `0.4 * 3.2 * 3.2 * d` computed in binary64, within a relative error of
`2^-50` of `0.4 * 3.2^2 * d`. -/
theorem C4_energy_increment (fuel : Nat) (policy : Scheduler) (H : ℚ) (s s2 : SimState)
    (cj : Option Nat) (d : ℚ)
    (_hpos : ∀ t, t ∈ s.tasks → 0 < t.period)
    (hH : F64.fl H = H) (hH1 : 1 ≤ H)
    (ht : F64.fl s.current_time = s.current_time) (ht0 : 0 ≤ s.current_time)
    (hsu : F64.speed_update fuel policy (F64.release_phase policy s) = some s2)
    (hcj : current_job_of policy s2 = cj)
    (hdd : F64.exec_duration H (account_switch s2 cj) cj = d)
    (hd : F64.EPS ≤ d) :
    ∃ s1, F64.sim_iteration fuel policy H s = some (s1, false) ∧
      s1.current_time = F64.next_event_time H (account_switch s2 cj) cj ∧
      d = F64.fl (s1.current_time - s.current_time) ∧
      (cj ≠ none →
        s1.total_energy = F64.fl (s.total_energy + F64.calculate_energy d s2.freq_idx)) ∧
      (cj = none → s1.total_energy = F64.fl (s.total_energy + F64.calculate_energy d 6)) ∧
      (s2.ready_queue = [] → cj = none) ∧
      (cj = none → F64.EPS < d ∧
        F64.calculate_energy d 6
          = F64.fl (F64.fl (F64.fl (F64.fl (4 / 10) * F64.fl (32 / 10)) * F64.fl (32 / 10)) * d) ∧
        |F64.calculate_energy d 6 - 4 / 10 * (32 / 10) ^ 2 * d|
          ≤ 4 / 10 * (32 / 10) ^ 2 * d / 2 ^ 50) := by
  subst hcj
  subst hdd
  have hs2t : s2.current_time = s.current_time := by
    rw [(f64_speed_update_fields fuel policy _ s2 hsu).2.1,
      (f64_release_phase_fields policy s).2.2.2]
  have hs2e : s2.total_energy = s.total_energy := by
    rw [(f64_speed_update_fields fuel policy _ s2 hsu).1,
      (f64_release_phase_fields policy s).2.2.1]
  refine ⟨_, f64_sim_iteration_advance fuel policy H s s2 hsu hd, ?_, ?_, ?_, ?_, ?_, ?_⟩
  · rw [(f64_completion_fields policy _ _ _).2.2.2, (f64_advance_fields _ _ _ _).2.2.1]
  · rw [(f64_completion_fields policy _ _ _).2.2.2, (f64_advance_fields _ _ _ _).2.2.1]
    unfold F64.exec_duration
    rw [(account_switch_fields s2 _).2.2.2.1, hs2t]
  · intro hne
    rw [(f64_completion_fields policy _ _ _).2.2.1, (f64_advance_energy _ _ _ _).1 hne,
      (account_switch_fields s2 _).2.2.1, (account_switch_fields s2 _).2.1, hs2e]
  · intro hn
    rw [(f64_completion_fields policy _ _ _).2.2.1, (f64_advance_energy _ _ _ _).2 hn,
      (account_switch_fields s2 _).2.2.1, hs2e]
    rfl
  · intro hq
    simp [current_job_of, hq, deref, dispatch_empty]
  · intro hn
    have hne : F64.exec_duration H (account_switch s2 (current_job_of policy s2))
        (current_job_of policy s2) ≠ F64.EPS := by
      rw [hn]
      unfold F64.exec_duration F64.next_event_time F64.time_to_completion
      simp only
      rw [(account_switch_fields s2 none).2.2.2.1, hs2t]
      exact f64_idle_duration_ne_eps H s.current_time _ hH hH1 ht ht0
    have hlt := lt_of_le_of_ne hd (Ne.symm hne)
    obtain ⟨e1, e2⟩ := f64_idle_energy_near _ hlt
    refine ⟨hlt, ?_, e2⟩
    rw [e1, f64_idle_power.1, f64_idle_power.2.1]

/-- C4 on two first iterations under PLAIN_EDF (`freq_idx = 0`) with
hyperperiod 10.  One task (period 10, WCET 2): the job is dispatched, `d = 2`,
and the energy grows by `calculate_energy 2 0 = 50`.  One task with phase 5: the
ready set is empty, `d = 5`, and the energy grows by the idle energy of 5 time
units, `20.480000000000004`. -/
theorem C4_energy_increment_witness :
    (∃ s1, F64.sim_iteration 0 Scheduler.PLAIN_EDF 10
        (F64.sim_init Scheduler.PLAIN_EDF [mkTask 0 10 2]) = some (s1, false) ∧
      s1.current_time = 2 ∧ s1.total_energy = 50) ∧
    (∃ s1, F64.sim_iteration 0 Scheduler.PLAIN_EDF 10
        (F64.sim_init Scheduler.PLAIN_EDF [{ mkTask 0 10 2 with phase := 5 }])
          = some (s1, false) ∧
      s1.current_time = 5 ∧
      s1.total_energy = F64.fl (4611686018427389 / 1125899906842624 * 5) ∧
      |s1.total_energy - 4 / 10 * (32 / 10) ^ 2 * 5| ≤ 4 / 10 * (32 / 10) ^ 2 * 5 / 2 ^ 50) := by
  constructor
  · obtain ⟨s1, h1, h2, _, h3, _⟩ := C4_energy_increment 0 Scheduler.PLAIN_EDF 10
      (F64.sim_init Scheduler.PLAIN_EDF [mkTask 0 10 2])
      (F64.release_phase Scheduler.PLAIN_EDF (F64.sim_init Scheduler.PLAIN_EDF [mkTask 0 10 2]))
      (some 0) 2 (by decide) (by decide!) (by norm_num) (by decide!) (by decide!)
      (f64_speed_update_static _ _ _ (by decide)) (by decide!) (by decide!) (by decide!)
    refine ⟨s1, h1, ?_, ?_⟩
    · rw [h2]; decide!
    · rw [h3 (by simp)]; decide!
  · obtain ⟨s1, h1, h2, _, _, h4, _, h6⟩ := C4_energy_increment 0 Scheduler.PLAIN_EDF 10
      (F64.sim_init Scheduler.PLAIN_EDF [{ mkTask 0 10 2 with phase := 5 }])
      (F64.release_phase Scheduler.PLAIN_EDF
        (F64.sim_init Scheduler.PLAIN_EDF [{ mkTask 0 10 2 with phase := 5 }]))
      none 5 (by decide) (by decide!) (by norm_num) (by decide!) (by decide!)
      (f64_speed_update_static _ _ _ (by decide)) (by decide!) (by decide!) (by decide!)
    have e0 : (F64.sim_init Scheduler.PLAIN_EDF
        [{ mkTask 0 10 2 with phase := 5 }]).total_energy = 0 := by decide!
    have e1 : s1.total_energy = F64.calculate_energy 5 6 := by
      rw [h4 rfl, e0, zero_add]
      decide!
    refine ⟨s1, h1, ?_, ?_, ?_⟩
    · rw [h2]; decide!
    · rw [e1]; decide!
    · rw [e1]; exact (h6 rfl).2.2

/-! ## CCEDF and STATIC_EDF on a single task -/

/-- For the single task (phase 0, period 10, deadline 10, WCET 5) whose
invocations all take 2, the CCEDF run and the STATIC_EDF run return the same
total energy, `49.07600000000001` with hyperperiod 10 (and equal energies with
hyperperiod 30): under both policies every job is released with utilisation
0.5 and runs for 4 time units at level 5 (speed 0.5), and the idle time is
charged at level 6.  CCEDF lowers the utilisation to 0.2 only at a completion,
when nothing is left to run, and raises it again at the next release. -/
theorem ccedf_static_equal_energy_example :
    (F64.simulate 0 20 Scheduler.CCEDF [ccedf_demo_task] 10).map
        (fun s => (s.total_energy, s.job_count, (jobAt s.job_pool 0).actual_exec_time))
      = some (3453416489263039 / 70368744177664, 1, 2) ∧
    (F64.simulate 0 20 Scheduler.STATIC_EDF [ccedf_demo_task] 10).map
        (fun s => (s.total_energy, s.job_count, (jobAt s.job_pool 0).actual_exec_time))
      = some (3453416489263039 / 70368744177664, 1, 2) ∧
    (F64.simulate 0 40 Scheduler.CCEDF [ccedf_demo_task] 30).map
        (fun s => (s.total_energy, s.job_count))
      = (F64.simulate 0 40 Scheduler.STATIC_EDF [ccedf_demo_task] 30).map
        (fun s => (s.total_energy, s.job_count)) ∧
    (F64.simulate 0 40 Scheduler.CCEDF [ccedf_demo_task] 30).map (fun s => s.job_count)
      = some 3 := by
  have h1 : (F64.simulate 0 20 Scheduler.CCEDF [ccedf_demo_task] 10).map
        (fun s => (s.total_energy, s.job_count, (jobAt s.job_pool 0).actual_exec_time))
      = some (3453416489263039 / 70368744177664, 1, 2) := by decide!
  have h2 : (F64.simulate 0 20 Scheduler.STATIC_EDF [ccedf_demo_task] 10).map
        (fun s => (s.total_energy, s.job_count, (jobAt s.job_pool 0).actual_exec_time))
      = some (3453416489263039 / 70368744177664, 1, 2) := by decide!
  have h3 : (F64.simulate 0 40 Scheduler.CCEDF [ccedf_demo_task] 30).map
        (fun s => (s.total_energy, s.job_count))
      = (F64.simulate 0 40 Scheduler.STATIC_EDF [ccedf_demo_task] 30).map
        (fun s => (s.total_energy, s.job_count)) := by decide!
  have h4 : (F64.simulate 0 40 Scheduler.CCEDF [ccedf_demo_task] 30).map
      (fun s => s.job_count) = some 3 := by decide!
  exact ⟨h1, h2, h3, h4⟩

end Simulator
